import Mathlib

/-!
# SortMeRNA output formats (`src/sortmerna/outputformats.cpp`)

A shallow embedding of the alignment-record encoders of `outputformats.cpp`
and theorems about them.

Conventions of the embedding.

* A 32-bit machine integer is a `Nat` holding its bit pattern (a value below `2^32`);
  every arithmetic step of the source on a cursor or a counter is followed by `% 2^32`.  A
  signed 32-bit variable (`int32_t q`) is held as its two's-complement bit pattern, and is
  read back as a signed number with `toSigned` where the source prints it or uses it as an
  index.  The column counter `count` (at most 60) and the word index `c` (at most the length
  of the CIGAR) are plain naturals.  The coordinates of an alignment are `int32_t` values,
  held as integers.
* Undefined behaviour of the source (an index past the size of a `std::string` or outside
  the five-entry `to_char` table, an index outside a `std::vector`, a division by zero) makes
  the embedded function return `none`.
* A sequence (`std::string sequence`) is a list of base codes; the source indexes
  `to_char` with every element of a sequence.  Reading a `std::string` at its size gives the
  terminating `char()`.
* A `double` that only ever counts (`++id`) is a `Nat`; the step saturates at `2^53`,
  the first integer whose successor a `double` cannot hold.
* The text written to an `ofstream` is a list of tokens `Tok`, one per `operator<<` call,
  in the order of the calls; `Tok.render` turns a token into its characters.
-/

namespace Sortmerna

/-! ## Machine integers -/

/-- Reduction of a natural number to an unsigned 32-bit value. -/
def u32 (n : Nat) : Nat := n % 2 ^ 32

/-- Bit pattern of a signed 32-bit integer (conversion `int32_t → uint32_t`). -/
def ofSigned (x : Int) : Nat := (x % 2 ^ 32).toNat

/-- Signed reading of a 32-bit pattern (conversion `uint32_t → int32_t`). -/
def toSigned (n : Nat) : Int := if n % 2 ^ 32 < 2 ^ 31 then (n % 2 ^ 32 : Nat) else (n % 2 ^ 32 : Nat) - 2 ^ 32

/-- Increment `++id` of a `double` that holds the integer `x`, rounded to nearest with ties
to even: exact below `2^53`; from `2^53` up to `2^54`, where the doubles are the even
integers, `x + 1` lies halfway between `x` and `x + 2` and rounds to the one whose
significand `x / 2` is even (`2^53` stays, `2^53 + 2` becomes `2^53 + 4`); from `2^54` on
`x + 1` rounds back to `x`. -/
def incrDouble (x : Nat) : Nat :=
  if x < 2 ^ 53 then x + 1
  else if x < 2 ^ 54 then (if (x / 2) % 2 = 0 then x else x + 2)
  else x

/-! ## Packed CIGAR words -/

/-- Opcode tag of a packed CIGAR word: `0xf & w`. -/
def letter (w : Nat) : Nat := 0xf &&& w

/-- Run length of a packed CIGAR word: `(0xfffffff0 & w) >> 4`. -/
def length (w : Nat) : Nat := (0xfffffff0 &&& w) >>> 4

/-! ## Sequences -/

/-- The table `const char to_char[5] = { 'A','C','G','T','N' }`. -/
def to_char : List Char := ['A', 'C', 'G', 'T', 'N']

/-- Element `s[i]` of a sequence (a `std::string`) for an `int32_t` cursor with bit pattern
`i`: the element at `i` below the size, the terminating `char()` (code 0) at `i` equal to the
size; a cursor past the size, or a negative cursor, is out of bounds. -/
def seqAt (s : List Nat) (i : Nat) : Option Nat :=
  if i < 2 ^ 31 then (s ++ [0])[i]? else none

/-- The character `to_char[(int)s[i]]`. -/
def baseChar (s : List Nat) (i : Nat) : Option Char :=
  (seqAt s i).bind fun code => to_char[code]?

/-! ## `Output::calcMismatchGapId` -/

/-- Counters updated by `calcMismatchGapId` (its three reference parameters). -/
structure Metrics where
  /-- The counter `uint32_t & mismatches`. -/
  mismatches : Nat
  /-- The counter `uint32_t & gaps`. -/
  gaps : Nat
  /-- The counter `double & id`. -/
  id : Nat
deriving DecidableEq

/-- The loop `for (u = 0; u < length; ++u)` of a Match word, with `n` iterations left:
compares the two mapped bases, counts a mismatch or an identity, advances both cursors. -/
def matchRun (refseq readseq : List Nat) : Nat → Nat → Nat → Nat → Nat → Option (Nat × Nat × Nat × Nat)
  | 0, qb, pb, mismatches, id => some (qb, pb, mismatches, id)
  | n + 1, qb, pb, mismatches, id =>
    match baseChar refseq qb, baseChar readseq pb with
    | some r, some s =>
      if r ≠ s then matchRun refseq readseq n (u32 (qb + 1)) (u32 (pb + 1)) (u32 (mismatches + 1)) id
      else matchRun refseq readseq n (u32 (qb + 1)) (u32 (pb + 1)) mismatches (incrDouble id)
    | _, _ => none

/-- The loop `for (c2 = 0; c2 < cigarLen; ++c2)` over the packed words that are left. -/
def calcLoop (refseq readseq : List Nat) : List Nat → Nat → Nat → Metrics → Option Metrics
  | [], _, _, m => some m
  | w :: ws, qb, pb, m =>
    if letter w = 0 then
      match matchRun refseq readseq (length w) qb pb m.mismatches m.id with
      | some (qb1, pb1, mismatches, id) =>
        calcLoop refseq readseq ws qb1 pb1 { m with mismatches := mismatches, id := id }
      | none => none
    else if letter w = 1 then
      calcLoop refseq readseq ws qb (u32 (pb + length w)) { m with gaps := u32 (m.gaps + length w) }
    else
      calcLoop refseq readseq ws (u32 (qb + length w)) pb { m with gaps := u32 (m.gaps + length w) }

/-- `Output::calcMismatchGapId` for one alignment: `cigar` is the alignment's packed CIGAR,
`ref_begin1` and `read_begin1` its start coordinates, `m` the values of the three reference
parameters on entry; the result holds their values on return. -/
def calcMismatchGapId (refseq readseq : List Nat) (cigar : List Nat) (ref_begin1 read_begin1 : Int)
    (m : Metrics) : Option Metrics :=
  calcLoop refseq readseq cigar (ofSigned ref_begin1) (ofSigned read_begin1) m

/-! ## Totals of a CIGAR -/

/-- Sum of the run lengths of the words whose tag satisfies `p`. -/
def runTotal (p : Nat → Bool) : List Nat → Nat
  | [] => 0
  | w :: ws => (if p (letter w) then length w else 0) + runTotal p ws

/-- Total length of the Match-tagged runs (tag 0). -/
def matchTotal (cigar : List Nat) : Nat := runTotal (fun t => t == 0) cigar

/-- Total length of the Insertion-tagged (1) and Deletion-tagged (2) runs. -/
def gapTotal (cigar : List Nat) : Nat := runTotal (fun t => t == 1 || t == 2) cigar

/-- Total length of the runs that move the reference cursor (every tag but Insertion). -/
def refSpan (cigar : List Nat) : Nat := runTotal (fun t => t != 1) cigar

/-- Total length of the runs that move a read cursor (every tag but Deletion). -/
def readSpan (cigar : List Nat) : Nat := runTotal (fun t => t != 2) cigar

/-! ## The Blast-like pairwise view of `Output::report_blast` -/

/-- What one iteration of the block loop writes: the coordinate in front of the Target
columns (`q + 1`), the Target columns, the coordinate behind them (`q`), the columns of the
match line, and the same three parts of the Query line. -/
structure Block where
  /-- Value of `q + 1` written before the Target columns. -/
  targetStart : Int
  /-- Characters written by the Target pass. -/
  targetCols : List Char
  /-- Value of `q` written after the Target columns. -/
  targetEnd : Int
  /-- Characters written by the match-line pass. -/
  matchCols : List Char
  /-- Value of `p + 1` written before the Query columns. -/
  queryStart : Int
  /-- Characters written by the Query pass. -/
  queryCols : List Char
  /-- Value of `p` written after the Query columns. -/
  queryEnd : Int
deriving DecidableEq

/-- Inner loop `for (j = 0; j < l; ++j)` of the Target pass for a word with tag `t`, with `n`
iterations left.  Result: the characters written, `q`, `count`, and whether `goto step2`
was taken. -/
def targetRun (refseq : List Nat) (t : Nat) : Nat → Nat → Nat → Option (List Char × Nat × Nat × Bool)
  | 0, q, count => some ([], q, count, false)
  | n + 1, q, count =>
    if t = 1 then
      if count + 1 = 60 then some (['-'], q, count + 1, true)
      else (targetRun refseq t n q (count + 1)).map fun r => ('-' :: r.1, r.2)
    else
      match baseChar refseq q with
      | none => none
      | some ch =>
        if count + 1 = 60 then some ([ch], u32 (q + 1), count + 1, true)
        else (targetRun refseq t n (u32 (q + 1)) (count + 1)).map fun r => (ch :: r.1, r.2)

/-- Loop `for (c = e; c < cigarLen; ++c)` of the Target pass over the words that are left.
Result: the characters written and `q` at label `step2`. -/
def targetPass (refseq : List Nat) (left : Nat) : List Nat → Nat → Nat → Option (List Char × Nat)
  | [], q, _ => some ([], q)
  | w :: ws, q, count =>
    match targetRun refseq (letter w) (if count = 0 ∧ left > 0 then left else length w) q count with
    | none => none
    | some (cs, q1, _, true) => some (cs, q1)
    | some (cs, q1, count1, false) =>
      (targetPass refseq left ws q1 count1).map fun r => (cs ++ r.1, r.2)

/-- Inner loop of the match-line pass.  Result: the characters written, `q`, `p`, `count`,
and whether `goto step3` was taken. -/
def matchLineRun (refseq readseq : List Nat) (t : Nat) :
    Nat → Nat → Nat → Nat → Option (List Char × Nat × Nat × Nat × Bool)
  | 0, q, p, count => some ([], q, p, count, false)
  | n + 1, q, p, count =>
    if t = 0 then
      match baseChar refseq q, baseChar readseq p with
      | some r, some s =>
        let ch := if r = s then '|' else '*'
        if count + 1 = 60 then some ([ch], u32 (q + 1), u32 (p + 1), count + 1, true)
        else (matchLineRun refseq readseq t n (u32 (q + 1)) (u32 (p + 1)) (count + 1)).map
          fun r => (ch :: r.1, r.2)
      | _, _ => none
    else
      let q1 := if t = 1 then q else u32 (q + 1)
      let p1 := if t = 1 then u32 (p + 1) else p
      if count + 1 = 60 then some ([' '], q1, p1, count + 1, true)
      else (matchLineRun refseq readseq t n q1 p1 (count + 1)).map fun r => (' ' :: r.1, r.2)

/-- Loop over the words that are left of the match-line pass.  Result: the characters
written, `q` at label `step3`, and whether `qb = q` was executed. -/
def matchLinePass (refseq readseq : List Nat) (left : Nat) :
    List Nat → Nat → Nat → Nat → Option (List Char × Nat × Bool)
  | [], q, _, _ => some ([], q, false)
  | w :: ws, q, p, count =>
    match matchLineRun refseq readseq (letter w) (if count = 0 ∧ left > 0 then left else length w) q p count with
    | none => none
    | some (cs, q1, _, _, true) => some (cs, q1, true)
    | some (cs, q1, p1, count1, false) =>
      (matchLinePass refseq readseq left ws q1 p1 count1).map fun r => (cs ++ r.1, r.2)

/-- Inner loop of the Query pass.  Result: the characters written, `p`, `count`, and, when
`goto end` was taken, the value `l - j - 1` assigned to `left`. -/
def queryRun (readseq : List Nat) (t : Nat) : Nat → Nat → Nat → Option (List Char × Nat × Nat × Option Nat)
  | 0, p, count => some ([], p, count, none)
  | n + 1, p, count =>
    if t = 2 then
      if count + 1 = 60 then some (['-'], p, count + 1, some n)
      else (queryRun readseq t n p (count + 1)).map fun r => ('-' :: r.1, r.2)
    else
      match baseChar readseq p with
      | none => none
      | some ch =>
        if count + 1 = 60 then some ([ch], u32 (p + 1), count + 1, some n)
        else (queryRun readseq t n (u32 (p + 1)) (count + 1)).map fun r => (ch :: r.1, r.2)

/-- Loop over the words that are left of the Query pass; `c` is the index of the first of
them.  Result: the characters written, `p` at label `end`, the new `e`, the new `left`, and
whether `pb = p` was executed. -/
def queryPass (readseq : List Nat) (left : Nat) :
    List Nat → Nat → Nat → Nat → Option (List Char × Nat × Nat × Nat × Bool)
  | [], c, p, _ => some ([], p, c, 0, false)
  | w :: ws, c, p, count =>
    match queryRun readseq (letter w) (if count = 0 ∧ left > 0 then left else length w) p count with
    | none => none
    | some (cs, p1, _, some left1) => some (cs, p1, if left1 = 0 then c + 1 else c, left1, true)
    | some (cs, p1, count1, none) =>
      (queryPass readseq left ws (c + 1) p1 count1).map fun r => (cs ++ r.1, r.2)

/-- The block loop `while (e < cigarLen || left > 0)`; `fuel` bounds the number of
iterations. -/
def blockLoop (refseq readseq cigar : List Nat) : Nat → Nat → Nat → Nat → Nat → Option (List Block)
  | 0, e, left, _, _ => if e < cigar.length ∨ left > 0 then none else some []
  | fuel + 1, e, left, qb, pb =>
    if e < cigar.length ∨ left > 0 then
      match targetPass refseq left (cigar.drop e) qb 0,
            matchLinePass refseq readseq left (cigar.drop e) qb pb 0,
            queryPass readseq left (cigar.drop e) e pb 0 with
      | some (tcols, q1), some (mcols, q2, stop2), some (qcols, p3, e1, left1, stop3) =>
        (blockLoop refseq readseq cigar fuel e1 left1 (if stop2 then q2 else qb)
            (if stop3 then p3 else pb)).map fun rest =>
          { targetStart := toSigned (qb + 1), targetCols := tcols, targetEnd := toSigned q1,
            matchCols := mcols,
            queryStart := toSigned (pb + 1), queryCols := qcols, queryEnd := toSigned p3 } :: rest
      | _, _, _ => none
    else some []

/-- Number of columns of a CIGAR: the sum of all run lengths. -/
def totalCols (cigar : List Nat) : Nat := runTotal (fun _ => true) cigar

/-- The blocks that the pairwise branch of `Output::report_blast` writes for one alignment
(`if (cigar.size() > 0) { ... while ... }`). -/
def pairwiseBlocks (refseq readseq cigar : List Nat) (ref_begin1 read_begin1 : Int) : Option (List Block) :=
  if cigar.length > 0 then
    blockLoop refseq readseq cigar (totalCols cigar + 1) 0 0 (ofSigned ref_begin1) (ofSigned read_begin1)
  else some []

/-! ## The output stream -/

/-- One `operator<<` call on the `ofstream`: a piece of text or an integer, each with the
field width set by a preceding `fileout.width(w)` (`0` when there is none), or a `double`
(always written after `fileout.precision(3)`). -/
inductive Tok where
  | text (width : Nat) (s : List Char)
  | int (width : Nat) (v : Int)
  | dbl (v : ℚ)
deriving DecidableEq

/-- Decimal text of an integer. -/
def showInt (v : Int) : List Char :=
  if v < 0 then '-' :: Nat.toDigits 10 v.natAbs else Nat.toDigits 10 v.natAbs

/-- Right-justification in a field of `width` characters. -/
def padLeft (width : Nat) (s : List Char) : List Char :=
  List.replicate (width - s.length) ' ' ++ s

/-- Characters of one token; `fmt` is the text that `operator<<` gives a `double` at
precision 3. -/
def Tok.render (fmt : ℚ → List Char) : Tok → List Char
  | .text w s => padLeft w s
  | .int w v => padLeft w (showInt v)
  | .dbl v => fmt v

/-- Characters of a token stream. -/
def renderAll (fmt : ℚ → List Char) (ts : List Tok) : List Char :=
  (ts.map (Tok.render fmt)).flatten

/-! ## Records -/

/-- The alignment record (`s_align2`). -/
structure Alignment where
  /-- Packed CIGAR words; `cigarLen` is the length of this list. -/
  cigar : List Nat
  /-- Index of the reference sequence in `refs.buffer`. -/
  ref_seq : Nat
  ref_begin1 : Int
  ref_end1 : Int
  read_begin1 : Int
  read_end1 : Int
  /-- Length of the read (`uint32_t`). -/
  readlen : Nat
  score1 : Nat
  /-- `true`: forward aligned; `false`: reverse-complement aligned. -/
  strand : Bool
deriving DecidableEq

/-- An entry of `refs.buffer`. -/
structure Reference where
  header : List Char
  sequence : List Nat
deriving DecidableEq

/-- The read with its alignments (`read.hits_align_info.alignv`). -/
structure Read where
  header : List Char
  sequence : List Nat
  alignv : List Alignment
deriving DecidableEq

/-- The values of `index.opts.blastFormat`. -/
inductive BlastFormat where
  | TABULAR
  | REGULAR
  | OTHER
deriving DecidableEq

/-- What `Output::report_blast` reads of the index: the selected format and the bit score
that the Gumbel formula gives a raw score (a `uint32_t`). -/
structure Index where
  blastFormat : BlastFormat
  bitscore : Nat → Nat

/-- The globals that the encoders read. -/
structure Globals where
  print_all_reads_gv : Bool
  user_opts : List (List Char)
  /-- The value of the identifier `evalue` in `Output::report_blast`. -/
  evalue : ℚ

/-- Wrap-around reading of a signed 32-bit result. -/
def i32 (x : Int) : Int := toSigned (ofSigned x)

/-- The text `h.substr(0, h.find(' '))`: the header up to its first space, the whole header
when it has none. -/
def headId (h : List Char) : List Char := h.takeWhile (fun c => c != ' ')

/-- The tokens of the CIGAR string of an alignment; `seqlen` is the length from which the
trailing soft clip is computed. -/
def cigarTokens (a : Alignment) (seqlen : Nat) : List Tok :=
  (if a.read_begin1 ≠ 0 then [Tok.int 0 a.read_begin1, Tok.text 0 ['S']] else []) ++
  a.cigar.flatMap (fun w =>
    [Tok.int 0 (length w),
     Tok.text 0 [if letter w = 0 then 'M' else if letter w = 1 then 'I' else 'D']]) ++
  (if ofSigned ((seqlen : Int) - a.read_end1 - 1) > 0
    then [Tok.int 0 (ofSigned ((seqlen : Int) - a.read_end1 - 1)), Tok.text 0 ['S']] else [])

/-- The loop over `user_opts` that writes the optional columns of an aligned record in
`Output::report_blast`; a zero `readlen` divides by zero in the `qcov` column. -/
def optionalColumns (a : Alignment) (seqlen : Nat) : List (List Char) → Option (List Tok)
  | [] => some []
  | o :: os =>
    if o = "cigar".toList then
      (optionalColumns a seqlen os).map fun r => Tok.text 0 ['\t'] :: cigarTokens a seqlen ++ r
    else if o = "qcov".toList then
      if a.readlen = 0 then none
      else (optionalColumns a seqlen os).map fun r =>
        Tok.text 0 ['\t'] ::
          Tok.dbl ((((i32 (a.read_end1 - a.read_begin1 + 1)).natAbs / a.readlen : Nat) : ℚ) * 100) :: r
    else if o = "qstrand".toList then
      (optionalColumns a seqlen os).map fun r =>
        Tok.text 0 ['\t'] :: Tok.text 0 [if a.strand then '+' else '-'] :: r
    else optionalColumns a seqlen os

/-- The null alignment of a read that did not align: the text written after the query id,
with the loop over `user_opts` of the source. -/
def nullRecord : List (List Char) → List Tok
  | [] => []
  | o :: os =>
    (if o = "cigar".toList then [Tok.text 0 "\t*".toList]
      else if o = "qcov".toList then [Tok.text 0 "\t0".toList]
      else if o = "qstrand".toList then [Tok.text 0 "\t*".toList]
      else []) ++ Tok.text 0 ['\n'] :: nullRecord os

/-- The fixed columns 2 to 12 of an aligned tabular record of `Output::report_blast`, the
optional columns `opt` and the closing newline; `m` holds the counters after the call of
`calcMismatchGapId`. -/
def tabularRecord (g : Globals) (idx : Index) (refhead : List Char) (a : Alignment) (m : Metrics)
    (opt : List Tok) : List Tok :=
  [Tok.text 0 ['\t'], Tok.text 0 (headId refhead), Tok.text 0 ['\t'],
   Tok.dbl ((m.id : ℚ) * 100), Tok.text 0 ['\t'],
   Tok.int 0 (i32 (a.read_end1 - a.read_begin1 + 1)), Tok.text 0 ['\t'],
   Tok.int 0 m.mismatches, Tok.text 0 ['\t'],
   Tok.int 0 m.gaps, Tok.text 0 ['\t'],
   Tok.int 0 (i32 (a.read_begin1 + 1)), Tok.text 0 ['\t'],
   Tok.int 0 (i32 (a.read_end1 + 1)), Tok.text 0 ['\t'],
   Tok.int 0 (i32 (a.ref_begin1 + 1)), Tok.text 0 ['\t'],
   Tok.int 0 (i32 (a.ref_end1 + 1)), Tok.text 0 ['\t'],
   Tok.dbl g.evalue, Tok.text 0 ['\t'],
   Tok.int 0 (idx.bitscore a.score1)] ++ opt ++ [Tok.text 0 ['\n']]

/-- The tokens of one block of the pairwise view. -/
def blockTokens (b : Block) : List Tok :=
  [Tok.text 0 "Target: ".toList, Tok.int 8 b.targetStart, Tok.text 0 "    ".toList] ++
  b.targetCols.map (fun c => Tok.text 0 [c]) ++
  [Tok.text 0 "    ".toList, Tok.int 0 b.targetEnd, Tok.text 0 ['\n'], Tok.text 20 [' ']] ++
  b.matchCols.map (fun c => Tok.text 0 [c]) ++
  [Tok.text 0 "\nQuery: ".toList, Tok.int 9 b.queryStart, Tok.text 0 "    ".toList] ++
  b.queryCols.map (fun c => Tok.text 0 [c]) ++
  [Tok.text 0 "    ".toList, Tok.int 0 b.queryEnd, Tok.text 0 "\n\n".toList]

/-- The lines in front of the blocks of the pairwise view. -/
def pairwiseHeader (refname readname : List Char) (score1 bitscore : Nat) (evalue : ℚ)
    (strand : Bool) : List Tok :=
  [Tok.text 0 "Sequence ID: ".toList, Tok.text 0 refname, Tok.text 0 ['\n'],
   Tok.text 0 "Query ID: ".toList, Tok.text 0 readname, Tok.text 0 ['\n'],
   Tok.text 0 "Score: ".toList, Tok.int 0 score1, Tok.text 0 " bits (".toList,
   Tok.int 0 bitscore, Tok.text 0 ")\t".toList,
   Tok.text 0 "Expect: ".toList, Tok.dbl evalue, Tok.text 0 ['\t'],
   Tok.text 0 (if strand then "strand: +\n\n".toList else "strand: -\n\n".toList)]

/-- The loop `for (i = 0; i < alignv.size(); ++i)` of `Output::report_blast` over the
alignments that are left; `m` holds the counters `mismatches`, `gaps` and `id`, which are
declared in front of the loop.  The null-alignment branch returns from the function. -/
def reportBlastLoop (g : Globals) (idx : Index) (refs : List Reference) (read : Read) :
    List Alignment → Metrics → Option (List Tok)
  | [], _ => some []
  | a :: as, m =>
    match refs[a.ref_seq]? with
    | none => none
    | some ref =>
      match idx.blastFormat with
      | BlastFormat.REGULAR =>
        match pairwiseBlocks ref.sequence read.sequence a.cigar a.ref_begin1 a.read_begin1 with
        | none => none
        | some blocks =>
          (reportBlastLoop g idx refs read as m).map fun r =>
            pairwiseHeader (headId ref.header) (headId read.header) a.score1 (idx.bitscore a.score1)
              g.evalue a.strand ++ blocks.flatMap blockTokens ++ r
      | BlastFormat.TABULAR =>
        if g.print_all_reads_gv ∧ read.alignv.length = 0 then
          some (Tok.text 0 (headId read.header) ::
            Tok.text 0 "\t*\t0\t0\t0\t0\t0\t0\t0\t0\t0\t0".toList :: nullRecord g.user_opts)
        else
          match calcMismatchGapId ref.sequence read.sequence a.cigar a.ref_begin1 a.read_begin1 m with
          | none => none
          | some m1 =>
            match optionalColumns a read.sequence.length g.user_opts with
            | none => none
            | some opt =>
              (reportBlastLoop g idx refs read as m1).map fun r =>
                Tok.text 0 (headId read.header) :: tabularRecord g idx ref.header a m1 opt ++ r
      | BlastFormat.OTHER => reportBlastLoop g idx refs read as m

/-- `Output::report_blast`: the tokens written to `fileout` for one read. -/
def Output.report_blast (g : Globals) (idx : Index) (refs : List Reference) (read : Read) :
    Option (List Tok) :=
  reportBlastLoop g idx refs read read.alignv ⟨0, 0, 0⟩

/-- The scan `while ((*s != ' ') && (*s != '\n') && (*s != '\t')) fileout << *s++` of the
free functions: the characters in front of the first space, newline or tab; the scan leaves
the string when there is none. -/
def scanName : List Char → Option (List Char)
  | [] => none
  | c :: cs =>
    if c = ' ' ∨ c = '\n' ∨ c = '\t' then some [] else (scanName cs).map fun r => c :: r

/-- The optional columns of an aligned record in the free function `report_blast`. -/
def optionalColumnsFree (a : Alignment) (readlen : Nat) (strand : Bool) (coverage : ℚ) :
    List (List Char) → List Tok
  | [] => []
  | o :: os =>
    if o = "cigar".toList then
      Tok.text 0 ['\t'] :: cigarTokens a readlen ++ optionalColumnsFree a readlen strand coverage os
    else if o = "qcov".toList then
      Tok.text 0 ['\t'] :: Tok.dbl (coverage * 100) :: optionalColumnsFree a readlen strand coverage os
    else if o = "qstrand".toList then
      Tok.text 0 ['\t'] :: Tok.text 0 [if strand then '+' else '-'] ::
        optionalColumnsFree a readlen strand coverage os
    else optionalColumnsFree a readlen strand coverage os

/-- The tabular branch (`blast_tabular` set) of the free function `report_blast`: the tokens
written for one alignment `a` of a read (`none`: the pointer `a` is `NULL`).  Dereferencing a
`NULL` alignment is undefined. -/
def report_blast (g : Globals) (a : Option Alignment) (read_name ref_name : List Char)
    (evalue : ℚ) (readlen bitscore : Nat) (strand : Bool) (id coverage : ℚ)
    (mismatches gaps : Nat) : Option (List Tok) :=
  match scanName read_name with
  | none => none
  | some query =>
    match a with
    | none =>
      if g.print_all_reads_gv then
        some (Tok.text 0 query ::
          Tok.text 0 "\t*\t0\t0\t0\t0\t0\t0\t0\t0\t0\t0".toList :: nullRecord g.user_opts)
      else none
    | some a =>
      match scanName ref_name with
      | none => none
      | some subject =>
        some ([Tok.text 0 query, Tok.text 0 ['\t'], Tok.text 0 subject, Tok.text 0 ['\t'],
          Tok.dbl (id * 100), Tok.text 0 ['\t'],
          Tok.int 0 (i32 (a.read_end1 - a.read_begin1 + 1)), Tok.text 0 ['\t'],
          Tok.int 0 mismatches, Tok.text 0 ['\t'],
          Tok.int 0 gaps, Tok.text 0 ['\t'],
          Tok.int 0 (i32 (a.read_begin1 + 1)), Tok.text 0 ['\t'],
          Tok.int 0 (i32 (a.read_end1 + 1)), Tok.text 0 ['\t'],
          Tok.int 0 (i32 (a.ref_begin1 + 1)), Tok.text 0 ['\t'],
          Tok.int 0 (i32 (a.ref_end1 + 1)), Tok.text 0 ['\t'],
          Tok.dbl evalue, Tok.text 0 ['\t'],
          Tok.int 0 bitscore] ++ optionalColumnsFree a readlen strand coverage g.user_opts ++
          [Tok.text 0 ['\n']])

/-! ## Column view of a CIGAR

The three passes of the block loop are compared with walks over an explicit list of columns,
each column being the tag of the word it comes from. -/

/-- The columns of a CIGAR: every word contributes `length w` columns tagged `letter w`. -/
def expand : List Nat → List Nat
  | [] => []
  | w :: ws => List.replicate (length w) (letter w) ++ expand ws

/-- The columns that are left when the block loop stands at the words `ws` with `left`
columns of the first word still to be written (`left = 0`: the whole first word). -/
def pending (left : Nat) : List Nat → List Nat
  | [] => []
  | w :: ws => List.replicate (if left > 0 then left else length w) (letter w) ++ expand ws

/-- Target characters of a list of columns in one walk from reference cursor `q`: `-` for an
Insertion column, the reference base otherwise.  Result: the characters and the cursor. -/
def targetLine (refseq : List Nat) : List Nat → Nat → Option (List Char × Nat)
  | [], q => some ([], q)
  | t :: ts, q =>
    if t = 1 then (targetLine refseq ts q).map fun r => ('-' :: r.1, r.2)
    else
      match baseChar refseq q with
      | none => none
      | some ch => (targetLine refseq ts (u32 (q + 1))).map fun r => (ch :: r.1, r.2)

/-- Match-line characters of a list of columns in one walk from `(q, p)`. -/
def matchLine (refseq readseq : List Nat) : List Nat → Nat → Nat → Option (List Char × Nat × Nat)
  | [], q, p => some ([], q, p)
  | t :: ts, q, p =>
    if t = 0 then
      match baseChar refseq q, baseChar readseq p with
      | some r, some s =>
        (matchLine refseq readseq ts (u32 (q + 1)) (u32 (p + 1))).map
          fun x => ((if r = s then '|' else '*') :: x.1, x.2)
      | _, _ => none
    else
      (matchLine refseq readseq ts (if t = 1 then q else u32 (q + 1))
        (if t = 1 then u32 (p + 1) else p)).map fun x => (' ' :: x.1, x.2)

/-- Query characters of a list of columns in one walk from read cursor `p`: `-` for a
Deletion column, the read base otherwise. -/
def queryLine (readseq : List Nat) : List Nat → Nat → Option (List Char × Nat)
  | [], p => some ([], p)
  | t :: ts, p =>
    if t = 2 then (queryLine readseq ts p).map fun r => ('-' :: r.1, r.2)
    else
      match baseChar readseq p with
      | none => none
      | some ch => (queryLine readseq ts (u32 (p + 1))).map fun r => (ch :: r.1, r.2)

/-- The resume point that the Query pass leaves: the new `e`, the new `left`, and whether the
pass stopped at column 60, for the word list `ws` whose first word has index `c`. -/
def resume (left : Nat) : List Nat → Nat → Nat → Nat × Nat × Bool
  | [], c, _ => (c, 0, false)
  | w :: ws, c, count =>
    if 60 - count ≤ (if count = 0 ∧ left > 0 then left else length w) then
      (if (if count = 0 ∧ left > 0 then left else length w) - (60 - count) = 0 then c + 1 else c,
        (if count = 0 ∧ left > 0 then left else length w) - (60 - count), true)
    else resume left ws (c + 1) (count + (if count = 0 ∧ left > 0 then left else length w))

/-- Number of columns that move the reference cursor (every column but an Insertion). -/
def refCount (cols : List Nat) : Nat := cols.countP (fun t => t != 1)

/-- Number of columns that move the read cursor of the Query pass (every column but a
Deletion). -/
def readCount (cols : List Nat) : Nat := cols.countP (fun t => t != 2)

/-- Every word of the CIGAR carries one of the tags Match (0), Insertion (1), Deletion (2). -/
def TagsMID (cigar : List Nat) : Prop := ∀ w ∈ cigar, letter w ≤ 2

instance (cigar : List Nat) : Decidable (TagsMID cigar) := by unfold TagsMID; infer_instance

/-- Every run length of the CIGAR is positive. -/
def PositiveRuns (cigar : List Nat) : Prop := ∀ w ∈ cigar, 0 < length w

instance (cigar : List Nat) : Decidable (PositiveRuns cigar) := by unfold PositiveRuns; infer_instance

/-- Total length of the Insertion-tagged runs (tag 1). -/
def insTotal (cigar : List Nat) : Nat := runTotal (fun t => t == 1) cigar

/-- Total length of the Deletion-tagged runs (tag 2). -/
def delTotal (cigar : List Nat) : Nat := runTotal (fun t => t == 2) cigar

/-- The Alignment invariant of the data model, in totals: the Match and Deletion runs cover
the reference interval `[ref_begin1, ref_end1]` and the Match and Insertion runs cover the
read interval `[read_begin1, read_end1]`. -/
def AlignmentInvariant (cigar : List Nat) (ref_begin1 ref_end1 read_begin1 read_end1 : Int) : Prop :=
  ((matchTotal cigar + delTotal cigar : Nat) : Int) = ref_end1 - ref_begin1 + 1 ∧
  ((matchTotal cigar + insTotal cigar : Nat) : Int) = read_end1 - read_begin1 + 1

instance (cigar : List Nat) (a b c d : Int) : Decidable (AlignmentInvariant cigar a b c d) := by
  unfold AlignmentInvariant; infer_instance

/-- An alignment that satisfies the Alignment invariant with `ref_begin1 = read_begin1 = 0` and
`ref_end1 = read_end1 = 2^31 - 1`: nine Insertion words and nine Deletion words, each group
of total length `2^31`. -/
def wrapCigar : List Nat :=
  List.replicate 8 4294967281 ++ [129] ++ List.replicate 8 4294967282 ++ [130]

/-- Every base code of a sequence indexes the table `to_char`. -/
def Coded (s : List Nat) : Prop := ∀ c ∈ s, c < 5

instance (s : List Nat) : Decidable (Coded s) := by unfold Coded; infer_instance

/-- All cursor positions of a walk of `cigar` from `(ref_begin1, read_begin1)` are in range:
the start coordinates are not negative, the reference cursor stays within the reference
sequence and the read cursor within the read sequence, both stay representable in an
`int32_t`, and both sequences hold base codes. -/
def InRange (refseq readseq : List Nat) (cigar : List Nat) (ref_begin1 read_begin1 : Int) : Prop :=
  0 ≤ ref_begin1 ∧ 0 ≤ read_begin1 ∧
  ref_begin1 + refSpan cigar ≤ refseq.length ∧ ref_begin1 + refSpan cigar < 2 ^ 31 ∧
  read_begin1 + readSpan cigar ≤ readseq.length ∧ read_begin1 + readSpan cigar < 2 ^ 31 ∧
  Coded refseq ∧ Coded readseq

instance (refseq readseq cigar : List Nat) (qb pb : Int) : Decidable (InRange refseq readseq cigar qb pb) := by
  unfold InRange; infer_instance

/-! ## `report_fasta` -/

/-- The read buffer that `report_fasta` walks: the memory `mem` that the pointers point
into (a pointer is an offset into `mem`), the pointer array `reads` (header pointer at an
even index, sequence pointer at the odd index behind it), the number `strs` of pointers, the
file section `file_s` and the pointer `finalnt` to the last byte. -/
structure ReadsBuffer where
  mem : List Char
  reads : List Nat
  strs : Nat
  file_s : Nat
  finalnt : Nat

/-- The values of `i` in `for (uint64_t i = start; i < strs; i += step)`; `fuel` bounds the
number of iterations. -/
def forLoop (step strs : Nat) : Nat → Nat → List Nat
  | 0, _ => []
  | fuel + 1, i => if i < strs then i :: forLoop step strs fuel (i + step) else []

/-- The scan `while (*end_read != '\0') end_read++` from the offset `p`. -/
def scanNul (mem : List Char) : Nat → Nat → Option Nat
  | 0, _ => none
  | fuel + 1, p =>
    match mem[p]? with
    | none => none
    | some c => if c = '\x00' then some p else scanNul mem fuel (p + 1)

/-- The pointer `end_read` of the record at loop index `i` in the loops over pairs. -/
def endReadPaired (x : ReadsBuffer) (i : Nat) : Option Nat :=
  if x.file_s > 0 then
    if i = 1 then (x.reads[3]?).bind (scanNul x.mem x.mem.length)
    else if i + 4 < x.strs then x.reads[i + 3]?
    else some x.finalnt
  else
    if i + 4 < x.strs then x.reads[i + 3]?
    else some x.finalnt

/-- The pointer `end_read` of the record at loop index `i` in the loops over single reads. -/
def endReadSingle (x : ReadsBuffer) (i : Nat) : Option Nat :=
  if x.file_s > 0 then
    if i = 1 then x.reads[2]?
    else if i = 3 then (x.reads[3]?).bind (scanNul x.mem x.mem.length)
    else if i + 2 < x.strs then x.reads[i + 1]?
    else some x.finalnt
  else
    if i + 2 < x.strs then x.reads[i + 1]?
    else some x.finalnt

/-- The bytes appended by `while (begin_read != end_read) out << *begin_read++;
if (*end_read == '\n') out << "\n";`.  A begin pointer behind the end pointer, or an end
pointer outside the memory, is undefined. -/
def writeRecord (mem : List Char) (begin_read end_read : Nat) : Option (List Char) :=
  if begin_read ≤ end_read ∧ end_read < mem.length then
    some ((mem.drop begin_read).take (end_read - begin_read) ++
      (if mem[end_read]? = some '\n' then ['\n'] else []))
  else none

/-- The condition under which the loop over pairs writes a pair to the aligned stream. -/
def pairAccepted (pairedin_gv : Bool) (read_hits : List Bool) (i : Nat) : Option Bool :=
  match read_hits[i]?, read_hits[i + 2]? with
  | some h1, some h2 => some ((h1 && h2) || ((h1 || h2) && pairedin_gv))
  | _, _ => none

/-- The condition under which the loop over pairs writes a pair to the other stream. -/
def pairRejected (pairedout_gv : Bool) (read_hits : List Bool) (i : Nat) : Option Bool :=
  match read_hits[i]?, read_hits[i + 2]? with
  | some h1, some h2 => some ((!h1 && !h2) || ((xor h1 h2) && pairedout_gv))
  | _, _ => none

/-- One of the four loops of `report_fasta` over the loop indices that are left: `sel` is
the condition of its `if`, `endRead` its computation of `end_read`.  Result: the records
appended to the stream, each with its loop index. -/
def streamLoop (x : ReadsBuffer) (sel : Nat → Option Bool) (endRead : Nat → Option Nat) :
    List Nat → Option (List (Nat × List Char))
  | [] => some []
  | i :: is =>
    match x.reads[i - 1]?, sel i with
    | some begin_read, some true =>
      match (endRead i).bind (writeRecord x.mem begin_read) with
      | none => none
      | some bytes => (streamLoop x sel endRead is).map fun r => (i, bytes) :: r
    | some _, some false => streamLoop x sel endRead is
    | _, _ => none

/-- The records that `report_fasta` appends to the aligned stream (`some` when
`ptr_filetype_ar != NULL`). -/
def fastaAligned (pairedin_gv pairedout_gv fastxout_gv hasAligned : Bool) (x : ReadsBuffer)
    (read_hits : List Bool) : Option (List (Nat × List Char)) :=
  if hasAligned ∧ fastxout_gv then
    if pairedin_gv ∨ pairedout_gv then
      streamLoop x (pairAccepted pairedin_gv read_hits) (endReadPaired x) (forLoop 4 x.strs x.strs 1)
    else
      streamLoop x (fun i => read_hits[i]?) (endReadSingle x) (forLoop 2 x.strs x.strs 1)
  else some []

/-- The records that `report_fasta` appends to the other stream. -/
def fastaOther (pairedin_gv pairedout_gv fastxout_gv hasOther : Bool) (x : ReadsBuffer)
    (read_hits : List Bool) : Option (List (Nat × List Char)) :=
  if hasOther ∧ fastxout_gv then
    if pairedin_gv ∨ pairedout_gv then
      streamLoop x (pairRejected pairedout_gv read_hits) (endReadPaired x) (forLoop 4 x.strs x.strs 1)
    else
      streamLoop x (fun i => (read_hits[i]?).map fun h => !h) (endReadSingle x)
        (forLoop 2 x.strs x.strs 1)
  else some []

/-- `report_fasta`: the records appended to the aligned stream and to the other stream.
`hasAligned` and `hasOther` say whether `ptr_filetype_ar` and `ptr_filetype_or` are set; both
files open. -/
def report_fasta (pairedin_gv pairedout_gv fastxout_gv hasAligned hasOther : Bool) (x : ReadsBuffer)
    (read_hits : List Bool) : Option (List (Nat × List Char) × List (Nat × List Char)) :=
  match fastaAligned pairedin_gv pairedout_gv fastxout_gv hasAligned x read_hits with
  | none => none
  | some aligned =>
    (fastaOther pairedin_gv pairedout_gv fastxout_gv hasOther x read_hits).map fun other =>
      (aligned, other)

/-- How often the record with loop index `i` is in a stream. -/
def timesWritten (stream : List (Nat × List Char)) (i : Nat) : Nat :=
  (stream.map Prod.fst).count i

/-- An unsplit buffer that `report_fasta` can walk without undefined behaviour: every
pointer of `reads` is there, the pointers do not decrease, `finalnt` is behind them and
inside the memory, and `read_hits` has a flag for every pointer. -/
def Walkable (x : ReadsBuffer) (read_hits : List Bool) : Prop :=
  x.file_s = 0 ∧ x.strs ≤ x.reads.length ∧ x.strs ≤ read_hits.length ∧ x.finalnt < x.mem.length ∧
  x.reads.Pairwise (fun b e => b ≤ e) ∧ ∀ b ∈ x.reads, b ≤ x.finalnt

instance (x : ReadsBuffer) (read_hits : List Bool) : Decidable (Walkable x read_hits) := by
  unfold Walkable; infer_instance

/-- A buffer of two reads `>a\nAC\n` and `>b\nGT\n`. -/
def sampleBuffer : ReadsBuffer :=
  { mem := ">a\nAC\n>b\nGT\n".toList, reads := [0, 3, 6, 9], strs := 4, file_s := 0, finalnt := 11 }

/-! ## Sample inputs -/

/-- The alignment of the first scenario of the specification: CIGAR `[(Match,5)]` from
`(0, 0)` to `(4, 4)` on a read of length 5, forward strand. -/
def sampleAlignment : Alignment :=
  { cigar := [80], ref_seq := 0, ref_begin1 := 0, ref_end1 := 4, read_begin1 := 0, read_end1 := 4,
    readlen := 5, score1 := 10, strand := true }

/-- The reference `ACGTA` of the first scenario, with a header that has a description. -/
def sampleReference : Reference := { header := "ref1 16S".toList, sequence := [0, 1, 2, 3, 0] }

/-- The read `ACGAA` of the first scenario with its alignments. -/
def sampleRead (alignv : List Alignment) : Read :=
  { header := "read1 len=5".toList, sequence := [0, 1, 2, 0, 0], alignv := alignv }

/-- An alignment with a gap: CIGAR `[(Match,3), (Insertion,1), (Match,2)]` of the read `ACGGAA`
on the reference `ACGTA`; alone it has 1 mismatch, 1 gap column and 4 identities. -/
def gapAlignment : Alignment :=
  { cigar := [48, 17, 32], ref_seq := 0, ref_begin1 := 0, ref_end1 := 4, read_begin1 := 0,
    read_end1 := 5, readlen := 6, score1 := 8, strand := true }

/-- The read `ACGGAA` with its alignments. -/
def gapRead (alignv : List Alignment) : Read :=
  { header := "read2".toList, sequence := [0, 1, 2, 2, 0, 0], alignv := alignv }

/-- A tabular index whose bit score is twice the raw score. -/
def sampleIndex : Index := { blastFormat := BlastFormat.TABULAR, bitscore := fun s => 2 * s }

/-- Globals with emission of unaligned reads enabled and the given optional columns. -/
def sampleGlobals (user_opts : List (List Char)) : Globals :=
  { print_all_reads_gv := true, user_opts := user_opts, evalue := 0 }

/-- A stand-in for the text of a `double`. -/
def sampleFmt : ℚ → List Char := fun _ => ['#']

/-! ## Lines of tab-separated fields -/

/-- The text of a line of tab-separated fields, with its closing newline. -/
def tabLine (fields : List (List Char)) : List Char :=
  List.intercalate ['\t'] fields ++ ['\n']

/-- A field that holds neither a tab nor a newline. -/
def NoSep (f : List Char) : Prop := '\t' ∉ f ∧ '\n' ∉ f

instance (f : List Char) : Decidable (NoSep f) := by unfold NoSep; infer_instance

/-- The option list is drawn from `cigar`, `qcov`, `qstrand`. -/
def KnownOpts (opts : List (List Char)) : Prop :=
  ∀ o ∈ opts, o = "cigar".toList ∨ o = "qcov".toList ∨ o = "qstrand".toList

instance (opts : List (List Char)) : Decidable (KnownOpts opts) := by unfold KnownOpts; infer_instance

/-- The text of the optional column `o` of an aligned record of `Output::report_blast`. -/
def optField (fmt : ℚ → List Char) (a : Alignment) (seqlen : Nat) (o : List Char) : List Char :=
  if o = "cigar".toList then renderAll fmt (cigarTokens a seqlen)
  else if o = "qcov".toList then
    fmt ((((i32 (a.read_end1 - a.read_begin1 + 1)).natAbs / a.readlen : Nat) : ℚ) * 100)
  else [if a.strand then '+' else '-']

/-- The fields of the record that `Output::report_blast` writes for the alignment `a` when
the counters stand at `m` after `calcMismatchGapId`: query, subject, `id * 100`, alignment
length, mismatches, gaps, the four coordinates, e-value, bit score, optional columns. -/
def recordFields (fmt : ℚ → List Char) (g : Globals) (idx : Index) (readhead refhead : List Char)
    (a : Alignment) (m : Metrics) (seqlen : Nat) : List (List Char) :=
  [headId readhead, headId refhead, fmt ((m.id : ℚ) * 100),
   showInt (i32 (a.read_end1 - a.read_begin1 + 1)), showInt m.mismatches, showInt m.gaps,
   showInt (i32 (a.read_begin1 + 1)), showInt (i32 (a.read_end1 + 1)),
   showInt (i32 (a.ref_begin1 + 1)), showInt (i32 (a.ref_end1 + 1)),
   fmt g.evalue, showInt (idx.bitscore a.score1)] ++ g.user_opts.map (optField fmt a seqlen)

/-- The field list `fs` is a record of the alignment `a`: it has `12 + |user_opts|` fields,
none of which holds a tab or a newline, its subject field is the reference header of `a` up
to the first space, and its length and coordinate fields are those of `a`. -/
def IsRecordOf (g : Globals) (refs : List Reference) (fs : List (List Char)) (a : Alignment) : Prop :=
  fs.length = 12 + g.user_opts.length ∧ (∀ f ∈ fs, NoSep f) ∧
  fs[1]? = (refs[a.ref_seq]?).map (fun r => headId r.header) ∧
  fs[3]? = some (showInt (i32 (a.read_end1 - a.read_begin1 + 1))) ∧
  fs[6]? = some (showInt (i32 (a.read_begin1 + 1))) ∧
  fs[7]? = some (showInt (i32 (a.read_end1 + 1))) ∧
  fs[8]? = some (showInt (i32 (a.ref_begin1 + 1))) ∧
  fs[9]? = some (showInt (i32 (a.ref_end1 + 1)))

/-- Every alignment of the read can be encoded without undefined behaviour: its reference is
in `refs.buffer`, all cursor positions are in range, and `readlen` is not zero. -/
def Encodable (refs : List Reference) (read : Read) : Prop :=
  ∀ a ∈ read.alignv, a.readlen ≠ 0 ∧ ∃ ref, refs[a.ref_seq]? = some ref ∧
    InRange ref.sequence read.sequence a.cigar a.ref_begin1 a.read_begin1

/-! ## report_denovo -/

/-- The condition `(read_hits_denovo[i] || read_hits_denovo[i + 1]) && pairedin_gv` of the loop
over pairs of `report_denovo`; the flag at `i + 1` is read only when the flag at `i` is not
set, and a flag outside the vector is undefined. -/
def denovoAccepted (pairedin_gv : Bool) (read_hits_denovo : List Bool) (i : Nat) : Option Bool :=
  match read_hits_denovo[i]? with
  | none => none
  | some true => some pairedin_gv
  | some false => (read_hits_denovo[i + 1]?).map fun h => h && pairedin_gv

/-- `report_denovo`: the records appended to the de novo stream (`hasDenovo` says whether
`denovo_otus_file` is set; the file opens). -/
def report_denovo (pairedin_gv pairedout_gv hasDenovo : Bool) (x : ReadsBuffer)
    (read_hits_denovo : List Bool) : Option (List (Nat × List Char)) :=
  if hasDenovo then
    if pairedin_gv ∨ pairedout_gv then
      streamLoop x (denovoAccepted pairedin_gv read_hits_denovo) (endReadPaired x)
        (forLoop 4 x.strs x.strs 1)
    else
      streamLoop x (fun i => read_hits_denovo[i]?) (endReadSingle x) (forLoop 2 x.strs x.strs 1)
  else some []

/-- The buffer of the two reads `>a\nAC\n` and `>b\nGT` of a file that does not end in a
newline: `finalnt` is at the last base. -/
def unterminatedBuffer : ReadsBuffer :=
  { mem := ">a\nAC\n>b\nGT".toList, reads := [0, 3, 6, 9], strs := 4, file_s := 0, finalnt := 10 }

/-! ## The free function report_sam -/

/-- The CIGAR field (6) of the free function `report_sam`: the leading soft clip, one run
length and letter per word, the trailing soft clip from `uint32_t end_mask = readlen -
a->read_end1 - 1`. -/
def samCigarTokens (a : Alignment) (readlen : Nat) : List Tok :=
  (if a.read_begin1 ≠ 0 then [Tok.int 0 a.read_begin1, Tok.text 0 ['S']] else []) ++
  a.cigar.flatMap (fun w =>
    [Tok.int 0 (length w),
     Tok.text 0 [if letter w = 0 then 'M' else if letter w = 1 then 'I' else 'D']]) ++
  (if ofSigned ((readlen : Int) - a.read_end1 - 1) > 0
    then [Tok.int 0 (ofSigned ((readlen : Int) - a.read_end1 - 1)), Tok.text 0 ['S']] else [])

/-- The scan `while (*ptr_read_seq != '\n') fileout << to_char[(int)*ptr_read_seq++]` over the
character codes of `read_seq`: a code outside `to_char`, or a sequence without the closing
newline (code 10), is undefined. -/
def scanSeq : List Nat → Option (List Char)
  | [] => none
  | c :: cs =>
    if c = 10 then some []
    else match to_char[c]? with
      | none => none
      | some ch => (scanSeq cs).map fun r => ch :: r

/-- The scan `while ((*read_qual != '\n') && (*read_qual != '\0')) fileout << *read_qual++`. -/
def scanQual : List Char → Option (List Char)
  | [] => none
  | c :: cs => if c = '\n' ∨ c = '\x00' then some [] else (scanQual cs).map fun r => c :: r

/-- The scan `while (*read_qual != '\n') fileout << *read_qual--` downwards from the offset
`p` of the memory `mem`. -/
def scanQualBack (mem : List Char) : Nat → Option (List Char)
  | 0 =>
    match mem[0]? with
    | some c => if c = '\n' then some [] else none
    | none => none
  | p + 1 =>
    match mem[p + 1]? with
    | some c => if c = '\n' then some [] else (scanQualBack mem p).map fun r => c :: r
    | none => none

/-- The QUAL field (11) of `report_sam`; `read_qual` is `none` for a `NULL` pointer and else
the memory with the offset the pointer stands at. -/
def qualText (read_qual : Option (List Char × Nat)) (strand : Bool) : Option (List Char) :=
  match read_qual with
  | none => some ['*']
  | some (mem, p) => if !strand then scanQualBack mem p else scanQual (mem.drop p)

/-- The free function `report_sam`: the tokens written for one alignment `a` of a read
(`none`: the pointer `a` is `NULL`).  Dereferencing a `NULL` alignment is undefined. -/
def report_sam (g : Globals) (a : Option Alignment) (read_name : List Char) (read_seq : List Nat)
    (read_qual : Option (List Char × Nat)) (ref_name : List Char) (readlen : Nat) (strand : Bool)
    (diff : Nat) : Option (List Tok) :=
  match scanName read_name with
  | none => none
  | some query =>
    match a with
    | none =>
      if g.print_all_reads_gv then
        some [Tok.text 0 query, Tok.text 0 "\t4\t*\t0\t0\t*\t*\t0\t0\t*\t*\n".toList]
      else none
    | some a =>
      match scanName ref_name, scanSeq read_seq, qualText read_qual strand with
      | some subject, some seq, some qual =>
        some ([Tok.text 0 query, Tok.text 0 (if !strand then "\t16\t".toList else "\t0\t".toList),
          Tok.text 0 subject, Tok.text 0 ['\t'], Tok.int 0 (i32 (a.ref_begin1 + 1)),
          Tok.text 0 ['\t'], Tok.int 0 255, Tok.text 0 ['\t']] ++ samCigarTokens a readlen ++
          [Tok.text 0 "\t*\t0\t0\t".toList, Tok.text 0 seq, Tok.text 0 ['\t'], Tok.text 0 qual,
           Tok.text 0 "\tAS:i:".toList, Tok.int 0 a.score1,
           Tok.text 0 "\tNM:i:".toList, Tok.int 0 diff, Tok.text 0 ['\n']])
      | _, _, _ => none

/-- The thirteen fields of an aligned SAM record. -/
def samFields (fmt : ℚ → List Char) (query subject : List Char) (a : Alignment) (readlen : Nat)
    (strand : Bool) (seq qual : List Char) (diff : Nat) : List (List Char) :=
  [query, if !strand then "16".toList else "0".toList, subject, showInt (i32 (a.ref_begin1 + 1)),
   "255".toList, renderAll fmt (samCigarTokens a readlen), "*".toList, "0".toList, "0".toList,
   seq, qual, "AS:i:".toList ++ showInt a.score1, "NM:i:".toList ++ showInt diff]

/-- The text of one optional column of an aligned record of the free function
`report_blast`. -/
def optFieldFree (fmt : ℚ → List Char) (a : Alignment) (readlen : Nat) (strand : Bool)
    (coverage : ℚ) (o : List Char) : List Char :=
  if o = "cigar".toList then renderAll fmt (cigarTokens a readlen)
  else if o = "qcov".toList then fmt (coverage * 100)
  else [if strand then '+' else '-']

/-- The fields of an aligned record of the free function `report_blast`. -/
def recordFieldsFree (fmt : ℚ → List Char) (g : Globals) (query subject : List Char)
    (a : Alignment) (evalue : ℚ) (readlen bitscore : Nat) (strand : Bool) (id coverage : ℚ)
    (mismatches gaps : Nat) : List (List Char) :=
  [query, subject, fmt (id * 100),
   showInt (i32 (a.read_end1 - a.read_begin1 + 1)), showInt mismatches, showInt gaps,
   showInt (i32 (a.read_begin1 + 1)), showInt (i32 (a.read_end1 + 1)),
   showInt (i32 (a.ref_begin1 + 1)), showInt (i32 (a.ref_end1 + 1)),
   fmt evalue, showInt bitscore] ++ g.user_opts.map (optFieldFree fmt a readlen strand coverage)

/-! ## The CIGAR string and the query coverage in the words of the specification -/

/-- The decoded operations of a CIGAR: tag and run length of every word. -/
def decodeOps (cigar : List Nat) : List (Nat × Nat) := cigar.map fun w => (letter w, length w)

/-- The CIGAR string as the specification words it: `<readBegin>S` iff `readBegin ≠ 0`, then
for every operation its run length in decimal and `M` (tag 0), `I` (tag 1) or `D` (any other
tag), then `<readLength - readEnd - 1>S` iff `readLength - readEnd - 1 > 0`. -/
def cigarStringSpec (readBegin readEnd : Int) (readLength : Nat) (ops : List (Nat × Nat)) :
    List Char :=
  (if readBegin ≠ 0 then showInt readBegin ++ ['S'] else []) ++
  (ops.map fun op =>
    showInt op.2 ++ [if op.1 = 0 then 'M' else if op.1 = 1 then 'I' else 'D']).flatten ++
  (if (readLength : Int) - readEnd - 1 > 0
    then showInt ((readLength : Int) - readEnd - 1) ++ ['S'] else [])

/-- The query coverage as the specification words it: the exact rational
`100 * |readEnd - readBegin + 1| / readLength`. -/
def qcovSpec (readBegin readEnd : Int) (readLength : Nat) : ℚ :=
  100 * |((readEnd - readBegin + 1 : Int) : ℚ)| / (readLength : ℚ)

/-- An alignment of the first four bases of a read of length 8: CIGAR `[(Match,4)]` from
`(0, 0)` to `(3, 3)`. -/
def halfAlignment : Alignment :=
  { cigar := [64], ref_seq := 0, ref_begin1 := 0, ref_end1 := 3, read_begin1 := 0, read_end1 := 3,
    readlen := 8, score1 := 8, strand := true }

/-- The read `ACGTACGT` with its alignments. -/
def halfRead (alignv : List Alignment) : Read :=
  { header := "read3".toList, sequence := [0, 1, 2, 3, 0, 1, 2, 3], alignv := alignv }

/-- An alignment with soft clips at both ends: CIGAR `[(Match,3)]` from `(1, 1)` to `(3, 3)`
on a read of length 5. -/
def clippedAlignment : Alignment :=
  { cigar := [48], ref_seq := 0, ref_begin1 := 1, ref_end1 := 3, read_begin1 := 1, read_end1 := 3,
    readlen := 5, score1 := 6, strand := true }

/-! ## Words with a tag outside Match, Insertion, Deletion -/

/-- The tag `x` after every tag `t` is replaced by Deletion (2). -/
def retag (t : Nat) (x : Nat) : Nat := if x = t then 2 else x

/-- The CIGAR `cigar2` is `cigar` with every word tagged `t` replaced by a word tagged
Deletion (2) of the same run length (all other words keep tag and run length). -/
def Retagged (t : Nat) (cigar cigar2 : List Nat) : Prop :=
  List.Forall₂ (fun w w2 => length w2 = length w ∧ letter w2 = retag t (letter w)) cigar cigar2

/-- The Target line of a block with its two coordinates. -/
def Block.target (b : Block) : Int × List Char × Int := (b.targetStart, b.targetCols, b.targetEnd)

/-- The Query line of a block with its two coordinates. -/
def Block.query (b : Block) : Int × List Char × Int := (b.queryStart, b.queryCols, b.queryEnd)

/-- A read of 60 bases `C` followed by 5 bases `A`. -/
def longRead : List Nat := List.replicate 60 1 ++ List.replicate 5 0

/-! ## Measurements on the written text -/

/-- The sum of the numbers that stand in front of the letters `S`, `M` and `I` in the tokens
of a CIGAR string (a number in front of any other letter counts 0). -/
def readBases : List Tok → Int
  | [] => 0
  | [_] => 0
  | Tok.int _ n :: Tok.text _ s :: rest =>
    (if s = ['S'] ∨ s = ['M'] ∨ s = ['I'] then n else 0) + readBases rest
  | _ :: t :: rest => readBases (t :: rest)

/-- The Target columns of an alignment written by one walk of the whole CIGAR from the
reference cursor `ref_begin1`, without wrapping. -/
def unwrappedTarget (refseq cigar : List Nat) (ref_begin1 : Int) : Option (List Char × Nat) :=
  targetLine refseq (expand cigar) (ofSigned ref_begin1)

/-- The match-line columns of an alignment written by one walk of the whole CIGAR from
`(ref_begin1, read_begin1)`, without wrapping. -/
def unwrappedMatch (refseq readseq cigar : List Nat) (ref_begin1 read_begin1 : Int) :
    Option (List Char × Nat × Nat) :=
  matchLine refseq readseq (expand cigar) (ofSigned ref_begin1) (ofSigned read_begin1)

/-- The Query columns of an alignment written by one walk of the whole CIGAR from the read
cursor `read_begin1`, without wrapping. -/
def unwrappedQuery (readseq cigar : List Nat) (read_begin1 : Int) : Option (List Char × Nat) :=
  queryLine readseq (expand cigar) (ofSigned read_begin1)

/-- The read of the first scenario under a header with a tab in front of its description and
no space. -/
def tabRead (alignv : List Alignment) : Read :=
  { header := "read1\tlen=5".toList, sequence := [0, 1, 2, 0, 0], alignv := alignv }

/-! ## Theorems: machine integers -/

theorem u32_of_lt {n : Nat} (h : n < 2 ^ 32) : u32 n = n := Nat.mod_eq_of_lt h

theorem u32_lt (n : Nat) : u32 n < 2 ^ 32 := Nat.mod_lt _ (by norm_num)

theorem u32_add_u32 (a b : Nat) : u32 (u32 a + b) = u32 (a + b) := by
  unfold u32; omega

theorem ofSigned_of_nonneg {x : Int} (h0 : 0 ≤ x) (h1 : x < 2 ^ 32) : ((ofSigned x : Nat) : Int) = x := by
  unfold ofSigned
  rw [Int.toNat_of_nonneg (Int.emod_nonneg _ (by norm_num))]
  exact Int.emod_eq_of_lt h0 h1

theorem toSigned_of_lt {n : Nat} (h : n < 2 ^ 31) : toSigned n = (n : Int) := by
  unfold toSigned
  have : n % 2 ^ 32 = n := Nat.mod_eq_of_lt (by omega)
  rw [this, if_pos h]

/-! ## Theorems: `calcMismatchGapId` -/

theorem baseChar_isSome {s : List Nat} (hs : Coded s) {i : Nat} (hi : i < s.length) (h31 : i < 2 ^ 31) :
    ∃ ch, baseChar s i = some ch := by
  have hc : s[i] < 5 := hs _ (List.getElem_mem _)
  have h5 : s[i] < to_char.length := by simpa [to_char] using hc
  refine ⟨to_char[s[i]], ?_⟩
  unfold baseChar seqAt
  rw [if_pos h31, List.getElem?_append_left hi, List.getElem?_eq_getElem hi, Option.some_bind,
    List.getElem?_eq_getElem h5]

/-- A Match run whose cursors stay in range returns, moves both cursors by the run length,
and, while the counters do not overflow, adds the run length to `mismatches + id`. -/
theorem matchRun_spec {refseq readseq : List Nat} (hr : Coded refseq) (hs : Coded readseq) :
    ∀ (n qb pb m id : Nat), qb + n ≤ refseq.length → qb + n < 2 ^ 31 →
      pb + n ≤ readseq.length → pb + n < 2 ^ 31 →
      ∃ m1 id1, matchRun refseq readseq n qb pb m id = some (qb + n, pb + n, m1, id1) ∧
        (m + n < 2 ^ 32 → id + n ≤ 2 ^ 53 → m1 + id1 = m + id + n ∧ m ≤ m1 ∧ id ≤ id1) := by
  intro n
  induction n with
  | zero => intro qb pb m id _ _ _ _; exact ⟨m, id, by simp [matchRun], by intros; simp⟩
  | succ n ih =>
    intro qb pb m id h1 h2 h3 h4
    obtain ⟨r, hr1⟩ := baseChar_isSome hr (i := qb) (by omega) (by omega)
    obtain ⟨s, hs1⟩ := baseChar_isSome hs (i := pb) (by omega) (by omega)
    have hq : u32 (qb + 1) = qb + 1 := u32_of_lt (by omega)
    have hp : u32 (pb + 1) = pb + 1 := u32_of_lt (by omega)
    by_cases hne : r ≠ s
    · obtain ⟨m1, id1, he, hsum⟩ := ih (qb + 1) (pb + 1) (u32 (m + 1)) id (by omega) (by omega) (by omega) (by omega)
      refine ⟨m1, id1, ?_, ?_⟩
      · simp only [matchRun, hr1, hs1, hq, hp, if_pos hne, he]
        rw [show qb + 1 + n = qb + (n + 1) by omega, show pb + 1 + n = pb + (n + 1) by omega]
      · intro hm hid
        rw [u32_of_lt (by omega)] at hsum
        have := hsum (by omega) (by omega)
        omega
    · obtain ⟨m1, id1, he, hsum⟩ := ih (qb + 1) (pb + 1) m (incrDouble id) (by omega) (by omega) (by omega) (by omega)
      refine ⟨m1, id1, ?_, ?_⟩
      · simp only [matchRun, hr1, hs1, hq, hp, if_neg hne, he]
        rw [show qb + 1 + n = qb + (n + 1) by omega, show pb + 1 + n = pb + (n + 1) by omega]
      · intro hm hid
        have hinc : incrDouble id = id + 1 := by unfold incrDouble; rw [if_pos (by omega)]
        rw [hinc] at hsum
        have := hsum (by omega) (by omega)
        omega

theorem runTotal_congr {p q : Nat → Bool} :
    ∀ {ws : List Nat}, (∀ w ∈ ws, p (letter w) = q (letter w)) → runTotal p ws = runTotal q ws
  | [], _ => rfl
  | w :: ws, h => by
    have hw := h w (List.mem_cons_self _ _)
    have ht := @runTotal_congr p q ws (fun v hv => h v (List.mem_cons_of_mem _ hv))
    simp only [runTotal, hw, ht]

theorem runTotal_le_of_imp {p q : Nat → Bool} (hpq : ∀ t, p t = true → q t = true) :
    ∀ (ws : List Nat), runTotal p ws ≤ runTotal q ws
  | [] => Nat.le_refl _
  | w :: ws => by
    have ht := runTotal_le_of_imp hpq ws
    simp only [runTotal]
    by_cases hp : p (letter w) = true
    · rw [if_pos hp, if_pos (hpq _ hp)]; omega
    · rw [if_neg hp]; split <;> omega

/-- The walk of `calcMismatchGapId` over in-range cursors returns and, while the counters
do not overflow, adds the Match total to `mismatches + id`. -/
theorem calcLoop_spec {refseq readseq : List Nat} (hr : Coded refseq) (hs : Coded readseq) :
    ∀ (ws : List Nat) (qb pb : Nat) (m : Metrics),
      qb + refSpan ws ≤ refseq.length → qb + refSpan ws < 2 ^ 31 →
      pb + readSpan ws ≤ readseq.length → pb + readSpan ws < 2 ^ 31 →
      ∃ m1, calcLoop refseq readseq ws qb pb m = some m1 ∧
        (m.mismatches + matchTotal ws < 2 ^ 32 → m.id + matchTotal ws ≤ 2 ^ 53 →
          m1.mismatches + m1.id = m.mismatches + m.id + matchTotal ws) := by
  intro ws
  induction ws with
  | nil => intro qb pb m _ _ _ _; exact ⟨m, rfl, by intros; simp [matchTotal, runTotal]⟩
  | cons w ws ih =>
    intro qb pb m h1 h2 h3 h4
    by_cases h0 : letter w = 0
    · have e1 : refSpan (w :: ws) = length w + refSpan ws := by simp [refSpan, runTotal, h0]
      have e2 : readSpan (w :: ws) = length w + readSpan ws := by simp [readSpan, runTotal, h0]
      have e3 : matchTotal (w :: ws) = length w + matchTotal ws := by simp [matchTotal, runTotal, h0]
      rw [e1] at h1 h2; rw [e2] at h3 h4; rw [e3]
      obtain ⟨mm, id, hrun, hsum⟩ := matchRun_spec hr hs (length w) qb pb m.mismatches m.id
        (by omega) (by omega) (by omega) (by omega)
      obtain ⟨m1, hm1, hsum1⟩ := ih (qb + length w) (pb + length w)
        { m with mismatches := mm, id := id } (by omega) (by omega) (by omega) (by omega)
      refine ⟨m1, ?_, ?_⟩
      · simp only [calcLoop, if_pos h0, hrun, hm1]
      · intro ha hb
        have hx := hsum (by omega) (by omega)
        have hy := hsum1 (by dsimp only; omega) (by dsimp only; omega)
        dsimp only at hy
        omega
    · by_cases hI : letter w = 1
      · have e1 : refSpan (w :: ws) = refSpan ws := by simp [refSpan, runTotal, hI]
        have e2 : readSpan (w :: ws) = length w + readSpan ws := by simp [readSpan, runTotal, hI]
        have e3 : matchTotal (w :: ws) = matchTotal ws := by simp [matchTotal, runTotal, hI]
        rw [e1] at h1 h2; rw [e2] at h3 h4; rw [e3]
        obtain ⟨m1, hm1, hsum1⟩ := ih qb (pb + length w)
          { m with gaps := u32 (m.gaps + length w) } (by omega) (by omega) (by omega) (by omega)
        refine ⟨m1, ?_, hsum1⟩
        simp only [calcLoop, if_neg h0, if_pos hI, u32_of_lt (show pb + length w < 2 ^ 32 by omega), hm1]
      · have e1 : refSpan (w :: ws) = length w + refSpan ws := by simp [refSpan, runTotal, hI]
        have e3 : matchTotal (w :: ws) = matchTotal ws := by simp [matchTotal, runTotal, h0]
        have e2 : readSpan ws ≤ readSpan (w :: ws) := by simp [readSpan, runTotal]
        rw [e1] at h1 h2; rw [e3]
        obtain ⟨m1, hm1, hsum1⟩ := ih (qb + length w) pb
          { m with gaps := u32 (m.gaps + length w) } (by omega) (by omega) (by omega) (by omega)
        refine ⟨m1, ?_, hsum1⟩
        simp only [calcLoop, if_neg h0, if_neg hI, u32_of_lt (show qb + length w < 2 ^ 32 by omega), hm1]

/-- Whenever the walk of `calcMismatchGapId` returns, `gaps` has grown, modulo `2^32`, by the
total length of the runs that are not Match-tagged. -/
theorem calcLoop_gaps {refseq readseq : List Nat} :
    ∀ (ws : List Nat) (qb pb : Nat) (m m1 : Metrics),
      calcLoop refseq readseq ws qb pb m = some m1 →
      u32 m1.gaps = u32 (m.gaps + runTotal (fun t => t != 0) ws) := by
  intro ws
  induction ws with
  | nil =>
    intro qb pb m m1 h
    simp only [calcLoop, Option.some.injEq] at h
    subst h; simp [runTotal]
  | cons w ws ih =>
    intro qb pb m m1 h
    by_cases h0 : letter w = 0
    · simp only [calcLoop, if_pos h0] at h
      cases hrun : matchRun refseq readseq (length w) qb pb m.mismatches m.id with
      | none => rw [hrun] at h; exact absurd h (by simp)
      | some r =>
        obtain ⟨qb1, pb1, mm, id⟩ := r
        rw [hrun] at h
        have := ih _ _ _ _ h
        simpa [runTotal, h0] using this
    · have e : runTotal (fun t => t != 0) (w :: ws) = length w + runTotal (fun t => t != 0) ws := by
        simp [runTotal, h0]
      by_cases hI : letter w = 1
      · simp only [calcLoop, if_neg h0, if_pos hI] at h
        have := ih _ _ _ _ h
        simp only at this
        rw [this, e, u32_add_u32, Nat.add_assoc]
      · simp only [calcLoop, if_neg h0, if_neg hI] at h
        have := ih _ _ _ _ h
        simp only at this
        rw [this, e, u32_add_u32, Nat.add_assoc]

theorem calcLoop_gaps_lt {refseq readseq : List Nat} :
    ∀ (ws : List Nat) (qb pb : Nat) (m m1 : Metrics),
      calcLoop refseq readseq ws qb pb m = some m1 → m.gaps < 2 ^ 32 → m1.gaps < 2 ^ 32 := by
  intro ws
  induction ws with
  | nil =>
    intro qb pb m m1 h hg
    simp only [calcLoop, Option.some.injEq] at h
    subst h; exact hg
  | cons w ws ih =>
    intro qb pb m m1 h hg
    by_cases h0 : letter w = 0
    · simp only [calcLoop, if_pos h0] at h
      cases hrun : matchRun refseq readseq (length w) qb pb m.mismatches m.id with
      | none => rw [hrun] at h; exact absurd h (by simp)
      | some r =>
        obtain ⟨qb1, pb1, mm, id⟩ := r
        rw [hrun] at h
        exact ih _ _ _ _ h hg
    · by_cases hI : letter w = 1
      · simp only [calcLoop, if_neg h0, if_pos hI] at h
        exact ih _ _ _ _ h (u32_lt _)
      · simp only [calcLoop, if_neg h0, if_neg hI] at h
        exact ih _ _ _ _ h (u32_lt _)

theorem gapTotal_eq_of_tags {cigar : List Nat} (h : TagsMID cigar) :
    runTotal (fun t => t != 0) cigar = gapTotal cigar := by
  unfold gapTotal
  apply runTotal_congr
  intro w hw
  have := h w hw
  rcases Nat.lt_or_ge (letter w) 1 with h1 | h1
  · have : letter w = 0 := by omega
    simp [this]
  · rcases Nat.lt_or_ge (letter w) 2 with h2 | h2
    · have : letter w = 1 := by omega
      simp [this]
    · have : letter w = 2 := by omega
      simp [this]

theorem gapTotal_le_spans (cigar : List Nat) : gapTotal cigar ≤ refSpan cigar + readSpan cigar := by
  unfold gapTotal refSpan readSpan
  induction cigar with
  | nil => simp [runTotal]
  | cons w ws ih =>
    simp only [runTotal]
    by_cases h1 : letter w = 1
    · simp [h1]; omega
    · by_cases h2 : letter w = 2
      · simp [h2]; omega
      · simp [h1, h2]; omega

theorem matchTotal_le_refSpan (cigar : List Nat) : matchTotal cigar ≤ refSpan cigar := by
  unfold matchTotal refSpan
  apply runTotal_le_of_imp
  intro t ht
  have : t = 0 := by simpa using ht
  simp [this]

/-- C1. For every alignment and every pair of sequences with all cursor positions in range
(`InRange`: bases coded 0..4, both cursors inside their sequence), `calcMismatchGapId` called
with `mismatches = 0`, `gaps = 0`, `id = 0` returns, and on return `id + mismatches` is the
sum of the run lengths of the Match-tagged words of the CIGAR. -/
theorem calcMismatchGapId_id_add_mismatches (refseq readseq cigar : List Nat)
    (ref_begin1 read_begin1 : Int) (h : InRange refseq readseq cigar ref_begin1 read_begin1) :
    ∃ m, calcMismatchGapId refseq readseq cigar ref_begin1 read_begin1 ⟨0, 0, 0⟩ = some m ∧
      m.id + m.mismatches = matchTotal cigar := by
  obtain ⟨hq0, hp0, hq1, hq2, hp1, hp2, hr, hs⟩ := h
  have eq := ofSigned_of_nonneg hq0 (by omega)
  have ep := ofSigned_of_nonneg hp0 (by omega)
  have hmt := matchTotal_le_refSpan cigar
  obtain ⟨m, hm, hsum⟩ := calcLoop_spec hr hs cigar (ofSigned ref_begin1) (ofSigned read_begin1)
    ⟨0, 0, 0⟩ (by omega) (by omega) (by omega) (by omega)
  refine ⟨m, hm, ?_⟩
  have := hsum (by dsimp only; omega) (by dsimp only; omega)
  dsimp only at this
  omega

/-- Witness of C1 (the scenario of the specification): CIGAR `[(Match,5)]`, reference `ACGTA`,
read `ACGAA`, both begin coordinates 0 give mismatches 1, gaps 0, identity 4. -/
theorem calcMismatchGapId_id_add_mismatches_witness :
    InRange [0, 1, 2, 3, 0] [0, 1, 2, 0, 0] [80] 0 0 ∧
    calcMismatchGapId [0, 1, 2, 3, 0] [0, 1, 2, 0, 0] [80] 0 0 ⟨0, 0, 0⟩ = some ⟨1, 0, 4⟩ ∧
    ∃ m, calcMismatchGapId [0, 1, 2, 3, 0] [0, 1, 2, 0, 0] [80] 0 0 ⟨0, 0, 0⟩ = some m ∧
      m.id + m.mismatches = matchTotal [80] :=
  ⟨by decide, by decide,
    calcMismatchGapId_id_add_mismatches [0, 1, 2, 3, 0] [0, 1, 2, 0, 0] [80] 0 0 (by decide)⟩

/-- Counterexample to C9 as stated: on `wrapCigar` (tags in {Insertion, Deletion}, gap total
`2^32`) `calcMismatchGapId` called with `gaps = 0` touches no sequence and returns `gaps = 0`,
because the `uint32_t` counter wraps. -/
theorem calcMismatchGapId_gaps_wraps :
    TagsMID wrapCigar ∧ gapTotal wrapCigar = 2 ^ 32 ∧
    (∀ refseq readseq : List Nat,
      calcMismatchGapId refseq readseq wrapCigar 0 0 ⟨0, 0, 0⟩ = some ⟨0, 0, 0⟩) ∧
    ¬ (∀ m, calcMismatchGapId [] [] wrapCigar 0 0 ⟨0, 0, 0⟩ = some m → m.gaps = gapTotal wrapCigar) := by
  have h3 : ∀ refseq readseq : List Nat,
      calcMismatchGapId refseq readseq wrapCigar 0 0 ⟨0, 0, 0⟩ = some ⟨0, 0, 0⟩ := by
    intro refseq readseq
    rfl
  refine ⟨by decide, by decide, h3, ?_⟩
  intro h
  have := h _ (h3 [] [])
  revert this
  decide

/-- C9 (amended). For every alignment whose CIGAR tags are in {Match, Insertion, Deletion}:
whenever `calcMismatchGapId`, called with `gaps = 0`, returns, `gaps` is the sum of the run
lengths of the Insertion and Deletion words reduced modulo `2^32`; and when all cursor
positions are in range it does return and `gaps` is exactly that sum. -/
theorem calcMismatchGapId_gaps (refseq readseq cigar : List Nat) (ref_begin1 read_begin1 : Int)
    (mismatches id : Nat) (htags : TagsMID cigar) :
    (∀ m, calcMismatchGapId refseq readseq cigar ref_begin1 read_begin1 ⟨mismatches, 0, id⟩ = some m →
      m.gaps = gapTotal cigar % 2 ^ 32) ∧
    (InRange refseq readseq cigar ref_begin1 read_begin1 →
      ∃ m, calcMismatchGapId refseq readseq cigar ref_begin1 read_begin1 ⟨mismatches, 0, id⟩ = some m ∧
        m.gaps = gapTotal cigar) := by
  have part : ∀ m, calcMismatchGapId refseq readseq cigar ref_begin1 read_begin1 ⟨mismatches, 0, id⟩ = some m →
      m.gaps = gapTotal cigar % 2 ^ 32 := by
    intro m hm
    have h1 := calcLoop_gaps _ _ _ _ _ hm
    have h2 := calcLoop_gaps_lt _ _ _ _ _ hm (by norm_num)
    rw [u32_of_lt h2, gapTotal_eq_of_tags htags] at h1
    simpa [u32] using h1
  refine ⟨part, ?_⟩
  intro h
  obtain ⟨hq0, hp0, hq1, hq2, hp1, hp2, hr, hs⟩ := h
  have eq := ofSigned_of_nonneg hq0 (by omega)
  have ep := ofSigned_of_nonneg hp0 (by omega)
  obtain ⟨m, hm, -⟩ := calcLoop_spec hr hs cigar (ofSigned ref_begin1) (ofSigned read_begin1)
    ⟨mismatches, 0, id⟩ (by omega) (by omega) (by omega) (by omega)
  refine ⟨m, hm, ?_⟩
  have hle := gapTotal_le_spans cigar
  rw [part m hm]
  exact Nat.mod_eq_of_lt (by omega)

/-- Witness of C9 (the scenario of the specification): CIGAR
`[(Match,3), (Insertion,2), (Match,3)]` on a read of length 8 with `read_begin1 = 0` gives
`gaps = 2`. -/
theorem calcMismatchGapId_gaps_witness :
    TagsMID [48, 33, 48] ∧ InRange [0, 1, 2, 3, 0, 1] [0, 1, 2, 3, 3, 3, 0, 1] [48, 33, 48] 0 0 ∧
    calcMismatchGapId [0, 1, 2, 3, 0, 1] [0, 1, 2, 3, 3, 3, 0, 1] [48, 33, 48] 0 0 ⟨0, 0, 0⟩
      = some ⟨0, 2, 6⟩ ∧
    gapTotal [48, 33, 48] = 2 ∧
    ((∀ m, calcMismatchGapId [0, 1, 2, 3, 0, 1] [0, 1, 2, 3, 3, 3, 0, 1] [48, 33, 48] 0 0 ⟨0, 0, 0⟩ = some m →
      m.gaps = gapTotal [48, 33, 48] % 2 ^ 32) ∧
    (InRange [0, 1, 2, 3, 0, 1] [0, 1, 2, 3, 3, 3, 0, 1] [48, 33, 48] 0 0 →
      ∃ m, calcMismatchGapId [0, 1, 2, 3, 0, 1] [0, 1, 2, 3, 3, 3, 0, 1] [48, 33, 48] 0 0 ⟨0, 0, 0⟩ = some m ∧
        m.gaps = gapTotal [48, 33, 48])) :=
  ⟨by decide, by decide, by decide, by decide,
    calcMismatchGapId_gaps [0, 1, 2, 3, 0, 1] [0, 1, 2, 3, 3, 3, 0, 1] [48, 33, 48] 0 0 0 0 (by decide)⟩

/-! ## Theorems: the passes of the block loop walk the pending columns -/

theorem targetLine_append (refseq : List Nat) :
    ∀ (xs ys : List Nat) (q : Nat), targetLine refseq (xs ++ ys) q =
      (targetLine refseq xs q).bind fun r =>
        (targetLine refseq ys r.2).map fun r2 => (r.1 ++ r2.1, r2.2) := by
  intro xs
  induction xs with
  | nil => intro ys q; simp [targetLine]
  | cons t ts ih =>
    intro ys q
    show targetLine refseq (t :: (ts ++ ys)) q = _
    by_cases ht : t = 1
    · simp only [targetLine, if_pos ht, ih]
      cases targetLine refseq ts q with
      | none => rfl
      | some r =>
        simp only [Option.some_bind, Option.map_some']
        cases targetLine refseq ys r.2 <;> rfl
    · simp only [targetLine, if_neg ht]
      cases baseChar refseq q with
      | none => rfl
      | some ch =>
        simp only [ih]
        cases targetLine refseq ts (u32 (q + 1)) with
        | none => rfl
        | some r =>
        simp only [Option.some_bind, Option.map_some']
        cases targetLine refseq ys r.2 <;> rfl

theorem targetRun_eq (refseq : List Nat) (t : Nat) :
    ∀ (n q count : Nat), count < 60 →
      targetRun refseq t n q count =
        (targetLine refseq (List.replicate (min n (60 - count)) t) q).map fun r =>
          (r.1, r.2, count + min n (60 - count), decide (60 - count ≤ n)) := by
  intro n
  induction n with
  | zero =>
    intro q count h
    have : ¬ (60 - count ≤ 0) := by omega
    simp [targetRun, targetLine, this]
  | succ n ih =>
    intro q count h
    by_cases h60 : count + 1 = 60
    · have hmin : min (n + 1) (60 - count) = 1 := by omega
      have hle : 60 - count ≤ n + 1 := by omega
      rw [hmin]
      by_cases ht : t = 1
      · simp [targetRun, targetLine, h60, ht, hle]
      · cases hb : baseChar refseq q <;> simp [targetRun, targetLine, h60, ht, hle, hb]
    · have hmin : min (n + 1) (60 - count) = min n (60 - (count + 1)) + 1 := by omega
      have hdec : decide (60 - count ≤ n + 1) = decide (60 - (count + 1) ≤ n) := by
        apply decide_eq_decide.mpr; omega
      rw [hmin, List.replicate_succ, hdec]
      by_cases ht : t = 1
      · simp only [targetRun, targetLine, if_pos ht, if_neg h60, ih q (count + 1) (by omega)]
        cases targetLine refseq (List.replicate (min n (60 - (count + 1))) t) q with
        | none => rfl
        | some r => simp only [Option.map_some', Option.some.injEq, Prod.mk.injEq, true_and, and_true]; omega
      · cases hb : baseChar refseq q with
        | none => simp only [targetRun, targetLine, if_neg ht, hb, Option.map_none']
        | some ch =>
          simp only [targetRun, targetLine, if_neg ht, if_neg h60, hb, ih _ (count + 1) (by omega)]
          cases targetLine refseq (List.replicate (min n (60 - (count + 1))) t) (u32 (q + 1)) with
          | none => rfl
          | some r => simp only [Option.map_some', Option.some.injEq, Prod.mk.injEq, true_and, and_true]; omega

theorem pending_zero (ws : List Nat) : pending 0 ws = expand ws := by
  cases ws <;> simp [pending, expand]

/-- The columns a pass sees from the word list `ws` when `count` columns of the block are
already written: the pending columns at the start of the block, the plain columns later. -/
theorem passCols_cons (left : Nat) (w : Nat) (ws : List Nat) (count : Nat) :
    (if count = 0 then pending left (w :: ws) else expand (w :: ws)) =
      List.replicate (if count = 0 ∧ left > 0 then left else length w) (letter w) ++ expand ws := by
  by_cases hc : count = 0
  · by_cases hl : left > 0
    · simp [hc, hl, pending]
    · simp [hc, hl, pending]
  · simp [hc, expand]

theorem passCols_next (left : Nat) (w : Nat) (ws : List Nat) (count : Nat) :
    (if count + (if count = 0 ∧ left > 0 then left else length w) = 0 then pending left ws else expand ws) =
      expand ws := by
  by_cases hc : count = 0
  · by_cases hl : left > 0
    · have : ¬ (left = 0) := by omega
      simp [hc, hl, this]
    · have : left = 0 := by omega
      simp [hc, this, pending_zero]
  · simp [hc]

theorem take_replicate_append_of_le {l k : Nat} (t : Nat) (xs : List Nat) (h : k ≤ l) :
    List.take k (List.replicate l t ++ xs) = List.replicate k t := by
  rw [List.take_append_of_le_length (by simpa using h), List.take_replicate, Nat.min_eq_left h]

theorem take_replicate_append_of_lt {l k : Nat} (t : Nat) (xs : List Nat) (h : l < k) :
    List.take k (List.replicate l t ++ xs) = List.replicate l t ++ List.take (k - l) xs := by
  rw [List.take_append_eq_append_take, List.take_replicate, Nat.min_eq_right (Nat.le_of_lt h)]
  simp

/-- The Target pass writes the Target line of the first `60 - count` columns it sees. -/
theorem targetPass_eq (refseq : List Nat) (left : Nat) :
    ∀ (ws : List Nat) (q count : Nat), count < 60 →
      targetPass refseq left ws q count =
        targetLine refseq (List.take (60 - count) (if count = 0 then pending left ws else expand ws)) q := by
  intro ws
  induction ws with
  | nil => intro q count _; simp [targetPass, expand, pending, targetLine]
  | cons w ws ih =>
    intro q count hc
    rw [passCols_cons]
    simp only [targetPass]
    generalize hl : (if count = 0 ∧ left > 0 then left else length w) = l
    rw [targetRun_eq refseq (letter w) l q count hc]
    by_cases hle : 60 - count ≤ l
    · rw [Nat.min_eq_right hle, take_replicate_append_of_le _ _ hle]
      cases targetLine refseq (List.replicate (60 - count) (letter w)) q with
      | none => rfl
      | some r => simp [hle]
    · have hlt : l < 60 - count := by omega
      rw [Nat.min_eq_left (Nat.le_of_lt hlt), take_replicate_append_of_lt _ _ hlt, targetLine_append]
      cases targetLine refseq (List.replicate l (letter w)) q with
      | none => rfl
      | some r =>
        have hn := passCols_next left w ws count
        rw [hl] at hn
        simp only [Option.map_some', decide_eq_false hle, Option.some_bind,
          ih r.2 (count + l) (by omega), hn]
        rw [show 60 - (count + l) = 60 - count - l by omega]

theorem resume_shift (left : Nat) :
    ∀ (ws : List Nat) (c count : Nat),
      resume left ws c count = ((resume left ws 0 count).1 + c, (resume left ws 0 count).2) := by
  intro ws
  induction ws with
  | nil => intro c count; simp [resume]
  | cons w ws ih =>
    intro c count
    simp only [resume]
    generalize (if count = 0 ∧ left > 0 then left else length w) = l
    by_cases hle : 60 - count ≤ l
    · rw [if_pos hle, if_pos hle]
      by_cases h0 : l - (60 - count) = 0
      · simp [h0]; omega
      · simp [h0]
    · rw [if_neg hle, if_neg hle, ih (c + 1), ih (0 + 1)]
      simp only [Prod.mk.injEq, and_true]
      omega

theorem resume_stop_shift (left : Nat) (ws : List Nat) (c count : Nat) :
    (resume left ws c count).2.2 = (resume left ws 0 count).2.2 := by
  rw [resume_shift]

theorem matchLine_append (refseq readseq : List Nat) :
    ∀ (xs ys : List Nat) (q p : Nat), matchLine refseq readseq (xs ++ ys) q p =
      (matchLine refseq readseq xs q p).bind fun r =>
        (matchLine refseq readseq ys r.2.1 r.2.2).map fun r2 => (r.1 ++ r2.1, r2.2) := by
  intro xs
  induction xs with
  | nil => intro ys q p; simp [matchLine]
  | cons t ts ih =>
    intro ys q p
    show matchLine refseq readseq (t :: (ts ++ ys)) q p = _
    by_cases ht : t = 0
    · simp only [matchLine, if_pos ht]
      cases baseChar refseq q with
      | none => rfl
      | some a =>
        cases baseChar readseq p with
        | none => rfl
        | some b =>
          simp only [ih]
          cases matchLine refseq readseq ts (u32 (q + 1)) (u32 (p + 1)) with
          | none => rfl
          | some r =>
            simp only [Option.some_bind, Option.map_some']
            cases matchLine refseq readseq ys r.2.1 r.2.2 <;> rfl
    · simp only [matchLine, if_neg ht, ih]
      cases matchLine refseq readseq ts (if t = 1 then q else u32 (q + 1))
          (if t = 1 then u32 (p + 1) else p) with
      | none => rfl
      | some r =>
        simp only [Option.some_bind, Option.map_some']
        cases matchLine refseq readseq ys r.2.1 r.2.2 <;> rfl

theorem matchLineRun_eq (refseq readseq : List Nat) (t : Nat) :
    ∀ (n q p count : Nat), count < 60 →
      matchLineRun refseq readseq t n q p count =
        (matchLine refseq readseq (List.replicate (min n (60 - count)) t) q p).map fun r =>
          (r.1, r.2.1, r.2.2, count + min n (60 - count), decide (60 - count ≤ n)) := by
  intro n
  induction n with
  | zero =>
    intro q p count h
    have : ¬ (60 - count ≤ 0) := by omega
    simp [matchLineRun, matchLine, this]
  | succ n ih =>
    intro q p count h
    by_cases h60 : count + 1 = 60
    · have hmin : min (n + 1) (60 - count) = 1 := by omega
      have hle : 60 - count ≤ n + 1 := by omega
      rw [hmin]
      by_cases ht : t = 0
      · cases hb : baseChar refseq q <;> cases hb2 : baseChar readseq p <;>
          simp [matchLineRun, matchLine, h60, ht, hle, hb, hb2]
      · simp [matchLineRun, matchLine, h60, ht, hle]
    · have hmin : min (n + 1) (60 - count) = min n (60 - (count + 1)) + 1 := by omega
      have hdec : decide (60 - count ≤ n + 1) = decide (60 - (count + 1) ≤ n) := by
        apply decide_eq_decide.mpr; omega
      rw [hmin, List.replicate_succ, hdec]
      by_cases ht : t = 0
      · cases hb : baseChar refseq q with
        | none => simp only [matchLineRun, matchLine, if_pos ht, hb, Option.map_none']
        | some a =>
          cases hb2 : baseChar readseq p with
          | none => simp only [matchLineRun, matchLine, if_pos ht, hb, hb2, Option.map_none']
          | some b =>
            simp only [matchLineRun, matchLine, if_pos ht, if_neg h60, hb, hb2,
              ih _ _ (count + 1) (by omega)]
            cases matchLine refseq readseq (List.replicate (min n (60 - (count + 1))) t)
                (u32 (q + 1)) (u32 (p + 1)) with
            | none => rfl
            | some r =>
              simp only [Option.map_some', Option.some.injEq, Prod.mk.injEq, true_and, and_true]; omega
      · simp only [matchLineRun, matchLine, if_neg ht, if_neg h60, ih _ _ (count + 1) (by omega)]
        cases matchLine refseq readseq (List.replicate (min n (60 - (count + 1))) t)
            (if t = 1 then q else u32 (q + 1)) (if t = 1 then u32 (p + 1) else p) with
        | none => rfl
        | some r =>
          simp only [Option.map_some', Option.some.injEq, Prod.mk.injEq, true_and, and_true]; omega

/-- The match-line pass writes the match line of the first `60 - count` columns it sees, and
executes `qb = q` exactly when that many columns are there. -/
theorem matchLinePass_eq (refseq readseq : List Nat) (left : Nat) :
    ∀ (ws : List Nat) (q p count : Nat), count < 60 →
      matchLinePass refseq readseq left ws q p count =
        (matchLine refseq readseq
          (List.take (60 - count) (if count = 0 then pending left ws else expand ws)) q p).map fun r =>
          (r.1, r.2.1, (resume left ws 0 count).2.2) := by
  intro ws
  induction ws with
  | nil => intro q p count _; simp [matchLinePass, expand, pending, matchLine, resume]
  | cons w ws ih =>
    intro q p count hc
    rw [passCols_cons]
    simp only [matchLinePass, resume]
    generalize hl : (if count = 0 ∧ left > 0 then left else length w) = l
    rw [matchLineRun_eq refseq readseq (letter w) l q p count hc]
    by_cases hle : 60 - count ≤ l
    · rw [Nat.min_eq_right hle, take_replicate_append_of_le _ _ hle, if_pos hle]
      cases matchLine refseq readseq (List.replicate (60 - count) (letter w)) q p with
      | none => rfl
      | some r => simp [hle]
    · have hlt : l < 60 - count := by omega
      rw [Nat.min_eq_left (Nat.le_of_lt hlt), take_replicate_append_of_lt _ _ hlt, matchLine_append,
        if_neg hle]
      cases matchLine refseq readseq (List.replicate l (letter w)) q p with
      | none => rfl
      | some r =>
        have hn := passCols_next left w ws count
        rw [hl] at hn
        simp only [Option.map_some', decide_eq_false hle, Option.some_bind,
          ih r.2.1 r.2.2 (count + l) (by omega), hn]
        rw [show 60 - (count + l) = 60 - count - l by omega]
        cases matchLine refseq readseq (List.take (60 - count - l) (expand ws)) r.2.1 r.2.2 with
        | none => rfl
        | some r2 => simp [resume_stop_shift left ws 1]

theorem queryLine_append (readseq : List Nat) :
    ∀ (xs ys : List Nat) (p : Nat), queryLine readseq (xs ++ ys) p =
      (queryLine readseq xs p).bind fun r =>
        (queryLine readseq ys r.2).map fun r2 => (r.1 ++ r2.1, r2.2) := by
  intro xs
  induction xs with
  | nil => intro ys p; simp [queryLine]
  | cons t ts ih =>
    intro ys p
    show queryLine readseq (t :: (ts ++ ys)) p = _
    by_cases ht : t = 2
    · simp only [queryLine, if_pos ht, ih]
      cases queryLine readseq ts p with
      | none => rfl
      | some r =>
        simp only [Option.some_bind, Option.map_some']
        cases queryLine readseq ys r.2 <;> rfl
    · simp only [queryLine, if_neg ht]
      cases baseChar readseq p with
      | none => rfl
      | some ch =>
        simp only [ih]
        cases queryLine readseq ts (u32 (p + 1)) with
        | none => rfl
        | some r =>
          simp only [Option.some_bind, Option.map_some']
          cases queryLine readseq ys r.2 <;> rfl

theorem queryRun_eq (readseq : List Nat) (t : Nat) :
    ∀ (n p count : Nat), count < 60 →
      queryRun readseq t n p count =
        (queryLine readseq (List.replicate (min n (60 - count)) t) p).map fun r =>
          (r.1, r.2, count + min n (60 - count),
            if 60 - count ≤ n then some (n - (60 - count)) else none) := by
  intro n
  induction n with
  | zero =>
    intro p count h
    have : ¬ (60 - count ≤ 0) := by omega
    simp [queryRun, queryLine, this]
  | succ n ih =>
    intro p count h
    by_cases h60 : count + 1 = 60
    · have hmin : min (n + 1) (60 - count) = 1 := by omega
      have hle : 60 - count ≤ n + 1 := by omega
      have hsub : n + 1 - (60 - count) = n := by omega
      rw [hmin, if_pos hle, hsub]
      by_cases ht : t = 2
      · simp [queryRun, queryLine, h60, ht]
      · cases hb : baseChar readseq p <;> simp [queryRun, queryLine, h60, ht, hb]
    · have hmin : min (n + 1) (60 - count) = min n (60 - (count + 1)) + 1 := by omega
      have hdec : (if 60 - count ≤ n + 1 then some (n + 1 - (60 - count)) else none) =
          (if 60 - (count + 1) ≤ n then some (n - (60 - (count + 1))) else none) := by
        by_cases hx : 60 - count ≤ n + 1
        · rw [if_pos hx, if_pos (by omega)]; congr 1; omega
        · rw [if_neg hx, if_neg (by omega)]
      rw [hmin, List.replicate_succ, hdec]
      by_cases ht : t = 2
      · simp only [queryRun, queryLine, if_pos ht, if_neg h60, ih p (count + 1) (by omega)]
        cases queryLine readseq (List.replicate (min n (60 - (count + 1))) t) p with
        | none => rfl
        | some r => simp only [Option.map_some', Option.some.injEq, Prod.mk.injEq, true_and, and_true]; omega
      · cases hb : baseChar readseq p with
        | none => simp only [queryRun, queryLine, if_neg ht, hb, Option.map_none']
        | some ch =>
          simp only [queryRun, queryLine, if_neg ht, if_neg h60, hb, ih _ (count + 1) (by omega)]
          cases queryLine readseq (List.replicate (min n (60 - (count + 1))) t) (u32 (p + 1)) with
          | none => rfl
          | some r => simp only [Option.map_some', Option.some.injEq, Prod.mk.injEq, true_and, and_true]; omega

/-- The Query pass writes the Query line of the first `60 - count` columns it sees and leaves
the resume point `resume`. -/
theorem queryPass_eq (readseq : List Nat) (left : Nat) :
    ∀ (ws : List Nat) (c p count : Nat), count < 60 →
      queryPass readseq left ws c p count =
        (queryLine readseq
          (List.take (60 - count) (if count = 0 then pending left ws else expand ws)) p).map fun r =>
          (r.1, r.2, resume left ws c count) := by
  intro ws
  induction ws with
  | nil => intro c p count _; simp [queryPass, expand, pending, queryLine, resume]
  | cons w ws ih =>
    intro c p count hc
    rw [passCols_cons]
    simp only [queryPass, resume]
    generalize hl : (if count = 0 ∧ left > 0 then left else length w) = l
    rw [queryRun_eq readseq (letter w) l p count hc]
    by_cases hle : 60 - count ≤ l
    · rw [Nat.min_eq_right hle, take_replicate_append_of_le _ _ hle, if_pos hle, if_pos hle]
      cases queryLine readseq (List.replicate (60 - count) (letter w)) p with
      | none => rfl
      | some r => simp
    · have hlt : l < 60 - count := by omega
      rw [Nat.min_eq_left (Nat.le_of_lt hlt), take_replicate_append_of_lt _ _ hlt, queryLine_append,
        if_neg hle, if_neg hle]
      cases queryLine readseq (List.replicate l (letter w)) p with
      | none => rfl
      | some r =>
        have hn := passCols_next left w ws count
        rw [hl] at hn
        simp only [Option.map_some', Option.some_bind, ih (c + 1) r.2 (count + l) (by omega), hn]
        rw [show 60 - (count + l) = 60 - count - l by omega]
        cases queryLine readseq (List.take (60 - count - l) (expand ws)) r.2 with
        | none => rfl
        | some r2 => simp

/-! ## Theorems: the resume point -/

theorem resume_stop (left : Nat) :
    ∀ (ws : List Nat) (c count e1 left1 : Nat), count < 60 →
      resume left ws c count = (e1, left1, true) →
      60 - count ≤ (if count = 0 then pending left ws else expand ws).length ∧
      ∃ k, e1 = c + k ∧ k ≤ ws.length ∧ (0 < left1 → k < ws.length) ∧
        pending left1 (ws.drop k) =
          (if count = 0 then pending left ws else expand ws).drop (60 - count) := by
  intro ws
  induction ws with
  | nil => intro c count e1 left1 _ h; simp [resume] at h
  | cons w ws ih =>
    intro c count e1 left1 hc h
    rw [passCols_cons]
    simp only [resume] at h
    generalize hl : (if count = 0 ∧ left > 0 then left else length w) = l at h
    by_cases hle : 60 - count ≤ l
    · rw [if_pos hle] at h
      simp only [Prod.mk.injEq, and_true] at h
      obtain ⟨he, hleft⟩ := h
      refine ⟨by simp; omega, ?_⟩
      by_cases h0 : l - (60 - count) = 0
      · rw [if_pos h0] at he
        refine ⟨1, he.symm, by simp, ?_, ?_⟩
        · intro hpos; omega
        · have hl60 : 60 - count = l := by omega
          rw [← hleft, h0, List.drop_one, List.tail_cons, pending_zero, hl60]
          rw [List.drop_append_of_le_length (by simp), List.drop_replicate]
          simp
      · rw [if_neg h0] at he
        refine ⟨0, by omega, by simp, by simp, ?_⟩
        have hpos : left1 > 0 := by omega
        rw [List.drop_zero]
        simp only [pending, if_pos hpos]
        rw [List.drop_append_of_le_length (by simpa using hle), List.drop_replicate, hleft]
    · rw [if_neg hle] at h
      have hn := passCols_next left w ws count
      rw [hl] at hn
      obtain ⟨hlen, k, hk1, hk2, hk3, hk4⟩ := ih (c + 1) (count + l) e1 left1 (by omega) h
      rw [hn] at hlen hk4
      refine ⟨by simp; omega, k + 1, by omega, by simp; omega, fun hp => by simpa using hk3 hp, ?_⟩
      rw [List.drop_succ_cons, hk4]
      rw [List.drop_append_eq_append_drop, List.drop_replicate]
      have e1 : l - (60 - count) = 0 := by omega
      have e2 : 60 - count - (List.replicate l (letter w)).length = 60 - (count + l) := by
        simp; omega
      rw [e1, e2]
      simp

theorem resume_done (left : Nat) :
    ∀ (ws : List Nat) (c count e1 left1 : Nat), count < 60 →
      resume left ws c count = (e1, left1, false) →
      (if count = 0 then pending left ws else expand ws).length < 60 - count ∧
      e1 = c + ws.length ∧ left1 = 0 := by
  intro ws
  induction ws with
  | nil =>
    intro c count e1 left1 hc h
    simp only [resume, Prod.mk.injEq, and_true] at h
    simp [pending, expand, h.1.symm, h.2.symm]; omega
  | cons w ws ih =>
    intro c count e1 left1 hc h
    rw [passCols_cons]
    simp only [resume] at h
    generalize hl : (if count = 0 ∧ left > 0 then left else length w) = l at h
    by_cases hle : 60 - count ≤ l
    · rw [if_pos hle] at h
      simp at h
    · rw [if_neg hle] at h
      have hn := passCols_next left w ws count
      rw [hl] at hn
      obtain ⟨hlen, h1, h2⟩ := ih (c + 1) (count + l) e1 left1 (by omega) h
      rw [hn] at hlen
      refine ⟨by simp; omega, by simp; omega, h2⟩

/-! ## Theorems: the three lines of a list of columns -/

theorem targetLine_length (refseq : List Nat) :
    ∀ (cols : List Nat) (q : Nat) (r : List Char × Nat),
      targetLine refseq cols q = some r → r.1.length = cols.length := by
  intro cols
  induction cols with
  | nil => intro q r h; simp only [targetLine, Option.some.injEq] at h; subst h; rfl
  | cons t ts ih =>
    intro q r h
    by_cases ht : t = 1
    · simp only [targetLine, if_pos ht] at h
      cases hrec : targetLine refseq ts q with
      | none => rw [hrec] at h; simp at h
      | some r1 =>
        rw [hrec] at h
        simp only [Option.map_some', Option.some.injEq] at h
        subst h
        simp [ih _ _ hrec]
    · simp only [targetLine, if_neg ht] at h
      cases hb : baseChar refseq q with
      | none => rw [hb] at h; simp at h
      | some ch =>
        rw [hb] at h
        cases hrec : targetLine refseq ts (u32 (q + 1)) with
        | none => rw [hrec] at h; simp at h
        | some r1 =>
          rw [hrec] at h
          simp only [Option.map_some', Option.some.injEq] at h
          subst h
          simp [ih _ _ hrec]

theorem matchLine_length (refseq readseq : List Nat) :
    ∀ (cols : List Nat) (q p : Nat) (r : List Char × Nat × Nat),
      matchLine refseq readseq cols q p = some r → r.1.length = cols.length := by
  intro cols
  induction cols with
  | nil => intro q p r h; simp only [matchLine, Option.some.injEq] at h; subst h; rfl
  | cons t ts ih =>
    intro q p r h
    by_cases ht : t = 0
    · simp only [matchLine, if_pos ht] at h
      cases hb : baseChar refseq q with
      | none => rw [hb] at h; simp at h
      | some a =>
        cases hb2 : baseChar readseq p with
        | none => rw [hb, hb2] at h; simp at h
        | some b =>
          rw [hb, hb2] at h
          cases hrec : matchLine refseq readseq ts (u32 (q + 1)) (u32 (p + 1)) with
          | none => rw [hrec] at h; simp at h
          | some r1 =>
            rw [hrec] at h
            simp only [Option.map_some', Option.some.injEq] at h
            subst h
            simp [ih _ _ _ hrec]
    · simp only [matchLine, if_neg ht] at h
      cases hrec : matchLine refseq readseq ts (if t = 1 then q else u32 (q + 1))
          (if t = 1 then u32 (p + 1) else p) with
      | none => rw [hrec] at h; simp at h
      | some r1 =>
        rw [hrec] at h
        simp only [Option.map_some', Option.some.injEq] at h
        subst h
        simp [ih _ _ _ hrec]

theorem queryLine_length (readseq : List Nat) :
    ∀ (cols : List Nat) (p : Nat) (r : List Char × Nat),
      queryLine readseq cols p = some r → r.1.length = cols.length := by
  intro cols
  induction cols with
  | nil => intro p r h; simp only [queryLine, Option.some.injEq] at h; subst h; rfl
  | cons t ts ih =>
    intro p r h
    by_cases ht : t = 2
    · simp only [queryLine, if_pos ht] at h
      cases hrec : queryLine readseq ts p with
      | none => rw [hrec] at h; simp at h
      | some r1 =>
        rw [hrec] at h
        simp only [Option.map_some', Option.some.injEq] at h
        subst h
        simp [ih _ _ hrec]
    · simp only [queryLine, if_neg ht] at h
      cases hb : baseChar readseq p with
      | none => rw [hb] at h; simp at h
      | some ch =>
        rw [hb] at h
        cases hrec : queryLine readseq ts (u32 (p + 1)) with
        | none => rw [hrec] at h; simp at h
        | some r1 =>
          rw [hrec] at h
          simp only [Option.map_some', Option.some.injEq] at h
          subst h
          simp [ih _ _ hrec]

theorem refCount_cons (t : Nat) (ts : List Nat) :
    refCount (t :: ts) = (if t = 1 then 0 else 1) + refCount ts := by
  unfold refCount
  by_cases h : t = 1
  · simp [h]
  · simp [h, List.countP_cons]; omega

theorem readCount_cons (t : Nat) (ts : List Nat) :
    readCount (t :: ts) = (if t = 2 then 0 else 1) + readCount ts := by
  unfold readCount
  by_cases h : t = 2
  · simp [h]
  · simp [h, List.countP_cons]; omega

/-- With the reference cursor in range the Target line is written and the cursor ends
`refCount cols` further. -/
theorem targetLine_some {refseq : List Nat} (hr : Coded refseq) :
    ∀ (cols : List Nat) (q : Nat), q + refCount cols ≤ refseq.length → q + refCount cols < 2 ^ 31 →
      ∃ cs, targetLine refseq cols q = some (cs, q + refCount cols) := by
  intro cols
  induction cols with
  | nil => intro q _ _; exact ⟨[], by simp [targetLine, refCount]⟩
  | cons t ts ih =>
    intro q h1 h2
    rw [refCount_cons] at h1 h2 ⊢
    by_cases ht : t = 1
    · rw [if_pos ht] at h1 h2 ⊢
      obtain ⟨cs, hcs⟩ := ih q (by omega) (by omega)
      exact ⟨'-' :: cs, by simp [targetLine, ht, hcs]⟩
    · rw [if_neg ht] at h1 h2 ⊢
      obtain ⟨ch, hch⟩ := baseChar_isSome hr (i := q) (by omega) (by omega)
      obtain ⟨cs, hcs⟩ := ih (q + 1) (by omega) (by omega)
      refine ⟨ch :: cs, ?_⟩
      simp only [targetLine, if_neg ht, hch, u32_of_lt (show q + 1 < 2 ^ 32 by omega), hcs,
        Option.map_some', Option.some.injEq, Prod.mk.injEq, true_and]
      omega

/-- With the read cursor in range the Query line is written and the cursor ends
`readCount cols` further. -/
theorem queryLine_some {readseq : List Nat} (hs : Coded readseq) :
    ∀ (cols : List Nat) (p : Nat), p + readCount cols ≤ readseq.length → p + readCount cols < 2 ^ 31 →
      ∃ cs, queryLine readseq cols p = some (cs, p + readCount cols) := by
  intro cols
  induction cols with
  | nil => intro p _ _; exact ⟨[], by simp [queryLine, readCount]⟩
  | cons t ts ih =>
    intro p h1 h2
    rw [readCount_cons] at h1 h2 ⊢
    by_cases ht : t = 2
    · rw [if_pos ht] at h1 h2 ⊢
      obtain ⟨cs, hcs⟩ := ih p (by omega) (by omega)
      exact ⟨'-' :: cs, by simp [queryLine, ht, hcs]⟩
    · rw [if_neg ht] at h1 h2 ⊢
      obtain ⟨ch, hch⟩ := baseChar_isSome hs (i := p) (by omega) (by omega)
      obtain ⟨cs, hcs⟩ := ih (p + 1) (by omega) (by omega)
      refine ⟨ch :: cs, ?_⟩
      simp only [queryLine, if_neg ht, hch, u32_of_lt (show p + 1 < 2 ^ 32 by omega), hcs,
        Option.map_some', Option.some.injEq, Prod.mk.injEq, true_and]
      omega

/-- With both cursors in range the match line is written and the reference cursor ends
`refCount cols` further. -/
theorem matchLine_some {refseq readseq : List Nat} (hr : Coded refseq) (hs : Coded readseq) :
    ∀ (cols : List Nat) (q p : Nat), q + refCount cols ≤ refseq.length → q + refCount cols < 2 ^ 31 →
      p + readCount cols ≤ readseq.length → p + readCount cols < 2 ^ 31 →
      ∃ cs p1, matchLine refseq readseq cols q p = some (cs, q + refCount cols, p1) := by
  intro cols
  induction cols with
  | nil => intro q p _ _ _ _; exact ⟨[], p, by simp [matchLine, refCount]⟩
  | cons t ts ih =>
    intro q p h1 h2 h3 h4
    rw [refCount_cons] at h1 h2 ⊢
    rw [readCount_cons] at h3 h4
    by_cases ht : t = 0
    · have ht1 : ¬ t = 1 := by omega
      have ht2 : ¬ t = 2 := by omega
      rw [if_neg ht1] at h1 h2 ⊢
      rw [if_neg ht2] at h3 h4
      obtain ⟨a, ha⟩ := baseChar_isSome hr (i := q) (by omega) (by omega)
      obtain ⟨b, hb⟩ := baseChar_isSome hs (i := p) (by omega) (by omega)
      obtain ⟨cs, p1, hcs⟩ := ih (q + 1) (p + 1) (by omega) (by omega) (by omega) (by omega)
      refine ⟨(if a = b then '|' else '*') :: cs, p1, ?_⟩
      simp only [matchLine, if_pos ht, ha, hb, u32_of_lt (show q + 1 < 2 ^ 32 by omega),
        u32_of_lt (show p + 1 < 2 ^ 32 by omega), hcs, Option.map_some', Option.some.injEq,
        Prod.mk.injEq, true_and, and_true]
      omega
    · by_cases ht1 : t = 1
      · have ht2 : ¬ t = 2 := by omega
        rw [if_pos ht1] at h1 h2 ⊢
        rw [if_neg ht2] at h3 h4
        obtain ⟨cs, p1, hcs⟩ := ih q (p + 1) (by omega) (by omega) (by omega) (by omega)
        refine ⟨' ' :: cs, p1, ?_⟩
        simp only [matchLine, if_neg ht, if_pos ht1, u32_of_lt (show p + 1 < 2 ^ 32 by omega), hcs,
          Option.map_some', Option.some.injEq, Prod.mk.injEq, true_and, and_true]
        omega
      · rw [if_neg ht1] at h1 h2 ⊢
        have h5 : p + readCount ts ≤ readseq.length := by split at h3 <;> omega
        have h6 : p + readCount ts < 2 ^ 31 := by split at h4 <;> omega
        obtain ⟨cs, p1, hcs⟩ := ih (q + 1) p (by omega) (by omega) h5 h6
        refine ⟨' ' :: cs, p1, ?_⟩
        simp only [matchLine, if_neg ht, if_neg ht1, u32_of_lt (show q + 1 < 2 ^ 32 by omega), hcs,
          Option.map_some', Option.some.injEq, Prod.mk.injEq, true_and, and_true]
        omega

theorem refCount_append (xs ys : List Nat) : refCount (xs ++ ys) = refCount xs + refCount ys := by
  simp [refCount, List.countP_append]

theorem readCount_append (xs ys : List Nat) : readCount (xs ++ ys) = readCount xs + readCount ys := by
  simp [readCount, List.countP_append]

theorem refCount_take_add_drop (n : Nat) (xs : List Nat) :
    refCount (xs.take n) + refCount (xs.drop n) = refCount xs := by
  rw [← refCount_append, List.take_append_drop]

theorem readCount_take_add_drop (n : Nat) (xs : List Nat) :
    readCount (xs.take n) + readCount (xs.drop n) = readCount xs := by
  rw [← readCount_append, List.take_append_drop]

theorem refCount_expand (cigar : List Nat) : refCount (expand cigar) = refSpan cigar := by
  induction cigar with
  | nil => rfl
  | cons w ws ih =>
    rw [expand, refCount_append, ih]
    unfold refSpan
    simp only [runTotal]
    congr 1
    by_cases h : letter w = 1
    · simp [refCount, h, List.countP_replicate]
    · simp [refCount, h, List.countP_replicate]

theorem readCount_expand (cigar : List Nat) : readCount (expand cigar) = readSpan cigar := by
  induction cigar with
  | nil => rfl
  | cons w ws ih =>
    rw [expand, readCount_append, ih]
    unfold readSpan
    simp only [runTotal]
    congr 1
    by_cases h : letter w = 2
    · simp [readCount, h, List.countP_replicate]
    · simp [readCount, h, List.countP_replicate]

theorem length_expand (cigar : List Nat) : (expand cigar).length = totalCols cigar := by
  induction cigar with
  | nil => rfl
  | cons w ws ih => simp [expand, totalCols, runTotal, ih]

/-! ## Theorems: the block loop -/

theorem targetPass_block (refseq : List Nat) (left : Nat) (ws : List Nat) (q : Nat) :
    targetPass refseq left ws q 0 = targetLine refseq ((pending left ws).take 60) q := by
  simpa using targetPass_eq refseq left ws q 0 (by norm_num)

theorem matchLinePass_block (refseq readseq : List Nat) (left : Nat) (ws : List Nat) (q p : Nat) :
    matchLinePass refseq readseq left ws q p 0 =
      (matchLine refseq readseq ((pending left ws).take 60) q p).map fun r =>
        (r.1, r.2.1, (resume left ws 0 0).2.2) := by
  simpa using matchLinePass_eq refseq readseq left ws q p 0 (by norm_num)

theorem queryPass_block (readseq : List Nat) (left : Nat) (ws : List Nat) (c p : Nat) :
    queryPass readseq left ws c p 0 =
      (queryLine readseq ((pending left ws).take 60) p).map fun r => (r.1, r.2, resume left ws c 0) := by
  simpa using queryPass_eq readseq left ws c p 0 (by norm_num)

/-- One iteration of the block loop in terms of the pending columns `R`: the three passes
write the three lines of the first 60 columns of `R`, and the loop goes on from the resume
point. -/
theorem blockLoop_succ (refseq readseq cigar : List Nat) (fuel e left qb pb : Nat)
    (hcond : e < cigar.length ∨ left > 0) :
    blockLoop refseq readseq cigar (fuel + 1) e left qb pb =
      match targetLine refseq ((pending left (cigar.drop e)).take 60) qb,
            matchLine refseq readseq ((pending left (cigar.drop e)).take 60) qb pb,
            queryLine readseq ((pending left (cigar.drop e)).take 60) pb with
      | some rt, some rm, some rq =>
        (blockLoop refseq readseq cigar fuel (resume left (cigar.drop e) e 0).1
            (resume left (cigar.drop e) e 0).2.1
            (if (resume left (cigar.drop e) e 0).2.2 then rm.2.1 else qb)
            (if (resume left (cigar.drop e) e 0).2.2 then rq.2 else pb)).map fun rest =>
          { targetStart := toSigned (qb + 1), targetCols := rt.1, targetEnd := toSigned rt.2,
            matchCols := rm.1,
            queryStart := toSigned (pb + 1), queryCols := rq.1, queryEnd := toSigned rq.2 } :: rest
      | _, _, _ => none := by
  simp only [blockLoop, if_pos hcond, targetPass_block, matchLinePass_block, queryPass_block]
  cases targetLine refseq ((pending left (cigar.drop e)).take 60) qb with
  | none => rfl
  | some rt =>
    cases matchLine refseq readseq ((pending left (cigar.drop e)).take 60) qb pb with
    | none => rfl
    | some rm =>
      cases queryLine readseq ((pending left (cigar.drop e)).take 60) pb with
      | none => rfl
      | some rq =>
        simp only [Option.map_some', resume_stop_shift left (cigar.drop e) e 0]

theorem blockLoop_stop (refseq readseq cigar : List Nat) (fuel e left qb pb : Nat)
    (hcond : ¬ (e < cigar.length ∨ left > 0)) :
    blockLoop refseq readseq cigar fuel e left qb pb = some [] := by
  cases fuel <;> simp only [blockLoop, if_neg hcond]

theorem blockLoop_succ_some {refseq readseq cigar : List Nat} {fuel e left qb pb : Nat}
    {blocks : List Block} (hcond : e < cigar.length ∨ left > 0)
    (h : blockLoop refseq readseq cigar (fuel + 1) e left qb pb = some blocks) :
    ∃ rt rm rq rest,
      targetLine refseq ((pending left (cigar.drop e)).take 60) qb = some rt ∧
      matchLine refseq readseq ((pending left (cigar.drop e)).take 60) qb pb = some rm ∧
      queryLine readseq ((pending left (cigar.drop e)).take 60) pb = some rq ∧
      blockLoop refseq readseq cigar fuel (resume left (cigar.drop e) e 0).1
          (resume left (cigar.drop e) e 0).2.1
          (if (resume left (cigar.drop e) e 0).2.2 then rm.2.1 else qb)
          (if (resume left (cigar.drop e) e 0).2.2 then rq.2 else pb) = some rest ∧
      blocks = { targetStart := toSigned (qb + 1), targetCols := rt.1, targetEnd := toSigned rt.2,
                 matchCols := rm.1,
                 queryStart := toSigned (pb + 1), queryCols := rq.1, queryEnd := toSigned rq.2 } :: rest := by
  rw [blockLoop_succ _ _ _ _ _ _ _ _ hcond] at h
  cases ht : targetLine refseq ((pending left (cigar.drop e)).take 60) qb with
  | none => rw [ht] at h; simp at h
  | some rt =>
    cases hm : matchLine refseq readseq ((pending left (cigar.drop e)).take 60) qb pb with
    | none => rw [ht, hm] at h; simp at h
    | some rm =>
      cases hq : queryLine readseq ((pending left (cigar.drop e)).take 60) pb with
      | none => rw [ht, hm, hq] at h; simp at h
      | some rq =>
        rw [ht, hm, hq] at h
        simp only [Option.map_eq_some'] at h
        obtain ⟨rest, hrest, hb⟩ := h
        exact ⟨rt, rm, rq, rest, rfl, rfl, rfl, hrest, hb.symm⟩

/-- When the Query pass does not stop at column 60 the loop condition fails afterwards. -/
theorem resume_done_cond {cigar : List Nat} {e left : Nat}
    (h : (resume left (cigar.drop e) e 0).2.2 = false) :
    ¬ ((resume left (cigar.drop e) e 0).1 < cigar.length ∨ (resume left (cigar.drop e) e 0).2.1 > 0) := by
  obtain ⟨-, h1, h2⟩ := resume_done left (cigar.drop e) e 0 _ _ (by norm_num)
    (show resume left (cigar.drop e) e 0 = (_, _, false) by rw [← h])
  rw [h1, h2, List.length_drop]
  omega

/-- Every block has three lines of equal column count, and a block that is followed by
another block has 60 columns (for every state of the loop and every amount of fuel). -/
theorem blockLoop_columns (refseq readseq cigar : List Nat) :
    ∀ (fuel e left qb pb : Nat) (blocks : List Block),
      blockLoop refseq readseq cigar fuel e left qb pb = some blocks →
      (∀ b ∈ blocks, b.targetCols.length = b.matchCols.length ∧
        b.matchCols.length = b.queryCols.length) ∧
      (∀ b ∈ blocks.dropLast, b.queryCols.length = 60) := by
  intro fuel
  induction fuel with
  | zero =>
    intro e left qb pb blocks h
    simp only [blockLoop] at h
    split at h
    · simp at h
    · simp only [Option.some.injEq] at h; subst h; simp
  | succ fuel ih =>
    intro e left qb pb blocks h
    by_cases hcond : e < cigar.length ∨ left > 0
    · obtain ⟨rt, rm, rq, rest, ht, hm, hq, hrest, hb⟩ := blockLoop_succ_some hcond h
      obtain ⟨ih1, ih2⟩ := ih _ _ _ _ _ hrest
      have lt := targetLine_length _ _ _ _ ht
      have lm := matchLine_length _ _ _ _ _ _ hm
      have lq := queryLine_length _ _ _ _ hq
      subst hb
      refine ⟨?_, ?_⟩
      · intro b hmem
        rcases List.mem_cons.mp hmem with hb | hb
        · subst hb; simp only; omega
        · exact ih1 b hb
      · intro b hmem
        cases hrs : rest with
        | nil => rw [hrs] at hmem; simp at hmem
        | cons r1 rs =>
          rw [hrs, List.dropLast_cons₂] at hmem
          rcases List.mem_cons.mp hmem with hb | hb
          · subst hb
            simp only
            cases hstop : (resume left (cigar.drop e) e 0).2.2 with
            | false =>
              rw [blockLoop_stop _ _ _ _ _ _ _ _ (resume_done_cond hstop)] at hrest
              rw [hrs] at hrest; simp at hrest
            | true =>
              obtain ⟨h60, -⟩ := resume_stop left (cigar.drop e) e 0 _ _ (by norm_num)
                (show resume left (cigar.drop e) e 0 = (_, _, true) by rw [← hstop])
              rw [lq, List.length_take]
              simp only [if_true] at h60
              omega
          · exact ih2 b (by rw [hrs]; exact hb)
    · rw [blockLoop_stop _ _ _ _ _ _ _ _ hcond] at h
      simp only [Option.some.injEq] at h; subst h; simp

/-- The result of the block loop does not depend on the fuel once the fuel exceeds the
number of pending columns: the fuel `totalCols cigar + 1` of `pairwiseBlocks` never runs out. -/
theorem blockLoop_fuel (refseq readseq cigar : List Nat) :
    ∀ (fuel1 fuel2 e left qb pb : Nat),
      (pending left (cigar.drop e)).length < fuel1 →
      (pending left (cigar.drop e)).length < fuel2 →
      blockLoop refseq readseq cigar fuel1 e left qb pb =
        blockLoop refseq readseq cigar fuel2 e left qb pb := by
  intro fuel1
  induction fuel1 with
  | zero => intro fuel2 e left qb pb h; omega
  | succ fuel1 ih =>
    intro fuel2 e left qb pb h1 h2
    cases fuel2 with
    | zero => omega
    | succ fuel2 =>
      by_cases hcond : e < cigar.length ∨ left > 0
      · rw [blockLoop_succ _ _ _ _ _ _ _ _ hcond, blockLoop_succ _ _ _ _ _ _ _ _ hcond]
        cases targetLine refseq ((pending left (cigar.drop e)).take 60) qb with
        | none => rfl
        | some rt =>
          cases matchLine refseq readseq ((pending left (cigar.drop e)).take 60) qb pb with
          | none => rfl
          | some rm =>
            cases queryLine readseq ((pending left (cigar.drop e)).take 60) pb with
            | none => rfl
            | some rq =>
              simp only
              cases hstop : (resume left (cigar.drop e) e 0).2.2 with
              | false =>
                rw [blockLoop_stop _ _ _ _ _ _ _ _ (resume_done_cond hstop),
                  blockLoop_stop _ _ _ _ _ _ _ _ (resume_done_cond hstop)]
              | true =>
                obtain ⟨h60, k, hk1, -, -, hk4⟩ := resume_stop left (cigar.drop e) e 0 _ _
                  (by norm_num) (show resume left (cigar.drop e) e 0 = (_, _, true) by rw [← hstop])
                simp only [if_true, List.drop_drop] at h60 hk4
                rw [← hk1] at hk4
                simp only [Nat.sub_zero] at h60 hk4
                have hlen : ((pending left (cigar.drop e)).drop 60).length + 60 =
                    (pending left (cigar.drop e)).length := by rw [List.length_drop]; omega
                rw [ih fuel2 _ _ _ _ (by rw [hk4]; omega) (by rw [hk4]; omega)]
      · rw [blockLoop_stop _ _ _ _ _ _ _ _ hcond, blockLoop_stop _ _ _ _ _ _ _ _ hcond]

/-- With all cursor positions in range and enough fuel the block loop returns; it writes at
least one block when its condition holds, and the coordinates behind the columns of the last
block are the cursors after all pending columns. -/
theorem blockLoop_total {refseq readseq : List Nat} (hr : Coded refseq) (hs : Coded readseq)
    (cigar : List Nat) :
    ∀ (fuel e left qb pb : Nat),
      (pending left (cigar.drop e)).length < fuel →
      qb + refCount (pending left (cigar.drop e)) ≤ refseq.length →
      qb + refCount (pending left (cigar.drop e)) < 2 ^ 31 →
      pb + readCount (pending left (cigar.drop e)) ≤ readseq.length →
      pb + readCount (pending left (cigar.drop e)) < 2 ^ 31 →
      ∃ blocks, blockLoop refseq readseq cigar fuel e left qb pb = some blocks ∧
        ((e < cigar.length ∨ left > 0) → blocks ≠ []) ∧
        ∀ b, blocks.getLast? = some b →
          b.targetEnd = ((qb + refCount (pending left (cigar.drop e)) : Nat) : Int) ∧
          b.queryEnd = ((pb + readCount (pending left (cigar.drop e)) : Nat) : Int) := by
  intro fuel
  induction fuel with
  | zero => intro e left qb pb h; omega
  | succ fuel ih =>
    intro e left qb pb hfuel hq1 hq2 hp1 hp2
    by_cases hcond : e < cigar.length ∨ left > 0
    · generalize hR : pending left (cigar.drop e) = R at hfuel hq1 hq2 hp1 hp2 ⊢
      have hrt := refCount_take_add_drop 60 R
      have hpt := readCount_take_add_drop 60 R
      obtain ⟨tcs, ht⟩ := targetLine_some hr (R.take 60) qb (by omega) (by omega)
      obtain ⟨mcs, p1, hm⟩ := matchLine_some hr hs (R.take 60) qb pb (by omega) (by omega)
        (by omega) (by omega)
      obtain ⟨qcs, hq⟩ := queryLine_some hs (R.take 60) pb (by omega) (by omega)
      rw [blockLoop_succ _ _ _ _ _ _ _ _ hcond, hR, ht, hm, hq]
      simp only
      cases hstop : (resume left (cigar.drop e) e 0).2.2 with
      | false =>
        rw [blockLoop_stop _ _ _ _ _ _ _ _ (resume_done_cond hstop)]
        obtain ⟨hlen, -, -⟩ := resume_done left (cigar.drop e) e 0 _ _ (by norm_num)
          (show resume left (cigar.drop e) e 0 = (_, _, false) by rw [← hstop])
        simp only [if_true, hR] at hlen
        have htake : R.take 60 = R := List.take_of_length_le (by omega)
        rw [htake] at ht hm hq hrt hpt
        refine ⟨_, rfl, fun _ => by simp, ?_⟩
        intro b hb
        simp only [Option.map_some', List.getLast?_singleton, Option.some.injEq] at hb
        subst hb
        simp only [htake]
        exact ⟨toSigned_of_lt (by omega), toSigned_of_lt (by omega)⟩
      | true =>
        obtain ⟨h60, k, hk1, hk2, hk3, hk4⟩ := resume_stop left (cigar.drop e) e 0 _ _ (by norm_num)
          (show resume left (cigar.drop e) e 0 = (_, _, true) by rw [← hstop])
        simp only [if_true, hR, List.drop_drop] at h60 hk4
        rw [← hk1] at hk4
        simp only [Nat.sub_zero] at h60 hk4
        have hlen' : (R.drop 60).length + 60 = R.length := by rw [List.length_drop]; omega
        obtain ⟨rest, hrest, hne, hlast⟩ := ih (resume left (cigar.drop e) e 0).1
          (resume left (cigar.drop e) e 0).2.1 (qb + refCount (R.take 60)) (pb + readCount (R.take 60))
          (by rw [hk4]; omega) (by rw [hk4]; omega) (by rw [hk4]; omega) (by rw [hk4]; omega)
          (by rw [hk4]; omega)
        simp only [if_true]
        rw [hrest]
        refine ⟨_, rfl, fun _ => by simp, ?_⟩
        intro b hb
        simp only [Option.map_some'] at hb
        cases hrs : rest with
        | nil =>
          rw [hrs] at hb
          simp only [List.getLast?_singleton, Option.some.injEq] at hb
          subst hb
          have hc' : ¬ ((resume left (cigar.drop e) e 0).1 < cigar.length ∨
              (resume left (cigar.drop e) e 0).2.1 > 0) := fun hc => hne hc hrs
          have hd : R.drop 60 = [] := by
            rw [← hk4]
            have h1 : (resume left (cigar.drop e) e 0).2.1 = 0 := by omega
            have h2 : cigar.drop (resume left (cigar.drop e) e 0).1 = [] :=
              List.drop_eq_nil_of_le (by omega)
            rw [h1, h2]; rfl
          rw [hd] at hrt hpt
          simp only [refCount, readCount, List.countP_nil, Nat.add_zero] at hrt hpt
          simp only [refCount, readCount]
          rw [← hrt, ← hpt]
          exact ⟨toSigned_of_lt (by simp only [refCount] at hq2; omega),
            toSigned_of_lt (by simp only [readCount] at hp2; omega)⟩
        | cons r1 rs =>
          rw [hrs, List.getLast?_cons_cons, ← hrs] at hb
          obtain ⟨h1, h2⟩ := hlast b hb
          rw [hk4] at h1 h2
          rw [h1, h2]
          constructor
          · congr 1; omega
          · congr 1; omega
    · rw [blockLoop_stop _ _ _ _ _ _ _ _ hcond]
      exact ⟨[], rfl, fun h => absurd h hcond, by simp⟩

theorem spans_of_tags {cigar : List Nat} (h : TagsMID cigar) :
    refSpan cigar = matchTotal cigar + delTotal cigar ∧
    readSpan cigar = matchTotal cigar + insTotal cigar := by
  unfold refSpan readSpan matchTotal delTotal insTotal
  induction cigar with
  | nil => simp [runTotal]
  | cons w ws ih =>
    obtain ⟨ih1, ih2⟩ := ih (fun v hv => h v (List.mem_cons_of_mem _ hv))
    have hw := h w (List.mem_cons_self _ _)
    simp only [runTotal, ih1, ih2]
    rcases Nat.lt_or_ge (letter w) 1 with h1 | h1
    · have : letter w = 0 := by omega
      simp [this]; omega
    · rcases Nat.lt_or_ge (letter w) 2 with h2 | h2
      · have : letter w = 1 := by omega
        simp [this]; omega
      · have : letter w = 2 := by omega
        simp [this]; omega

/-- C2. In every block that the pairwise renderer of `Output::report_blast` writes for an
alignment, the Target line, the match line and the Query line carry the same number of
column characters, and every block except the last carries exactly 60 columns on each of
the three lines; and for an alignment whose cursor positions are all in range the renderer
does write its blocks (at least one for a non-empty CIGAR).  The statement holds for every
CIGAR, in particular for those whose run lengths are all positive. -/
theorem pairwiseBlocks_columns (refseq readseq cigar : List Nat) (ref_begin1 read_begin1 : Int) :
    (∀ blocks, pairwiseBlocks refseq readseq cigar ref_begin1 read_begin1 = some blocks →
      (∀ b ∈ blocks, b.targetCols.length = b.matchCols.length ∧
        b.matchCols.length = b.queryCols.length) ∧
      (∀ b ∈ blocks.dropLast, b.targetCols.length = 60 ∧ b.matchCols.length = 60 ∧
        b.queryCols.length = 60)) ∧
    (InRange refseq readseq cigar ref_begin1 read_begin1 →
      ∃ blocks, pairwiseBlocks refseq readseq cigar ref_begin1 read_begin1 = some blocks ∧
        (cigar ≠ [] → blocks ≠ [])) := by
  constructor
  · intro blocks h
    unfold pairwiseBlocks at h
    split at h
    · obtain ⟨h1, h2⟩ := blockLoop_columns _ _ _ _ _ _ _ _ _ h
      refine ⟨h1, fun b hb => ?_⟩
      have e60 := h2 b hb
      obtain ⟨e1, e2⟩ := h1 b (List.mem_of_mem_dropLast hb)
      omega
    · simp only [Option.some.injEq] at h; subst h; simp
  · intro h
    obtain ⟨hq0, hp0, hq1, hq2, hp1, hp2, hr, hs⟩ := h
    have eq := ofSigned_of_nonneg hq0 (by omega)
    have ep := ofSigned_of_nonneg hp0 (by omega)
    unfold pairwiseBlocks
    by_cases hc : cigar.length > 0
    · rw [if_pos hc]
      have hR : pending 0 (cigar.drop 0) = expand cigar := by rw [List.drop_zero, pending_zero]
      obtain ⟨blocks, hb, hne, -⟩ := blockLoop_total hr hs cigar (totalCols cigar + 1) 0 0
        (ofSigned ref_begin1) (ofSigned read_begin1)
        (by rw [hR, length_expand]; omega) (by rw [hR, refCount_expand]; omega)
        (by rw [hR, refCount_expand]; omega) (by rw [hR, readCount_expand]; omega)
        (by rw [hR, readCount_expand]; omega)
      exact ⟨blocks, hb, fun _ => hne (Or.inl hc)⟩
    · rw [if_neg hc]
      exact ⟨[], rfl, fun hne => absurd (List.length_pos.mpr hne) hc⟩

/-- Witness of C2: a CIGAR of 60 Match, 30 Insertion and 40 Match columns gives three blocks
of 60, 60 and 10 columns. -/
theorem pairwiseBlocks_columns_witness :
    PositiveRuns [960, 481, 640] ∧
    InRange (List.replicate 100 2) (List.replicate 130 2) [960, 481, 640] 0 0 ∧
    (pairwiseBlocks (List.replicate 100 2) (List.replicate 130 2) [960, 481, 640] 0 0).map
      (fun bs => bs.map fun b => (b.targetCols.length, b.matchCols.length, b.queryCols.length))
      = some [(60, 60, 60), (60, 60, 60), (10, 10, 10)] ∧
    ((∀ blocks, pairwiseBlocks (List.replicate 100 2) (List.replicate 130 2) [960, 481, 640] 0 0
        = some blocks →
      (∀ b ∈ blocks, b.targetCols.length = b.matchCols.length ∧
        b.matchCols.length = b.queryCols.length) ∧
      (∀ b ∈ blocks.dropLast, b.targetCols.length = 60 ∧ b.matchCols.length = 60 ∧
        b.queryCols.length = 60)) ∧
    (InRange (List.replicate 100 2) (List.replicate 130 2) [960, 481, 640] 0 0 →
      ∃ blocks, pairwiseBlocks (List.replicate 100 2) (List.replicate 130 2) [960, 481, 640] 0 0
          = some blocks ∧
        (([960, 481, 640] : List Nat) ≠ [] → blocks ≠ []))) :=
  ⟨by decide, by decide, by decide,
    pairwiseBlocks_columns (List.replicate 100 2) (List.replicate 130 2) [960, 481, 640] 0 0⟩

/-- Counterexample to C10 as stated: the CIGAR `[(Match,2), (tag 3, 2)]` has positive run
lengths and satisfies the Alignment invariant with `ref_end1 = read_end1 = 1` (its Match,
Insertion and Deletion totals are 2, 0 and 0), all cursor positions are in range, and the
single block ends with the coordinates 4 and 4, not `ref_end1 + 1 = 2` and
`read_end1 + 1 = 2`: the Target pass and the Query pass both walk the word tagged 3. -/
theorem pairwiseBlocks_last_coordinates_unknown_tag :
    PositiveRuns [32, 35] ∧ AlignmentInvariant [32, 35] 0 1 0 1 ∧
    InRange [0, 1, 2, 3, 0] [0, 1, 2, 3, 0] [32, 35] 0 0 ∧
    pairwiseBlocks [0, 1, 2, 3, 0] [0, 1, 2, 3, 0] [32, 35] 0 0 =
      some [{ targetStart := 1, targetCols := ['A', 'C', 'G', 'T'], targetEnd := 4,
              matchCols := ['|', '|', ' ', ' '],
              queryStart := 1, queryCols := ['A', 'C', 'G', 'T'], queryEnd := 4 }] ∧
    (4 : Int) ≠ 1 + 1 := by
  decide

/-- C10 (amended). For every alignment whose CIGAR tags are in {Match, Insertion, Deletion},
that satisfies the Alignment invariant and whose cursor positions are all in range, the
pairwise renderer writes its blocks (at least one for a non-empty CIGAR), the coordinate
behind the columns of the last block's Target line is `ref_end1 + 1`, and the coordinate
behind the columns of the last block's Query line is `read_end1 + 1`.  Positive run lengths
are not needed. -/
theorem pairwiseBlocks_last_coordinates (refseq readseq cigar : List Nat)
    (ref_begin1 ref_end1 read_begin1 read_end1 : Int) (htags : TagsMID cigar)
    (hinv : AlignmentInvariant cigar ref_begin1 ref_end1 read_begin1 read_end1)
    (h : InRange refseq readseq cigar ref_begin1 read_begin1) :
    ∃ blocks, pairwiseBlocks refseq readseq cigar ref_begin1 read_begin1 = some blocks ∧
      (cigar ≠ [] → blocks ≠ []) ∧
      ∀ b, blocks.getLast? = some b → b.targetEnd = ref_end1 + 1 ∧ b.queryEnd = read_end1 + 1 := by
  obtain ⟨hq0, hp0, hq1, hq2, hp1, hp2, hr, hs⟩ := h
  obtain ⟨hi1, hi2⟩ := hinv
  obtain ⟨hs1, hs2⟩ := spans_of_tags htags
  have eq := ofSigned_of_nonneg hq0 (by omega)
  have ep := ofSigned_of_nonneg hp0 (by omega)
  unfold pairwiseBlocks
  by_cases hc : cigar.length > 0
  · rw [if_pos hc]
    have hR : pending 0 (cigar.drop 0) = expand cigar := by rw [List.drop_zero, pending_zero]
    obtain ⟨blocks, hb, hne, hlast⟩ := blockLoop_total hr hs cigar (totalCols cigar + 1) 0 0
      (ofSigned ref_begin1) (ofSigned read_begin1)
      (by rw [hR, length_expand]; omega) (by rw [hR, refCount_expand]; omega)
      (by rw [hR, refCount_expand]; omega) (by rw [hR, readCount_expand]; omega)
      (by rw [hR, readCount_expand]; omega)
    refine ⟨blocks, hb, fun _ => hne (Or.inl hc), fun b hbl => ?_⟩
    obtain ⟨h1, h2⟩ := hlast b hbl
    rw [hR, refCount_expand] at h1
    rw [hR, readCount_expand] at h2
    rw [h1, h2]
    constructor
    · push_cast; omega
    · push_cast; omega
  · rw [if_neg hc]
    exact ⟨[], rfl, fun hne => absurd (List.length_pos.mpr hne) hc, by simp⟩

set_option maxRecDepth 4000 in
/-- Witness of C10 (amended): 50 Match, 30 Insertion, 20 Deletion and 40 Match columns from
`(ref_begin1, read_begin1) = (2, 3)`; the last of the three blocks ends with the coordinates
`ref_end1 + 1 = 112` and `read_end1 + 1 = 123`. -/
theorem pairwiseBlocks_last_coordinates_witness :
    TagsMID [800, 481, 322, 640] ∧ AlignmentInvariant [800, 481, 322, 640] 2 111 3 122 ∧
    InRange (List.replicate 120 1) (List.replicate 125 1) [800, 481, 322, 640] 2 3 ∧
    (pairwiseBlocks (List.replicate 120 1) (List.replicate 125 1) [800, 481, 322, 640] 2 3).map
      (fun bs => bs.map fun b => (b.targetStart, b.targetEnd, b.queryStart, b.queryEnd))
      = some [(3, 52, 4, 63), (53, 92, 64, 103), (93, 112, 104, 123)] ∧
    ∃ blocks, pairwiseBlocks (List.replicate 120 1) (List.replicate 125 1) [800, 481, 322, 640] 2 3
        = some blocks ∧
      (([800, 481, 322, 640] : List Nat) ≠ [] → blocks ≠ []) ∧
      ∀ b, blocks.getLast? = some b → b.targetEnd = 111 + 1 ∧ b.queryEnd = 122 + 1 :=
  ⟨by decide, by decide, by decide, by decide,
    pairwiseBlocks_last_coordinates (List.replicate 120 1) (List.replicate 125 1)
      [800, 481, 322, 640] 2 111 3 122 (by decide) (by decide) (by decide)⟩

/-! ## Theorems: rendering of tokens -/

theorem padLeft_zero (s : List Char) : padLeft 0 s = s := by
  simp [padLeft]

theorem renderAll_nil (fmt : ℚ → List Char) : renderAll fmt [] = [] := rfl

theorem renderAll_cons (fmt : ℚ → List Char) (t : Tok) (ts : List Tok) :
    renderAll fmt (t :: ts) = t.render fmt ++ renderAll fmt ts := rfl

theorem renderAll_append (fmt : ℚ → List Char) (xs ys : List Tok) :
    renderAll fmt (xs ++ ys) = renderAll fmt xs ++ renderAll fmt ys := by
  simp [renderAll]

theorem render_text_zero (fmt : ℚ → List Char) (s : List Char) :
    (Tok.text 0 s).render fmt = s := padLeft_zero s

theorem render_int_zero (fmt : ℚ → List Char) (v : Int) :
    (Tok.int 0 v).render fmt = showInt v := padLeft_zero _

theorem digitChar_noSep (d : Nat) : Nat.digitChar d ≠ '\t' ∧ Nat.digitChar d ≠ '\n' := by
  unfold Nat.digitChar
  by_cases h0 : d = 0
  · rw [if_pos h0]; decide
  rw [if_neg h0]
  by_cases h1 : d = 1
  · rw [if_pos h1]; decide
  rw [if_neg h1]
  by_cases h2 : d = 2
  · rw [if_pos h2]; decide
  rw [if_neg h2]
  by_cases h3 : d = 3
  · rw [if_pos h3]; decide
  rw [if_neg h3]
  by_cases h4 : d = 4
  · rw [if_pos h4]; decide
  rw [if_neg h4]
  by_cases h5 : d = 5
  · rw [if_pos h5]; decide
  rw [if_neg h5]
  by_cases h6 : d = 6
  · rw [if_pos h6]; decide
  rw [if_neg h6]
  by_cases h7 : d = 7
  · rw [if_pos h7]; decide
  rw [if_neg h7]
  by_cases h8 : d = 8
  · rw [if_pos h8]; decide
  rw [if_neg h8]
  by_cases h9 : d = 9
  · rw [if_pos h9]; decide
  rw [if_neg h9]
  by_cases h10 : d = 10
  · rw [if_pos h10]; decide
  rw [if_neg h10]
  by_cases h11 : d = 11
  · rw [if_pos h11]; decide
  rw [if_neg h11]
  by_cases h12 : d = 12
  · rw [if_pos h12]; decide
  rw [if_neg h12]
  by_cases h13 : d = 13
  · rw [if_pos h13]; decide
  rw [if_neg h13]
  by_cases h14 : d = 14
  · rw [if_pos h14]; decide
  rw [if_neg h14]
  by_cases h15 : d = 15
  · rw [if_pos h15]; decide
  rw [if_neg h15]
  decide

theorem toDigitsCore_noSep :
    ∀ (fuel n : Nat) (ds : List Char), (∀ c ∈ ds, c ≠ '\t' ∧ c ≠ '\n') →
      ∀ c ∈ Nat.toDigitsCore 10 fuel n ds, c ≠ '\t' ∧ c ≠ '\n' := by
  intro fuel
  induction fuel with
  | zero => intro n ds h; simpa [Nat.toDigitsCore] using h
  | succ fuel ih =>
    intro n ds h
    have hds : ∀ c ∈ Nat.digitChar (n % 10) :: ds, c ≠ '\t' ∧ c ≠ '\n' := by
      intro c hc
      rcases List.mem_cons.mp hc with hc | hc
      · rw [hc]; exact digitChar_noSep _
      · exact h c hc
    simp only [Nat.toDigitsCore]
    split
    · exact hds
    · exact ih _ _ hds

theorem showInt_noSep (v : Int) : NoSep (showInt v) := by
  have h : ∀ c ∈ Nat.toDigits 10 v.natAbs, c ≠ '\t' ∧ c ≠ '\n' :=
    toDigitsCore_noSep _ _ [] (by simp)
  unfold NoSep showInt
  split
  · constructor
    · intro hm
      rcases List.mem_cons.mp hm with hm | hm
      · exact absurd hm (by decide)
      · exact (h _ hm).1 rfl
    · intro hm
      rcases List.mem_cons.mp hm with hm | hm
      · exact absurd hm (by decide)
      · exact (h _ hm).2 rfl
  · exact ⟨fun hm => (h _ hm).1 rfl, fun hm => (h _ hm).2 rfl⟩

theorem NoSep_nil : NoSep [] := by simp [NoSep]

theorem NoSep_append {xs ys : List Char} (hx : NoSep xs) (hy : NoSep ys) : NoSep (xs ++ ys) := by
  unfold NoSep at *
  simp only [List.mem_append, not_or]
  exact ⟨⟨hx.1, hy.1⟩, ⟨hx.2, hy.2⟩⟩

theorem renderAll_noSep (fmt : ℚ → List Char) :
    ∀ (ts : List Tok), (∀ t ∈ ts, NoSep (t.render fmt)) → NoSep (renderAll fmt ts)
  | [], _ => NoSep_nil
  | t :: ts, h => by
    rw [renderAll_cons]
    exact NoSep_append (h t (List.mem_cons_self _ _))
      (renderAll_noSep fmt ts (fun u hu => h u (List.mem_cons_of_mem _ hu)))

theorem cigarTokens_noSep (fmt : ℚ → List Char) (a : Alignment) (seqlen : Nat) :
    NoSep (renderAll fmt (cigarTokens a seqlen)) := by
  apply renderAll_noSep
  intro t ht
  have hS : NoSep ((Tok.text 0 ['S']).render fmt) := by rw [render_text_zero]; decide
  simp only [cigarTokens, List.mem_append, List.mem_flatMap] at ht
  rcases ht with (ht | ⟨w, -, ht⟩) | ht
  · split at ht
    · rcases List.mem_cons.mp ht with ht | ht
      · rw [ht, render_int_zero]; exact showInt_noSep _
      · rw [List.mem_singleton.mp ht]; exact hS
    · simp at ht
  · rcases List.mem_cons.mp ht with ht | ht
    · rw [ht, render_int_zero]; exact showInt_noSep _
    · rw [List.mem_singleton.mp ht, render_text_zero]
      split
      · decide
      · split <;> decide
  · split at ht
    · rcases List.mem_cons.mp ht with ht | ht
      · rw [ht, render_int_zero]; exact showInt_noSep _
      · rw [List.mem_singleton.mp ht]; exact hS
    · simp at ht

theorem optField_noSep {fmt : ℚ → List Char} (hfmt : ∀ v, NoSep (fmt v)) (a : Alignment)
    (seqlen : Nat) (o : List Char) : NoSep (optField fmt a seqlen o) := by
  unfold optField
  split
  · exact cigarTokens_noSep fmt a seqlen
  · split
    · exact hfmt _
    · split <;> decide

/-! ## Theorems: the tabular records of `Output::report_blast` -/

theorem optionalColumns_render (fmt : ℚ → List Char) (a : Alignment) (seqlen : Nat) :
    ∀ (opts : List (List Char)) (opt : List Tok), KnownOpts opts →
      optionalColumns a seqlen opts = some opt →
      renderAll fmt opt = (opts.map fun o => '\t' :: optField fmt a seqlen o).flatten := by
  intro opts
  induction opts with
  | nil =>
    intro opt _ h
    simp only [optionalColumns, Option.some.injEq] at h
    subst h; rfl
  | cons o os ih =>
    intro opt hk h
    have hos : KnownOpts os := fun x hx => hk x (List.mem_cons_of_mem _ hx)
    have hq1 : "qcov".toList ≠ "cigar".toList := by decide
    have hq2 : "qstrand".toList ≠ "cigar".toList := by decide
    have hq3 : "qstrand".toList ≠ "qcov".toList := by decide
    rcases hk o (List.mem_cons_self _ _) with ho | ho | ho
    · simp only [optionalColumns, if_pos ho, Option.map_eq_some'] at h
      obtain ⟨r, hr, rfl⟩ := h
      simp only [List.map_cons, List.flatten_cons, optField, if_pos ho, renderAll_cons,
        renderAll_append, render_text_zero, ih r hos hr]
      simp
    · have hne : o ≠ "cigar".toList := by rw [ho]; exact hq1
      simp only [optionalColumns, if_neg hne, if_pos ho] at h
      split at h
      · simp at h
      · simp only [Option.map_eq_some'] at h
        obtain ⟨r, hr, rfl⟩ := h
        simp only [List.map_cons, List.flatten_cons, optField, if_neg hne, if_pos ho, renderAll_cons,
          render_text_zero, ih r hos hr, Tok.render, padLeft_zero]
        simp
    · have hne : o ≠ "cigar".toList := by rw [ho]; exact hq2
      have hne2 : o ≠ "qcov".toList := by rw [ho]; exact hq3
      simp only [optionalColumns, if_neg hne, if_neg hne2, if_pos ho, Option.map_eq_some'] at h
      obtain ⟨r, hr, rfl⟩ := h
      simp only [List.map_cons, List.flatten_cons, optField, if_neg hne, if_neg hne2, renderAll_cons,
        render_text_zero, ih r hos hr]
      simp

theorem optionalColumns_isSome (a : Alignment) (seqlen : Nat) (h : a.readlen ≠ 0) :
    ∀ (opts : List (List Char)), ∃ opt, optionalColumns a seqlen opts = some opt := by
  intro opts
  induction opts with
  | nil => exact ⟨[], rfl⟩
  | cons o os ih =>
    obtain ⟨r, hr⟩ := ih
    simp only [optionalColumns, hr, if_neg h, Option.map_some']
    split
    · exact ⟨_, rfl⟩
    · split
      · exact ⟨_, rfl⟩
      · split
        · exact ⟨_, rfl⟩
        · exact ⟨_, rfl⟩

theorem tabLine_cons (f : List Char) (fs : List (List Char)) :
    tabLine (f :: fs) = f ++ ((fs.map fun x => '\t' :: x).flatten ++ ['\n']) := by
  unfold tabLine List.intercalate
  induction fs generalizing f with
  | nil => simp [List.intersperse]
  | cons x xs ih =>
    have := ih x
    simp only [List.intersperse, List.flatten_cons, List.map_cons, List.append_assoc] at this ⊢
    rw [this]
    simp

/-- The tokens of one aligned record render as the line of its fields. -/
theorem tabularRecord_render (fmt : ℚ → List Char) (g : Globals) (idx : Index)
    (readhead refhead : List Char) (a : Alignment) (m : Metrics) (seqlen : Nat) (opt : List Tok)
    (hopt : renderAll fmt opt = (g.user_opts.map fun o => '\t' :: optField fmt a seqlen o).flatten) :
    renderAll fmt (Tok.text 0 (headId readhead) :: tabularRecord g idx refhead a m opt) =
      tabLine (recordFields fmt g idx readhead refhead a m seqlen) := by
  unfold recordFields tabularRecord
  simp only [List.cons_append, List.nil_append, tabLine_cons, renderAll_cons, renderAll_append,
    render_text_zero, render_int_zero, Tok.render, padLeft_zero, renderAll_nil, hopt, List.map_cons,
    List.flatten_cons, List.map_map, List.append_assoc, List.singleton_append, List.append_nil]
  simp [Function.comp_def]

theorem recordFields_isRecordOf {fmt : ℚ → List Char} (hfmt : ∀ v, NoSep (fmt v)) (g : Globals)
    (idx : Index) (refs : List Reference) (readhead : List Char) (ref : Reference) (a : Alignment)
    (m : Metrics) (seqlen : Nat) (href : refs[a.ref_seq]? = some ref)
    (hq : NoSep (headId readhead)) (hs : NoSep (headId ref.header)) :
    IsRecordOf g refs (recordFields fmt g idx readhead ref.header a m seqlen) a := by
  unfold IsRecordOf recordFields
  refine ⟨by simp; omega, ?_, by simp [href], by simp, by simp, by simp, by simp, by simp⟩
  intro f hf
  simp only [List.mem_append, List.mem_cons, List.mem_map, List.mem_singleton, List.not_mem_nil,
    or_false] at hf
  rcases hf with (h | h | h | h | h | h | h | h | h | h | h | h) | ⟨o, -, h⟩
  · rw [h]; exact hq
  · rw [h]; exact hs
  · rw [h]; exact hfmt _
  · rw [h]; exact showInt_noSep _
  · rw [h]; exact showInt_noSep _
  · rw [h]; exact showInt_noSep _
  · rw [h]; exact showInt_noSep _
  · rw [h]; exact showInt_noSep _
  · rw [h]; exact showInt_noSep _
  · rw [h]; exact showInt_noSep _
  · rw [h]; exact hfmt _
  · rw [h]; exact showInt_noSep _
  · rw [← h]; exact optField_noSep hfmt _ _ _

theorem calcMismatchGapId_isSome {refseq readseq cigar : List Nat} {ref_begin1 read_begin1 : Int}
    (h : InRange refseq readseq cigar ref_begin1 read_begin1) (m : Metrics) :
    ∃ m1, calcMismatchGapId refseq readseq cigar ref_begin1 read_begin1 m = some m1 := by
  obtain ⟨hq0, hp0, hq1, hq2, hp1, hp2, hr, hs⟩ := h
  have eq := ofSigned_of_nonneg hq0 (by omega)
  have ep := ofSigned_of_nonneg hp0 (by omega)
  obtain ⟨m1, hm1, -⟩ := calcLoop_spec hr hs cigar (ofSigned ref_begin1) (ofSigned read_begin1) m
    (by omega) (by omega) (by omega) (by omega)
  exact ⟨m1, hm1⟩

/-- Whenever the tabular loop of `Output::report_blast` returns for a read with at least one
alignment, its text is one line of fields per alignment that is left, in order. -/
theorem reportBlastLoop_tabular_lines {fmt : ℚ → List Char} (hfmt : ∀ v, NoSep (fmt v))
    (g : Globals) (idx : Index) (refs : List Reference) (read : Read)
    (hf : idx.blastFormat = BlastFormat.TABULAR) (hk : KnownOpts g.user_opts)
    (hq : NoSep (headId read.header)) (hrefs : ∀ r ∈ refs, NoSep (headId r.header))
    (hne : read.alignv ≠ []) :
    ∀ (as : List Alignment) (m : Metrics) (out : List Tok),
      reportBlastLoop g idx refs read as m = some out →
      ∃ lines, List.Forall₂ (IsRecordOf g refs) lines as ∧
        renderAll fmt out = (lines.map tabLine).flatten := by
  intro as
  induction as with
  | nil =>
    intro m out h
    simp only [reportBlastLoop, Option.some.injEq] at h
    subst h
    exact ⟨[], List.Forall₂.nil, rfl⟩
  | cons a as ih =>
    intro m out h
    have hlen : ¬ (g.print_all_reads_gv = true ∧ read.alignv.length = 0) := by
      intro hc; exact hne (List.length_eq_zero.mp hc.2)
    simp only [reportBlastLoop] at h
    cases href : refs[a.ref_seq]? with
    | none => rw [href] at h; simp at h
    | some ref =>
      rw [href] at h
      simp only [hf, if_neg hlen] at h
      cases hcalc : calcMismatchGapId ref.sequence read.sequence a.cigar a.ref_begin1 a.read_begin1 m with
      | none => rw [hcalc] at h; simp at h
      | some m1 =>
        rw [hcalc] at h
        cases hopt : optionalColumns a read.sequence.length g.user_opts with
        | none => rw [hopt] at h; simp at h
        | some opt =>
          rw [hopt] at h
          simp only [Option.map_eq_some'] at h
          obtain ⟨r, hr, rfl⟩ := h
          obtain ⟨lines, hl, hrender⟩ := ih m1 r hr
          refine ⟨recordFields fmt g idx read.header ref.header a m1 read.sequence.length :: lines,
            List.Forall₂.cons ?_ hl, ?_⟩
          · exact recordFields_isRecordOf hfmt g idx refs read.header ref a m1 _ href hq
              (hrefs ref (List.getElem?_mem href))
          · have := tabularRecord_render fmt g idx read.header ref.header a m1 read.sequence.length opt
              (optionalColumns_render fmt a _ _ opt hk hopt)
            rw [List.map_cons, List.flatten_cons, ← this, ← hrender, ← renderAll_append]

/-- The tabular loop of `Output::report_blast` returns when every alignment that is left can
be encoded without undefined behaviour. -/
theorem reportBlastLoop_tabular_isSome (g : Globals) (idx : Index) (refs : List Reference)
    (read : Read) (hf : idx.blastFormat = BlastFormat.TABULAR) (hne : read.alignv ≠ []) :
    ∀ (as : List Alignment) (m : Metrics),
      (∀ a ∈ as, a.readlen ≠ 0 ∧ ∃ ref, refs[a.ref_seq]? = some ref ∧
        InRange ref.sequence read.sequence a.cigar a.ref_begin1 a.read_begin1) →
      ∃ out, reportBlastLoop g idx refs read as m = some out := by
  intro as
  induction as with
  | nil => intro m _; exact ⟨[], rfl⟩
  | cons a as ih =>
    intro m h
    have hlen : ¬ (g.print_all_reads_gv = true ∧ read.alignv.length = 0) := by
      intro hc; exact hne (List.length_eq_zero.mp hc.2)
    obtain ⟨hrl, ref, href, hin⟩ := h a (List.mem_cons_self _ _)
    obtain ⟨m1, hm1⟩ := calcMismatchGapId_isSome hin m
    obtain ⟨opt, hopt⟩ := optionalColumns_isSome a read.sequence.length hrl g.user_opts
    obtain ⟨r, hr⟩ := ih m1 (fun x hx => h x (List.mem_cons_of_mem _ hx))
    refine ⟨Tok.text 0 (headId read.header) :: tabularRecord g idx ref.header a m1 opt ++ r, ?_⟩
    simp only [reportBlastLoop, href, hf, if_neg hlen, hm1, hopt, hr, Option.map_some']

/-- C4. For every read with at least one alignment, every read and reference header without
a tab or newline in front of its first space, and every option list drawn from
`cigar`, `qcov`, `qstrand`: whenever the tabular branch of `Output::report_blast` returns,
the text it has written is exactly one line per alignment, in alignment order, and every
line has exactly `12 + |user_opts|` tab-separated fields (no field holds a tab or a newline)
and ends with one newline; and it does return when every alignment can be encoded without
undefined behaviour.  `fmt` is the text that the stream gives a `double`. -/
theorem report_blast_tabular_lines (fmt : ℚ → List Char) (g : Globals) (idx : Index)
    (refs : List Reference) (read : Read) (hfmt : ∀ v, NoSep (fmt v))
    (hf : idx.blastFormat = BlastFormat.TABULAR) (hk : KnownOpts g.user_opts)
    (hq : NoSep (headId read.header)) (hrefs : ∀ r ∈ refs, NoSep (headId r.header))
    (hne : read.alignv ≠ []) :
    (∀ out, Output.report_blast g idx refs read = some out →
      ∃ lines, List.Forall₂ (IsRecordOf g refs) lines read.alignv ∧
        renderAll fmt out = (lines.map tabLine).flatten) ∧
    (Encodable refs read → ∃ out, Output.report_blast g idx refs read = some out) :=
  ⟨fun out h => reportBlastLoop_tabular_lines hfmt g idx refs read hf hk hq hrefs hne _ _ out h,
   fun h => reportBlastLoop_tabular_isSome g idx refs read hf hne _ _ h⟩

set_option maxRecDepth 8000 in
/-- Witness of C4: the read of the first scenario with two alignments and the options
`cigar`, `qcov`, `qstrand` gives two lines of 15 fields (a `double` is shown as `#`). -/
theorem report_blast_tabular_lines_witness :
    (Output.report_blast (sampleGlobals ["cigar".toList, "qcov".toList, "qstrand".toList])
        sampleIndex [sampleReference] (sampleRead [sampleAlignment, sampleAlignment])).map
      (renderAll sampleFmt) =
      some ("read1\tref1\t#\t5\t1\t0\t1\t5\t1\t5\t#\t20\t5M\t#\t+\n" ++
        "read1\tref1\t#\t5\t2\t0\t1\t5\t1\t5\t#\t20\t5M\t#\t+\n").toList ∧
    Encodable [sampleReference] (sampleRead [sampleAlignment, sampleAlignment]) ∧
    ((∀ out, Output.report_blast (sampleGlobals ["cigar".toList, "qcov".toList, "qstrand".toList])
        sampleIndex [sampleReference] (sampleRead [sampleAlignment, sampleAlignment]) = some out →
      ∃ lines, List.Forall₂
          (IsRecordOf (sampleGlobals ["cigar".toList, "qcov".toList, "qstrand".toList]) [sampleReference])
          lines (sampleRead [sampleAlignment, sampleAlignment]).alignv ∧
        renderAll sampleFmt out = (lines.map tabLine).flatten) ∧
    (Encodable [sampleReference] (sampleRead [sampleAlignment, sampleAlignment]) →
      ∃ out, Output.report_blast (sampleGlobals ["cigar".toList, "qcov".toList, "qstrand".toList])
        sampleIndex [sampleReference] (sampleRead [sampleAlignment, sampleAlignment]) = some out)) :=
  ⟨by rfl,
   by
    intro a ha
    have ha' : a = sampleAlignment := by
      simpa [sampleRead] using ha
    subst ha'
    exact ⟨by decide, sampleReference, rfl, by decide⟩,
   report_blast_tabular_lines sampleFmt
    (sampleGlobals ["cigar".toList, "qcov".toList, "qstrand".toList]) sampleIndex [sampleReference]
    (sampleRead [sampleAlignment, sampleAlignment]) (fun _ => (by decide : NoSep ['#'])) rfl (by decide) (by decide)
    (by decide) (by decide)⟩

/-- C5 (the code at the failing input). For the alignment of the first scenario (4
identities, 1 mismatch) the tabular branch of `Output::report_blast` writes `id * 100 = 400`
in the percent-identity field, where `id` is the identity count; the claimed value
`id / (id + mismatches) * 100` is 80. -/
theorem report_blast_percent_identity_field :
    Output.report_blast (sampleGlobals []) sampleIndex [sampleReference] (sampleRead [sampleAlignment]) =
      some [Tok.text 0 "read1".toList, Tok.text 0 ['\t'], Tok.text 0 "ref1".toList, Tok.text 0 ['\t'],
        Tok.dbl (((4 : Nat) : ℚ) * 100), Tok.text 0 ['\t'],
        Tok.int 0 5, Tok.text 0 ['\t'], Tok.int 0 1, Tok.text 0 ['\t'], Tok.int 0 0, Tok.text 0 ['\t'],
        Tok.int 0 1, Tok.text 0 ['\t'], Tok.int 0 5, Tok.text 0 ['\t'],
        Tok.int 0 1, Tok.text 0 ['\t'], Tok.int 0 5, Tok.text 0 ['\t'],
        Tok.dbl 0, Tok.text 0 ['\t'], Tok.int 0 20, Tok.text 0 ['\n']] ∧
    calcMismatchGapId sampleReference.sequence (sampleRead []).sequence sampleAlignment.cigar 0 0
      ⟨0, 0, 0⟩ = some ⟨1, 0, 4⟩ ∧
    (((4 : Nat) : ℚ) * 100 = 400) ∧ ((4 : ℚ) / (4 + 1) * 100 = 80) ∧ ¬ ((400 : ℚ) ≤ 100) :=
  ⟨by rfl, by decide, by norm_num, by norm_num, by norm_num⟩

/-- C6 (the code at the failing input). For a read with two copies of an alignment that
alone has 1 mismatch and 1 gap column, the second line written by `Output::report_blast`
carries mismatches 2 and gaps 2 (and `id * 100` with `id = 8`): the counters are declared in
front of the loop over the alignments and are not reset. -/
theorem report_blast_counters_accumulate :
    Output.report_blast (sampleGlobals []) sampleIndex [sampleReference]
        (gapRead [gapAlignment, gapAlignment]) =
      some [Tok.text 0 "read2".toList, Tok.text 0 ['\t'], Tok.text 0 "ref1".toList, Tok.text 0 ['\t'],
        Tok.dbl (((4 : Nat) : ℚ) * 100), Tok.text 0 ['\t'],
        Tok.int 0 6, Tok.text 0 ['\t'], Tok.int 0 1, Tok.text 0 ['\t'], Tok.int 0 1, Tok.text 0 ['\t'],
        Tok.int 0 1, Tok.text 0 ['\t'], Tok.int 0 6, Tok.text 0 ['\t'],
        Tok.int 0 1, Tok.text 0 ['\t'], Tok.int 0 5, Tok.text 0 ['\t'],
        Tok.dbl 0, Tok.text 0 ['\t'], Tok.int 0 16, Tok.text 0 ['\n'],
        Tok.text 0 "read2".toList, Tok.text 0 ['\t'], Tok.text 0 "ref1".toList, Tok.text 0 ['\t'],
        Tok.dbl (((8 : Nat) : ℚ) * 100), Tok.text 0 ['\t'],
        Tok.int 0 6, Tok.text 0 ['\t'], Tok.int 0 2, Tok.text 0 ['\t'], Tok.int 0 2, Tok.text 0 ['\t'],
        Tok.int 0 1, Tok.text 0 ['\t'], Tok.int 0 6, Tok.text 0 ['\t'],
        Tok.int 0 1, Tok.text 0 ['\t'], Tok.int 0 5, Tok.text 0 ['\t'],
        Tok.dbl 0, Tok.text 0 ['\t'], Tok.int 0 16, Tok.text 0 ['\n']] ∧
    calcMismatchGapId sampleReference.sequence (gapRead []).sequence gapAlignment.cigar 0 0
      ⟨0, 0, 0⟩ = some ⟨1, 1, 4⟩ :=
  ⟨by rfl, by decide⟩

/-- C7 (the code at the failing input). With emission of unaligned reads enabled and no
alignment (`a == NULL`), the tabular branch of the free function `report_blast` writes a
newline after every optional placeholder: the options `cigar`, `qcov` give two lines, and
the empty option list gives a record without any newline. -/
theorem report_blast_null_record_newlines :
    (report_blast (sampleGlobals ["cigar".toList, "qcov".toList]) none
        "read1 len=5\n".toList [] 0 5 0 true 0 0 0 0).map (renderAll sampleFmt) =
      some "read1\t*\t0\t0\t0\t0\t0\t0\t0\t0\t0\t0\t*\n\t0\n".toList ∧
    (report_blast (sampleGlobals []) none
        "read1 len=5\n".toList [] 0 5 0 true 0 0 0 0).map (renderAll sampleFmt) =
      some "read1\t*\t0\t0\t0\t0\t0\t0\t0\t0\t0\t0".toList :=
  ⟨by rfl, by rfl⟩

/-- C8 (the code at the failing input). For a read with zero alignments
`Output::report_blast` writes nothing, whatever the format and the globals: the null record
is written inside the loop over the alignments, which has no iteration. -/
theorem report_blast_no_alignment (g : Globals) (idx : Index) (refs : List Reference)
    (header : List Char) (sequence : List Nat) :
    Output.report_blast g idx refs { header := header, sequence := sequence, alignv := [] } = some [] :=
  rfl

/-! ## Theorems: `report_fasta` -/

theorem forLoop_mem {step strs : Nat} :
    ∀ (fuel start j : Nat), j ∈ forLoop step strs fuel start →
      start ≤ j ∧ j < strs ∧ j % step = start % step := by
  intro fuel
  induction fuel with
  | zero => intro start j h; simp [forLoop] at h
  | succ fuel ih =>
    intro start j h
    simp only [forLoop] at h
    split at h
    · rcases List.mem_cons.mp h with h | h
      · subst h; exact ⟨Nat.le_refl _, by assumption, rfl⟩
      · obtain ⟨h1, h2, h3⟩ := ih _ _ h
        exact ⟨by omega, h2, by rw [h3, Nat.add_mod_right]⟩
    · simp at h

theorem forLoop_nodup {step strs : Nat} (hstep : 0 < step) :
    ∀ (fuel start : Nat), (forLoop step strs fuel start).Nodup := by
  intro fuel
  induction fuel with
  | zero => intro start; simp [forLoop]
  | succ fuel ih =>
    intro start
    simp only [forLoop]
    split
    · refine List.nodup_cons.mpr ⟨fun hmem => ?_, ih _⟩
      have := (forLoop_mem _ _ _ hmem).1
      omega
    · simp

theorem streamLoop_fst (x : ReadsBuffer) (sel : Nat → Option Bool) (endRead : Nat → Option Nat) :
    ∀ (is : List Nat) (out : List (Nat × List Char)), streamLoop x sel endRead is = some out →
      out.map Prod.fst = is.filter (fun i => sel i == some true) ∧ ∀ i ∈ is, ∃ b, sel i = some b := by
  intro is
  induction is with
  | nil =>
    intro out h
    simp only [streamLoop, Option.some.injEq] at h
    subst h; simp
  | cons i is ih =>
    intro out h
    simp only [streamLoop] at h
    cases hb : x.reads[i - 1]? with
    | none => rw [hb] at h; simp at h
    | some b =>
      cases hs : sel i with
      | none => rw [hb, hs] at h; simp at h
      | some v =>
        rw [hb, hs] at h
        cases v with
        | false =>
          simp only at h
          obtain ⟨h1, h2⟩ := ih out h
          refine ⟨by simp [List.filter_cons, hs, h1], ?_⟩
          intro j hj
          rcases List.mem_cons.mp hj with hj | hj
          · subst hj; exact ⟨false, hs⟩
          · exact h2 j hj
        | true =>
          simp only at h
          cases hw : (endRead i).bind (writeRecord x.mem b) with
          | none => rw [hw] at h; simp at h
          | some bytes =>
            rw [hw] at h
            simp only [Option.map_eq_some'] at h
            obtain ⟨r, hr, rfl⟩ := h
            obtain ⟨h1, h2⟩ := ih r hr
            refine ⟨by simp [List.filter_cons, hs, h1], ?_⟩
            intro j hj
            rcases List.mem_cons.mp hj with hj | hj
            · subst hj; exact ⟨true, hs⟩
            · exact h2 j hj

theorem streamLoop_isSome (x : ReadsBuffer) (sel : Nat → Option Bool) (endRead : Nat → Option Nat) :
    ∀ (is : List Nat),
      (∀ i ∈ is, ∃ b v e, x.reads[i - 1]? = some b ∧ sel i = some v ∧ endRead i = some e ∧
        b ≤ e ∧ e < x.mem.length) →
      ∃ out, streamLoop x sel endRead is = some out := by
  intro is
  induction is with
  | nil => intro _; exact ⟨[], rfl⟩
  | cons i is ih =>
    intro h
    obtain ⟨b, v, e, hb, hv, he, hbe, hem⟩ := h i (List.mem_cons_self _ _)
    obtain ⟨r, hr⟩ := ih (fun j hj => h j (List.mem_cons_of_mem _ hj))
    cases v with
    | false => exact ⟨r, by simp only [streamLoop, hb, hv, hr]⟩
    | true =>
      refine ⟨(i, (x.mem.drop b).take (e - b) ++ (if x.mem[e]? = some '\n' then ['\n'] else [])) :: r, ?_⟩
      simp only [streamLoop, hb, hv, he, Option.some_bind, writeRecord, if_pos (And.intro hbe hem), hr,
        Option.map_some']

theorem timesWritten_eq {stream : List (Nat × List Char)} {is : List Nat} {p : Nat → Bool}
    (h : stream.map Prod.fst = is.filter p) (hnd : is.Nodup) {i : Nat} (hi : i ∈ is) :
    timesWritten stream i = if p i then 1 else 0 := by
  unfold timesWritten
  rw [h, List.count_eq_of_nodup (hnd.filter p)]
  by_cases hp : p i = true
  · rw [if_pos (List.mem_filter.mpr ⟨hi, hp⟩), if_pos hp]
  · rw [if_neg (fun hm => hp (List.mem_filter.mp hm).2), if_neg hp]

theorem report_fasta_some {pi po fx ha ho : Bool} {x : ReadsBuffer} {read_hits : List Bool}
    {aligned other : List (Nat × List Char)}
    (h : report_fasta pi po fx ha ho x read_hits = some (aligned, other)) :
    fastaAligned pi po fx ha x read_hits = some aligned ∧
    fastaOther pi po fx ho x read_hits = some other := by
  unfold report_fasta at h
  cases h1 : fastaAligned pi po fx ha x read_hits with
  | none => rw [h1] at h; simp at h
  | some al =>
    rw [h1] at h
    cases h2 : fastaOther pi po fx ho x read_hits with
    | none => rw [h2] at h; simp at h
    | some ot =>
      rw [h2] at h
      simp only [Option.map_some', Option.some.injEq, Prod.mk.injEq] at h
      rw [h.1, h.2]
      exact ⟨rfl, rfl⟩

theorem walkable_pointers {x : ReadsBuffer} {read_hits : List Bool} (hw : Walkable x read_hits) :
    (∀ j k b e : Nat, j ≤ k → x.reads[j]? = some b → x.reads[k]? = some e → b ≤ e) ∧
    (∀ j b : Nat, x.reads[j]? = some b → b ≤ x.finalnt) := by
  obtain ⟨-, -, -, -, hp, hf⟩ := hw
  constructor
  · intro j k b e hjk hb he
    obtain ⟨hj, rfl⟩ := List.getElem?_eq_some.mp hb
    obtain ⟨hk, rfl⟩ := List.getElem?_eq_some.mp he
    rcases Nat.lt_or_ge j k with hlt | hge
    · exact List.pairwise_iff_getElem.mp hp j k hj hk hlt
    · have : j = k := by omega
      subst this
      exact Nat.le_refl _
  · intro j b hb
    exact hf b (List.getElem?_mem hb)

theorem walk_single {x : ReadsBuffer} {read_hits : List Bool} (hw : Walkable x read_hits)
    (sel : Nat → Option Bool) (hsel : ∀ i, i < x.strs → ∃ v, sel i = some v) :
    ∃ out, streamLoop x sel (endReadSingle x) (forLoop 2 x.strs x.strs 1) = some out := by
  obtain ⟨hmono, hle⟩ := walkable_pointers hw
  obtain ⟨hfs, hlen, -, hfin, -, -⟩ := hw
  apply streamLoop_isSome
  intro i hi
  obtain ⟨h1, h2, -⟩ := forLoop_mem _ _ _ hi
  obtain ⟨v, hv⟩ := hsel i h2
  obtain ⟨b, hb⟩ : ∃ b, x.reads[i - 1]? = some b :=
    ⟨_, List.getElem?_eq_getElem (show i - 1 < x.reads.length by omega)⟩
  by_cases hnext : i + 2 < x.strs
  · obtain ⟨e, he⟩ : ∃ e, x.reads[i + 1]? = some e :=
      ⟨_, List.getElem?_eq_getElem (show i + 1 < x.reads.length by omega)⟩
    refine ⟨b, v, e, hb, hv, ?_, hmono _ _ _ _ (by omega) hb he, ?_⟩
    · simp only [endReadSingle, hfs, Nat.lt_irrefl, if_false, if_pos hnext, he]
    · exact Nat.lt_of_le_of_lt (hle _ _ he) hfin
  · refine ⟨b, v, x.finalnt, hb, hv, ?_, hle _ _ hb, hfin⟩
    simp only [endReadSingle, hfs, Nat.lt_irrefl, if_false, if_neg hnext]

theorem walk_paired {x : ReadsBuffer} {read_hits : List Bool} (hw : Walkable x read_hits)
    (h4 : x.strs % 4 = 0) (sel : Nat → Option Bool)
    (hsel : ∀ i, i + 2 < x.strs → ∃ v, sel i = some v) :
    ∃ out, streamLoop x sel (endReadPaired x) (forLoop 4 x.strs x.strs 1) = some out := by
  obtain ⟨hmono, hle⟩ := walkable_pointers hw
  obtain ⟨hfs, hlen, -, hfin, -, -⟩ := hw
  apply streamLoop_isSome
  intro i hi
  obtain ⟨h1, h2, h3⟩ := forLoop_mem _ _ _ hi
  obtain ⟨v, hv⟩ := hsel i (by omega)
  obtain ⟨b, hb⟩ : ∃ b, x.reads[i - 1]? = some b :=
    ⟨_, List.getElem?_eq_getElem (show i - 1 < x.reads.length by omega)⟩
  by_cases hnext : i + 4 < x.strs
  · obtain ⟨e, he⟩ : ∃ e, x.reads[i + 3]? = some e :=
      ⟨_, List.getElem?_eq_getElem (show i + 3 < x.reads.length by omega)⟩
    refine ⟨b, v, e, hb, hv, ?_, hmono _ _ _ _ (by omega) hb he, ?_⟩
    · simp only [endReadPaired, hfs, Nat.lt_irrefl, if_false, if_pos hnext, he]
    · exact Nat.lt_of_le_of_lt (hle _ _ he) hfin
  · refine ⟨b, v, x.finalnt, hb, hv, ?_, hle _ _ hb, hfin⟩
    simp only [endReadPaired, hfs, Nat.lt_irrefl, if_false, if_neg hnext]

/-- C3. With both outputs enabled, whenever `report_fasta` returns: in single-end mode every
read (loop index `i`) is written once to the aligned stream and not to the other stream
when `read_hits[i]`, and once to the other stream and not to the aligned stream otherwise;
in pairedin mode and in pairedout mode every pair (hit flags at `i` and `i + 2`) is written
once to exactly one of the two streams, whatever the two flags (to the aligned stream iff
one of them is set in pairedin mode, iff both are set in pairedout mode).  And
`report_fasta` does return on a walkable unsplit buffer (in the paired modes: one whose
number of pointers is a multiple of 4). -/
theorem report_fasta_partition (x : ReadsBuffer) (read_hits : List Bool) :
    (∀ aligned other, report_fasta false false true true true x read_hits = some (aligned, other) →
      ∀ i ∈ forLoop 2 x.strs x.strs 1, ∃ h, read_hits[i]? = some h ∧
        timesWritten aligned i = (if h then 1 else 0) ∧
        timesWritten other i = (if h then 0 else 1)) ∧
    (∀ aligned other, report_fasta true false true true true x read_hits = some (aligned, other) →
      ∀ i ∈ forLoop 4 x.strs x.strs 1, ∃ h1 h2, read_hits[i]? = some h1 ∧ read_hits[i + 2]? = some h2 ∧
        timesWritten aligned i + timesWritten other i = 1 ∧
        timesWritten aligned i = (if h1 || h2 then 1 else 0)) ∧
    (∀ aligned other, report_fasta false true true true true x read_hits = some (aligned, other) →
      ∀ i ∈ forLoop 4 x.strs x.strs 1, ∃ h1 h2, read_hits[i]? = some h1 ∧ read_hits[i + 2]? = some h2 ∧
        timesWritten aligned i + timesWritten other i = 1 ∧
        timesWritten aligned i = (if h1 && h2 then 1 else 0)) ∧
    (Walkable x read_hits →
      (∃ r, report_fasta false false true true true x read_hits = some r) ∧
      (x.strs % 4 = 0 →
        (∃ r, report_fasta true false true true true x read_hits = some r) ∧
        (∃ r, report_fasta false true true true true x read_hits = some r))) := by
  refine ⟨?_, ?_, ?_, ?_⟩
  · intro aligned other h i hi
    obtain ⟨ha, ho⟩ := report_fasta_some h
    simp [fastaAligned] at ha
    simp [fastaOther] at ho
    obtain ⟨a1, a2⟩ := streamLoop_fst _ _ _ _ _ ha
    obtain ⟨o1, -⟩ := streamLoop_fst _ _ _ _ _ ho
    obtain ⟨b, hb⟩ := a2 i hi
    have hnd := @forLoop_nodup 2 x.strs (by norm_num) x.strs 1
    refine ⟨b, hb, ?_, ?_⟩
    · rw [timesWritten_eq a1 hnd hi]; cases b <;> simp [hb]
    · rw [timesWritten_eq o1 hnd hi]; cases b <;> simp [hb]
  · intro aligned other h i hi
    obtain ⟨ha, ho⟩ := report_fasta_some h
    simp [fastaAligned] at ha
    simp [fastaOther] at ho
    obtain ⟨a1, a2⟩ := streamLoop_fst _ _ _ _ _ ha
    obtain ⟨o1, -⟩ := streamLoop_fst _ _ _ _ _ ho
    obtain ⟨b, hb⟩ := a2 i hi
    have hnd := @forLoop_nodup 4 x.strs (by norm_num) x.strs 1
    unfold pairAccepted at hb
    cases h1 : read_hits[i]? with
    | none => rw [h1] at hb; simp at hb
    | some v1 =>
      cases h2 : read_hits[i + 2]? with
      | none => rw [h1, h2] at hb; simp at hb
      | some v2 =>
        refine ⟨v1, v2, rfl, rfl, ?_, ?_⟩
        · rw [timesWritten_eq a1 hnd hi, timesWritten_eq o1 hnd hi]
          cases v1 <;> cases v2 <;> simp [pairAccepted, pairRejected, h1, h2]
        · rw [timesWritten_eq a1 hnd hi]
          cases v1 <;> cases v2 <;> simp [pairAccepted, h1, h2]
  · intro aligned other h i hi
    obtain ⟨ha, ho⟩ := report_fasta_some h
    simp [fastaAligned] at ha
    simp [fastaOther] at ho
    obtain ⟨a1, a2⟩ := streamLoop_fst _ _ _ _ _ ha
    obtain ⟨o1, -⟩ := streamLoop_fst _ _ _ _ _ ho
    obtain ⟨b, hb⟩ := a2 i hi
    have hnd := @forLoop_nodup 4 x.strs (by norm_num) x.strs 1
    unfold pairAccepted at hb
    cases h1 : read_hits[i]? with
    | none => rw [h1] at hb; simp at hb
    | some v1 =>
      cases h2 : read_hits[i + 2]? with
      | none => rw [h1, h2] at hb; simp at hb
      | some v2 =>
        refine ⟨v1, v2, rfl, rfl, ?_, ?_⟩
        · rw [timesWritten_eq a1 hnd hi, timesWritten_eq o1 hnd hi]
          cases v1 <;> cases v2 <;> simp [pairAccepted, pairRejected, h1, h2]
        · rw [timesWritten_eq a1 hnd hi]
          cases v1 <;> cases v2 <;> simp [pairAccepted, h1, h2]
  · intro hw
    have hhit : ∀ i, i < x.strs → ∃ v, read_hits[i]? = some v := fun i hi =>
      ⟨_, List.getElem?_eq_getElem (Nat.lt_of_lt_of_le hi hw.2.2.1)⟩
    constructor
    · obtain ⟨al, hal⟩ := walk_single hw (fun i => read_hits[i]?) hhit
      obtain ⟨ot, hot⟩ := walk_single hw (fun i => (read_hits[i]?).map fun h => !h)
        (fun i hi => by obtain ⟨v, hv⟩ := hhit i hi; exact ⟨!v, by simp [hv]⟩)
      exact ⟨(al, ot), by simp [report_fasta, fastaAligned, fastaOther, hal, hot]⟩
    · intro h4
      have hacc : ∀ (pi : Bool) i, i + 2 < x.strs → ∃ v, pairAccepted pi read_hits i = some v := by
        intro pi i hi
        obtain ⟨v1, hv1⟩ := hhit i (by omega)
        obtain ⟨v2, hv2⟩ := hhit (i + 2) hi
        exact ⟨(v1 && v2) || ((v1 || v2) && pi), by simp only [pairAccepted, hv1, hv2]⟩
      have hrej : ∀ (po : Bool) i, i + 2 < x.strs → ∃ v, pairRejected po read_hits i = some v := by
        intro po i hi
        obtain ⟨v1, hv1⟩ := hhit i (by omega)
        obtain ⟨v2, hv2⟩ := hhit (i + 2) hi
        exact ⟨(!v1 && !v2) || ((xor v1 v2) && po), by simp only [pairRejected, hv1, hv2]⟩
      constructor
      · obtain ⟨al, hal⟩ := walk_paired hw h4 _ (hacc true)
        obtain ⟨ot, hot⟩ := walk_paired hw h4 _ (hrej false)
        exact ⟨(al, ot), by simp [report_fasta, fastaAligned, fastaOther, hal, hot]⟩
      · obtain ⟨al, hal⟩ := walk_paired hw h4 _ (hacc false)
        obtain ⟨ot, hot⟩ := walk_paired hw h4 _ (hrej true)
        exact ⟨(al, ot), by simp [report_fasta, fastaAligned, fastaOther, hal, hot]⟩

/-- Witness of C3: the buffer of two reads with hit flags `[_, true, _, false]`.  In
single-end mode the first read goes to the aligned stream and the second to the other
stream; in pairedin mode the pair goes to the aligned stream only, in pairedout mode to the
other stream only. -/
theorem report_fasta_partition_witness :
    Walkable sampleBuffer [false, true, false, false] ∧
    report_fasta false false true true true sampleBuffer [false, true, false, false] =
      some ([(1, ">a\nAC\n".toList)], [(3, ">b\nGT\n".toList)]) ∧
    report_fasta true false true true true sampleBuffer [false, true, false, false] =
      some ([(1, ">a\nAC\n>b\nGT\n".toList)], []) ∧
    report_fasta false true true true true sampleBuffer [false, true, false, false] =
      some ([], [(1, ">a\nAC\n>b\nGT\n".toList)]) ∧
    (∃ r, report_fasta false false true true true sampleBuffer [false, true, false, false] = some r) ∧
    (sampleBuffer.strs % 4 = 0 →
      (∃ r, report_fasta true false true true true sampleBuffer [false, true, false, false] = some r) ∧
      (∃ r, report_fasta false true true true true sampleBuffer [false, true, false, false] = some r)) :=
  ⟨by decide, by decide, by decide, by decide,
    (report_fasta_partition sampleBuffer [false, true, false, false]).2.2.2 (by decide)⟩

/-! ## Theorems: pairs and record bytes of report_fasta, report_denovo -/

theorem forLoop_sorted (step strs : Nat) (hstep : 0 < step) :
    ∀ fuel start, (forLoop step strs fuel start).Pairwise (fun a b => a < b) := by
  intro fuel
  induction fuel with
  | zero => intro start; simp [forLoop]
  | succ fuel ih =>
    intro start
    simp only [forLoop]
    split
    · refine List.pairwise_cons.mpr ⟨fun j hj => ?_, ih _⟩
      have := (forLoop_mem _ _ _ hj).1
      omega
    · simp

theorem streamLoop_mem (x : ReadsBuffer) (sel : Nat → Option Bool) (endRead : Nat → Option Nat) :
    ∀ (is : List Nat) (out : List (Nat × List Char)), streamLoop x sel endRead is = some out →
      ∀ i bytes, (i, bytes) ∈ out → i ∈ is ∧ sel i = some true ∧
        ∃ b e, x.reads[i - 1]? = some b ∧ endRead i = some e ∧ writeRecord x.mem b e = some bytes := by
  intro is
  induction is with
  | nil =>
    intro out h i bytes hm
    simp only [streamLoop, Option.some.injEq] at h
    subst h; simp at hm
  | cons j is ih =>
    intro out h i bytes hm
    simp only [streamLoop] at h
    cases hb : x.reads[j - 1]? with
    | none => rw [hb] at h; simp at h
    | some b =>
      cases hs : sel j with
      | none => rw [hb, hs] at h; simp at h
      | some v =>
        rw [hb, hs] at h
        cases v with
        | false =>
          simp only at h
          obtain ⟨h1, h2⟩ := ih out h i bytes hm
          exact ⟨List.mem_cons_of_mem _ h1, h2⟩
        | true =>
          simp only at h
          cases he : endRead j with
          | none => rw [he] at h; simp at h
          | some e =>
            rw [he] at h
            simp only [Option.some_bind] at h
            cases hw : writeRecord x.mem b e with
            | none => rw [hw] at h; simp at h
            | some bs =>
              rw [hw] at h
              simp only at h
              cases hr : streamLoop x sel endRead is with
              | none => rw [hr] at h; simp at h
              | some r =>
                rw [hr] at h
                simp only [Option.map_some', Option.some.injEq] at h
                subst h
                rcases List.mem_cons.mp hm with heq | hin
                · simp only [Prod.mk.injEq] at heq
                  obtain ⟨rfl, rfl⟩ := heq
                  exact ⟨List.mem_cons_self _ _, hs, b, e, hb, he, hw⟩
                · obtain ⟨h1, h2⟩ := ih r hr i bytes hin
                  exact ⟨List.mem_cons_of_mem _ h1, h2⟩

theorem paired_counts {pi po : Bool} {x : ReadsBuffer} {read_hits : List Bool}
    {aligned other : List (Nat × List Char)} (hp : pi = true ∨ po = true)
    (h : report_fasta pi po true true true x read_hits = some (aligned, other)) :
    ∀ i ∈ forLoop 4 x.strs x.strs 1, ∃ h1 h2, read_hits[i]? = some h1 ∧ read_hits[i + 2]? = some h2 ∧
      timesWritten aligned i = (if ((h1 && h2) || ((h1 || h2) && pi)) = true then 1 else 0) ∧
      timesWritten other i = (if ((!h1 && !h2) || ((xor h1 h2) && po)) = true then 1 else 0) := by
  intro i hi
  obtain ⟨ha, ho⟩ := report_fasta_some h
  simp only [fastaAligned, and_self, if_true, if_pos hp] at ha
  simp only [fastaOther, and_self, if_true, if_pos hp] at ho
  obtain ⟨a1, a2⟩ := streamLoop_fst _ _ _ _ _ ha
  obtain ⟨o1, -⟩ := streamLoop_fst _ _ _ _ _ ho
  obtain ⟨b, hb⟩ := a2 i hi
  have hnd := @forLoop_nodup 4 x.strs (by norm_num) x.strs 1
  unfold pairAccepted at hb
  cases h1 : read_hits[i]? with
  | none => rw [h1] at hb; simp at hb
  | some v1 =>
    cases h2 : read_hits[i + 2]? with
    | none => rw [h1, h2] at hb; simp at hb
    | some v2 =>
      refine ⟨v1, v2, rfl, rfl, ?_, ?_⟩
      · rw [timesWritten_eq a1 hnd hi]
        simp only [pairAccepted, h1, h2]
        cases v1 <;> cases v2 <;> cases pi <;> simp
      · rw [timesWritten_eq o1 hnd hi]
        simp only [pairRejected, h1, h2]
        cases v1 <;> cases v2 <;> cases po <;> simp
/-- C11. In pairedout mode (`pairedout_gv` set, `pairedin_gv` not set), whenever `report_fasta`
returns, every pair (loop index `i`, hit flags at `i` and `i + 2`) of which exactly one mate
is aligned is not written to the aligned stream and is written once to the other stream.
And `report_fasta` does return on a walkable unsplit buffer whose number of pointers is a
multiple of 4. -/
theorem report_fasta_pairedout_one_mate (x : ReadsBuffer) (read_hits : List Bool) :
    (∀ aligned other, report_fasta false true true true true x read_hits = some (aligned, other) →
      ∀ i ∈ forLoop 4 x.strs x.strs 1, ∃ h1 h2, read_hits[i]? = some h1 ∧ read_hits[i + 2]? = some h2 ∧
        (xor h1 h2 = true → timesWritten aligned i = 0 ∧ timesWritten other i = 1)) ∧
    (Walkable x read_hits → x.strs % 4 = 0 →
      ∃ r, report_fasta false true true true true x read_hits = some r) := by
  constructor
  · intro aligned other h i hi
    obtain ⟨h1, h2, e1, e2, ca, co⟩ := paired_counts (Or.inr rfl) h i hi
    refine ⟨h1, h2, e1, e2, fun hx => ?_⟩
    rw [ca, co]
    cases h1 <;> cases h2 <;> simp at hx ⊢
  · intro hw h4
    have hhit : ∀ i, i < x.strs → ∃ v, read_hits[i]? = some v := fun i hi =>
      ⟨_, List.getElem?_eq_getElem (Nat.lt_of_lt_of_le hi hw.2.2.1)⟩
    obtain ⟨al, hal⟩ := walk_paired hw h4 (pairAccepted false read_hits) (fun i hi => by
      obtain ⟨v1, hv1⟩ := hhit i (by omega)
      obtain ⟨v2, hv2⟩ := hhit (i + 2) hi
      exact ⟨(v1 && v2) || ((v1 || v2) && false), by simp only [pairAccepted, hv1, hv2]⟩)
    obtain ⟨ot, hot⟩ := walk_paired hw h4 (pairRejected true read_hits) (fun i hi => by
      obtain ⟨v1, hv1⟩ := hhit i (by omega)
      obtain ⟨v2, hv2⟩ := hhit (i + 2) hi
      exact ⟨(!v1 && !v2) || ((xor v1 v2) && true), by simp only [pairRejected, hv1, hv2]⟩)
    exact ⟨(al, ot), by simp [report_fasta, fastaAligned, fastaOther, hal, hot]⟩

/-- Witness of C11: the buffer of one pair whose first mate only is aligned; in pairedout
mode the pair is written to the other stream and not to the aligned stream. -/
theorem report_fasta_pairedout_one_mate_witness :
    Walkable sampleBuffer [false, true, false, false] ∧ sampleBuffer.strs % 4 = 0 ∧
    report_fasta false true true true true sampleBuffer [false, true, false, false] =
      some ([], [(1, ">a\nAC\n>b\nGT\n".toList)]) ∧
    ∃ r, report_fasta false true true true true sampleBuffer [false, true, false, false] = some r :=
  ⟨by decide, by decide, by decide,
    (report_fasta_pairedout_one_mate sampleBuffer [false, true, false, false]).2 (by decide) (by decide)⟩

/-- C12 (the code at the failing input).  On the two reads `>a\nAC\n` and `>b\nGT` of a file
that does not end in a newline (`finalnt` at the last base), with both reads aligned,
`report_fasta` in single-end mode writes the last record without its final byte: `>b\nG`,
where its byte range through the byte at `finalnt` is `>b\nGT`; the first record is written
in full.  On the same two reads of a file that ends in a newline both records are written
in full, the last one through the byte at `finalnt`. -/
theorem report_fasta_drops_final_byte :
    report_fasta false false true true true unterminatedBuffer [false, true, false, true] =
      some ([(1, ">a\nAC\n".toList), (3, ">b\nG".toList)], []) ∧
    unterminatedBuffer.reads[3 - 1]? = some 6 ∧ unterminatedBuffer.finalnt = 10 ∧
    (unterminatedBuffer.mem.drop 6).take (10 + 1 - 6) = ">b\nGT".toList ∧
    report_fasta false false true true true sampleBuffer [false, true, false, true] =
      some ([(1, ">a\nAC\n".toList), (3, ">b\nGT\n".toList)], []) ∧
    sampleBuffer.reads[3 - 1]? = some 6 ∧ sampleBuffer.finalnt = 11 ∧
    (sampleBuffer.mem.drop 6).take (11 + 1 - 6) = ">b\nGT\n".toList :=
  ⟨by decide, by decide, by decide, by decide, by decide, by decide, by decide, by decide⟩

/-- The records of the single-end loops.  On an unsplit buffer (`file_s = 0`), whenever
`report_fasta` returns: the loop indices of the records of each stream increase strictly,
and the bytes of every written record are the bytes from its header pointer `reads[i - 1]`
up to but excluding its end pointer `e` (the next header pointer `reads[i + 1]`, or `finalnt`
for the last record), followed by one newline exactly when the byte at `e` is a newline.
So a record whose end byte is not a newline is written as exactly the range before `e`, and
a record whose end byte is a newline (the last record of a file that ends in a newline) is
written through the byte at `e` inclusive.  And `report_fasta` does return on a walkable
buffer. -/
theorem report_fasta_record_bytes (x : ReadsBuffer) (read_hits : List Bool) (hfs : x.file_s = 0) :
    (∀ aligned other, report_fasta false false true true true x read_hits = some (aligned, other) →
      ∀ stream, stream = aligned ∨ stream = other →
        (stream.map Prod.fst).Pairwise (fun i j => i < j) ∧
        ∀ i bytes, (i, bytes) ∈ stream →
          ∃ b e, x.reads[i - 1]? = some b ∧
            (if i + 2 < x.strs then x.reads[i + 1]? = some e else e = x.finalnt) ∧
            b ≤ e ∧ e < x.mem.length ∧
            bytes = (x.mem.drop b).take (e - b) ++ (if x.mem[e]? = some '\n' then ['\n'] else []) ∧
            (x.mem[e]? ≠ some '\n' → bytes = (x.mem.drop b).take (e - b)) ∧
            (x.mem[e]? = some '\n' → bytes = (x.mem.drop b).take (e + 1 - b))) ∧
    (Walkable x read_hits → ∃ r, report_fasta false false true true true x read_hits = some r) := by
  have key : ∀ (sel : Nat → Option Bool) (stream : List (Nat × List Char)),
      streamLoop x sel (endReadSingle x) (forLoop 2 x.strs x.strs 1) = some stream →
      (stream.map Prod.fst).Pairwise (fun i j => i < j) ∧
        ∀ i bytes, (i, bytes) ∈ stream →
          ∃ b e, x.reads[i - 1]? = some b ∧
            (if i + 2 < x.strs then x.reads[i + 1]? = some e else e = x.finalnt) ∧
            b ≤ e ∧ e < x.mem.length ∧
            bytes = (x.mem.drop b).take (e - b) ++ (if x.mem[e]? = some '\n' then ['\n'] else []) ∧
            (x.mem[e]? ≠ some '\n' → bytes = (x.mem.drop b).take (e - b)) ∧
            (x.mem[e]? = some '\n' → bytes = (x.mem.drop b).take (e + 1 - b)) := by
    intro sel stream hs
    constructor
    · rw [(streamLoop_fst _ _ _ _ _ hs).1]
      exact (forLoop_sorted 2 x.strs (by norm_num) x.strs 1).filter _
    · intro i bytes hm
      obtain ⟨-, -, b, e, hb, he, hw⟩ := streamLoop_mem _ _ _ _ _ hs i bytes hm
      unfold writeRecord at hw
      split at hw
      next hcond =>
        simp only [Option.some.injEq] at hw
        refine ⟨b, e, hb, ?_, hcond.1, hcond.2, hw.symm, ?_, ?_⟩
        · simp only [endReadSingle, hfs, Nat.lt_irrefl, if_false] at he
          split at he
          next hlt => rw [if_pos hlt]; exact he
          next hge => rw [if_neg hge]; exact (Option.some.inj he).symm
        · intro hne
          rw [← hw, if_neg hne, List.append_nil]
        · intro heq
          rw [← hw, if_pos heq, show e + 1 - b = (e - b) + 1 by omega, List.take_succ,
            List.getElem?_drop, show b + (e - b) = e by omega, heq]
          rfl
      next => simp at hw
  constructor
  · intro aligned other h stream hst
    obtain ⟨ha, ho⟩ := report_fasta_some h
    simp [fastaAligned] at ha
    simp [fastaOther] at ho
    rcases hst with rfl | rfl
    · exact key _ _ ha
    · exact key _ _ ho
  · intro hw
    have hhit : ∀ i, i < x.strs → ∃ v, read_hits[i]? = some v := fun i hi =>
      ⟨_, List.getElem?_eq_getElem (Nat.lt_of_lt_of_le hi hw.2.2.1)⟩
    obtain ⟨al, hal⟩ := walk_single hw (fun i => read_hits[i]?) hhit
    obtain ⟨ot, hot⟩ := walk_single hw (fun i => (read_hits[i]?).map fun h => !h)
      (fun i hi => by obtain ⟨v, hv⟩ := hhit i hi; exact ⟨!v, by simp [hv]⟩)
    exact ⟨(al, ot), by simp [report_fasta, fastaAligned, fastaOther, hal, hot]⟩

/-- Without `pairedin_gv` the loop over pairs of `report_denovo` writes nothing, whatever the
flags are: in pairedout mode the de novo stream stays empty. -/
theorem report_denovo_pairedout_empty (x : ReadsBuffer) (read_hits_denovo : List Bool)
    (out : List (Nat × List Char))
    (h : report_denovo false true true x read_hits_denovo = some out) : out = [] := by
  simp only [report_denovo, if_true, or_true] at h
  have hfst := (streamLoop_fst _ _ _ _ _ h).1
  have hnone : ∀ i, (denovoAccepted false read_hits_denovo i == some true) = false := by
    intro i
    unfold denovoAccepted
    cases read_hits_denovo[i]? with
    | none => rfl
    | some v =>
      cases v with
      | true => rfl
      | false => cases read_hits_denovo[i + 1]? <;> simp
  have hempty : (forLoop 4 x.strs x.strs 1).filter
      (fun i => denovoAccepted false read_hits_denovo i == some true) = [] :=
    List.filter_eq_nil_iff.mpr (fun i _ => by rw [hnone i]; simp)
  rw [hempty] at hfst
  exact List.map_eq_nil_iff.mp hfst

/-- C20, evaluation of the code.  In pairedout mode `report_denovo` writes nothing for a
pair whose two mates (flags at 1 and 3) are both de novo hits; in pairedin mode it writes a
pair neither of whose mates is a de novo hit when the flag at index 2 is set, and does not
write a pair whose second mate only (flag at 3) is a de novo hit. -/
theorem report_denovo_pairs :
    report_denovo false true true sampleBuffer [false, true, false, true] = some [] ∧
    report_denovo true false true sampleBuffer [false, false, true, false] =
      some [(1, ">a\nAC\n>b\nGT\n".toList)] ∧
    report_denovo true false true sampleBuffer [false, false, false, true] = some [] := by
  decide

/-! ## Theorems: the CIGAR column and the query coverage -/

theorem cigarWords_render (fmt : ℚ → List Char) : ∀ cigar : List Nat,
    renderAll fmt (cigar.flatMap (fun w =>
      [Tok.int 0 (length w),
       Tok.text 0 [if letter w = 0 then 'M' else if letter w = 1 then 'I' else 'D']])) =
    ((decodeOps cigar).map fun op =>
      showInt op.2 ++ [if op.1 = 0 then 'M' else if op.1 = 1 then 'I' else 'D']).flatten
  | [] => rfl
  | w :: ws => by
    have ih := cigarWords_render fmt ws
    simp only [List.flatMap_cons, renderAll_append, renderAll_cons, renderAll_nil, render_int_zero,
      render_text_zero, decodeOps, List.map_cons, List.flatten_cons, List.append_nil] at ih ⊢
    rw [ih]

/-- The tokens of the CIGAR column render as the string of the specification when the
trailing clip is not negative and fits the 32-bit `end_mask`. -/
theorem cigarTokens_render (fmt : ℚ → List Char) (a : Alignment) (seqlen : Nat)
    (h1 : a.read_end1 < seqlen) (h2 : (seqlen : Int) - a.read_end1 - 1 < 2 ^ 32) :
    renderAll fmt (cigarTokens a seqlen) =
      cigarStringSpec a.read_begin1 a.read_end1 seqlen (decodeOps a.cigar) := by
  have e := @ofSigned_of_nonneg ((seqlen : Int) - a.read_end1 - 1) (by omega) h2
  unfold cigarTokens cigarStringSpec
  rw [renderAll_append, renderAll_append, cigarWords_render]
  congr 1
  · congr 1
    split
    · simp only [renderAll_cons, renderAll_nil, render_int_zero, render_text_zero, List.append_nil]
    · rfl
  · by_cases hpos : (seqlen : Int) - a.read_end1 - 1 > 0
    · have hp : ofSigned ((seqlen : Int) - a.read_end1 - 1) > 0 := by omega
      rw [if_pos hp, if_pos hpos]
      simp only [renderAll_cons, renderAll_nil, render_int_zero, render_text_zero, List.append_nil, e]
    · have hp : ¬ ofSigned ((seqlen : Int) - a.read_end1 - 1) > 0 := by omega
      rw [if_neg hp, if_neg hpos]
      rfl

/-- Whenever the tabular loop of `Output::report_blast` returns for a read with at least one
alignment, its text is the line of the fields `recordFields` of every alignment that is
left, in order, each with the counters as they stand after its call of `calcMismatchGapId`. -/
theorem reportBlastLoop_tabular_fields (fmt : ℚ → List Char)
    (g : Globals) (idx : Index) (refs : List Reference) (read : Read)
    (hf : idx.blastFormat = BlastFormat.TABULAR) (hk : KnownOpts g.user_opts)
    (hne : read.alignv ≠ []) (Q : Alignment → Prop) :
    ∀ (as : List Alignment) (m : Metrics) (out : List Tok), (∀ a ∈ as, Q a) →
      reportBlastLoop g idx refs read as m = some out →
      ∃ lines, List.Forall₂ (fun fs a => Q a ∧ ∃ ref m1, refs[a.ref_seq]? = some ref ∧
          fs = recordFields fmt g idx read.header ref.header a m1 read.sequence.length) lines as ∧
        renderAll fmt out = (lines.map tabLine).flatten := by
  intro as
  induction as with
  | nil =>
    intro m out _ h
    simp only [reportBlastLoop, Option.some.injEq] at h
    subst h
    exact ⟨[], List.Forall₂.nil, rfl⟩
  | cons a as ih =>
    intro m out hQ h
    have hlen : ¬ (g.print_all_reads_gv = true ∧ read.alignv.length = 0) := by
      intro hc; exact hne (List.length_eq_zero.mp hc.2)
    simp only [reportBlastLoop] at h
    cases href : refs[a.ref_seq]? with
    | none => rw [href] at h; simp at h
    | some ref =>
      rw [href] at h
      simp only [hf, if_neg hlen] at h
      cases hcalc : calcMismatchGapId ref.sequence read.sequence a.cigar a.ref_begin1 a.read_begin1 m with
      | none => rw [hcalc] at h; simp at h
      | some m1 =>
        rw [hcalc] at h
        cases hopt : optionalColumns a read.sequence.length g.user_opts with
        | none => rw [hopt] at h; simp at h
        | some opt =>
          rw [hopt] at h
          simp only [Option.map_eq_some'] at h
          obtain ⟨r, hr, rfl⟩ := h
          obtain ⟨lines, hl, hrender⟩ := ih m1 r (fun x hx => hQ x (List.mem_cons_of_mem _ hx)) hr
          refine ⟨recordFields fmt g idx read.header ref.header a m1 read.sequence.length :: lines,
            List.Forall₂.cons ⟨hQ a (List.mem_cons_self _ _), ref, m1, href, rfl⟩ hl, ?_⟩
          have := tabularRecord_render fmt g idx read.header ref.header a m1 read.sequence.length opt
            (optionalColumns_render fmt a _ _ opt hk hopt)
          rw [List.map_cons, List.flatten_cons, ← this, ← hrender, ← renderAll_append]

theorem recordFields_opt (fmt : ℚ → List Char) (g : Globals) (idx : Index)
    (readhead refhead : List Char) (a : Alignment) (m : Metrics) (seqlen : Nat) (k : Nat) :
    (recordFields fmt g idx readhead refhead a m seqlen)[12 + k]? =
      (g.user_opts[k]?).map (optField fmt a seqlen) := by
  unfold recordFields
  rw [List.getElem?_append_right (by simp)]
  simp

/-- C13. In the tabular branch of `Output::report_blast` with the option `cigar` at place `k`
of the option list, for a read all of whose alignments have `readEnd < readLength`
(`readLength` is the length of the read sequence, and the trailing clip
`readLength - readEnd - 1` fits the 32-bit variable that holds it): whenever the function
returns, its text is one line of fields per alignment and field `13 + k` of each line is
`<readBegin>S` iff `readBegin ≠ 0`, then for every CIGAR word in order its run length in
decimal with `M` (tag 0), `I` (tag 1) or `D` (any other tag), then
`<readLength - readEnd - 1>S` iff `readLength - readEnd - 1 > 0`; and it does return when
every alignment can be encoded without undefined behaviour.  The bound `0 ≤ readBegin` is
not needed. -/
theorem report_blast_cigar_column (fmt : ℚ → List Char) (g : Globals) (idx : Index)
    (refs : List Reference) (read : Read) (hfmt : ∀ v, NoSep (fmt v))
    (hf : idx.blastFormat = BlastFormat.TABULAR) (hk : KnownOpts g.user_opts)
    (hq : NoSep (headId read.header)) (hrefs : ∀ r ∈ refs, NoSep (headId r.header))
    (hne : read.alignv ≠ []) (k : Nat) (hcig : g.user_opts[k]? = some "cigar".toList)
    (hfit : ∀ a ∈ read.alignv, a.read_end1 < read.sequence.length ∧
      (read.sequence.length : Int) - a.read_end1 - 1 < 2 ^ 32) :
    (∀ out, Output.report_blast g idx refs read = some out →
      ∃ lines, List.Forall₂ (fun fs a => IsRecordOf g refs fs a ∧
          fs[12 + k]? = some (cigarStringSpec a.read_begin1 a.read_end1 read.sequence.length
            (decodeOps a.cigar))) lines read.alignv ∧
        renderAll fmt out = (lines.map tabLine).flatten) ∧
    (Encodable refs read → ∃ out, Output.report_blast g idx refs read = some out) := by
  constructor
  · intro out h
    obtain ⟨lines, hl, hr⟩ := reportBlastLoop_tabular_fields fmt g idx refs read hf hk hne
      (fun a => a.read_end1 < read.sequence.length ∧
        (read.sequence.length : Int) - a.read_end1 - 1 < 2 ^ 32) _ _ out hfit h
    refine ⟨lines, hl.imp ?_, hr⟩
    rintro fs a ⟨⟨h1, h2⟩, ref, m1, href, rfl⟩
    refine ⟨recordFields_isRecordOf hfmt g idx refs read.header ref a m1 _ href hq
      (hrefs ref (List.getElem?_mem href)), ?_⟩
    rw [recordFields_opt, hcig, Option.map_some', optField, if_pos rfl, cigarTokens_render fmt a _ h1 h2]
  · exact fun h => reportBlastLoop_tabular_isSome g idx refs read hf hne _ _ h

set_option maxRecDepth 8000 in
/-- Witness of C13: an alignment of bases 1..3 of the read of length 5 gives the column
`1S3M1S`. -/
theorem report_blast_cigar_column_witness :
    (Output.report_blast (sampleGlobals ["cigar".toList]) sampleIndex [sampleReference]
        (sampleRead [clippedAlignment])).map (renderAll sampleFmt) =
      some "read1\tref1\t#\t3\t1\t0\t2\t4\t2\t4\t#\t12\t1S3M1S\n".toList ∧
    cigarStringSpec 1 3 5 (decodeOps [48]) = "1S3M1S".toList ∧
    Encodable [sampleReference] (sampleRead [clippedAlignment]) ∧
    ∃ out, Output.report_blast (sampleGlobals ["cigar".toList]) sampleIndex [sampleReference]
      (sampleRead [clippedAlignment]) = some out :=
  have henc : Encodable [sampleReference] (sampleRead [clippedAlignment]) := by
    intro a ha
    have ha' : a = clippedAlignment := by
      simpa [sampleRead] using ha
    subst ha'
    exact ⟨by decide, sampleReference, rfl, by decide⟩
  ⟨by rfl, by decide, henc,
   (report_blast_cigar_column sampleFmt (sampleGlobals ["cigar".toList]) sampleIndex [sampleReference]
    (sampleRead [clippedAlignment]) (fun _ => (by decide : NoSep ['#'])) rfl (by decide) (by decide)
    (by decide) (by decide) 0 rfl (by
      intro a ha
      have ha' : a = clippedAlignment := by
        simpa [sampleRead] using ha
      subst ha'
      exact ⟨by decide, by decide⟩)).2 henc⟩

/-- C15 (the code at the failing input). For an alignment of bases 0..3 of a read of length 8
the tabular branch of `Output::report_blast` writes in the `qcov` column the value
`(4 / 8) * 100` with the quotient of the integer division, which is 0; the claimed value
`100 * |3 - 0 + 1| / 8` is 50. -/
theorem report_blast_qcov_integer_division :
    Output.report_blast (sampleGlobals ["qcov".toList]) sampleIndex [sampleReference]
        (halfRead [halfAlignment]) =
      some [Tok.text 0 "read3".toList, Tok.text 0 ['\t'], Tok.text 0 "ref1".toList, Tok.text 0 ['\t'],
        Tok.dbl (((4 : Nat) : ℚ) * 100), Tok.text 0 ['\t'],
        Tok.int 0 4, Tok.text 0 ['\t'], Tok.int 0 0, Tok.text 0 ['\t'], Tok.int 0 0, Tok.text 0 ['\t'],
        Tok.int 0 1, Tok.text 0 ['\t'], Tok.int 0 4, Tok.text 0 ['\t'],
        Tok.int 0 1, Tok.text 0 ['\t'], Tok.int 0 4, Tok.text 0 ['\t'],
        Tok.dbl 0, Tok.text 0 ['\t'], Tok.int 0 16, Tok.text 0 ['\t'],
        Tok.dbl (((0 : Nat) : ℚ) * 100), Tok.text 0 ['\n']] ∧
    (((0 : Nat) : ℚ) * 100 = 0) ∧ qcovSpec 0 3 8 = 50 :=
  ⟨by rfl, by norm_num, by norm_num [qcovSpec]⟩

/-! ## Theorems: the free functions report_sam and report_blast -/

theorem scanName_noSep : ∀ (s q : List Char), scanName s = some q → NoSep q
  | [], q, h => by simp [scanName] at h
  | c :: cs, q, h => by
    simp only [scanName] at h
    split at h
    · simp only [Option.some.injEq] at h
      subst h; exact NoSep_nil
    next hc =>
      simp only [Option.map_eq_some'] at h
      obtain ⟨r, hr, rfl⟩ := h
      have ih := scanName_noSep cs r hr
      simp only [not_or] at hc
      unfold NoSep at ih ⊢
      simp only [List.mem_cons, not_or]
      exact ⟨⟨fun e => hc.2.2 e.symm, ih.1⟩, ⟨fun e => hc.2.1 e.symm, ih.2⟩⟩

theorem scanSeq_noSep : ∀ (s : List Nat) (q : List Char), scanSeq s = some q → NoSep q
  | [], q, h => by simp [scanSeq] at h
  | c :: cs, q, h => by
    simp only [scanSeq] at h
    split at h
    · simp only [Option.some.injEq] at h
      subst h; exact NoSep_nil
    · cases hc : to_char[c]? with
      | none => rw [hc] at h; simp at h
      | some ch =>
        rw [hc] at h
        simp only [Option.map_eq_some'] at h
        obtain ⟨r, hr, rfl⟩ := h
        have ih := scanSeq_noSep cs r hr
        have hmem : ch ∈ to_char := List.getElem?_mem hc
        have hch : ch ≠ '\t' ∧ ch ≠ '\n' := by
          simp only [to_char, List.mem_cons, List.mem_singleton, List.not_mem_nil, or_false] at hmem
          rcases hmem with rfl | rfl | rfl | rfl | rfl <;> decide
        unfold NoSep at ih ⊢
        simp only [List.mem_cons, not_or]
        exact ⟨⟨fun e => hch.1 e.symm, ih.1⟩, ⟨fun e => hch.2 e.symm, ih.2⟩⟩

/-- The tokens of an aligned SAM record render as the line of its thirteen fields. -/
theorem report_sam_render (fmt : ℚ → List Char) (g : Globals) (a : Alignment)
    (read_name : List Char) (read_seq : List Nat) (read_qual : Option (List Char × Nat))
    (ref_name : List Char) (readlen : Nat) (strand : Bool) (diff : Nat) (out : List Tok)
    (h : report_sam g (some a) read_name read_seq read_qual ref_name readlen strand diff = some out) :
    ∃ query subject seq qual, scanName read_name = some query ∧ scanName ref_name = some subject ∧
      scanSeq read_seq = some seq ∧ qualText read_qual strand = some qual ∧
      renderAll fmt out = tabLine (samFields fmt query subject a readlen strand seq qual diff) := by
  unfold report_sam at h
  cases hq : scanName read_name with
  | none => rw [hq] at h; simp at h
  | some query =>
    cases hs : scanName ref_name with
    | none => rw [hq, hs] at h; simp at h
    | some subject =>
      cases hseq : scanSeq read_seq with
      | none => rw [hq, hs, hseq] at h; simp at h
      | some seq =>
        cases hqual : qualText read_qual strand with
        | none => rw [hq, hs, hseq, hqual] at h; simp at h
        | some qual =>
          rw [hq, hs, hseq, hqual] at h
          simp only [Option.some.injEq] at h
          subst h
          refine ⟨query, subject, seq, qual, rfl, rfl, rfl, rfl, ?_⟩
          have e255 : showInt 255 = ['2', '5', '5'] := by decide
          unfold samFields
          cases strand <;>
          simp [tabLine_cons, renderAll_cons, renderAll_append, render_text_zero, render_int_zero,
            renderAll_nil, e255]

theorem optionalColumnsFree_render (fmt : ℚ → List Char) (a : Alignment) (readlen : Nat)
    (strand : Bool) (coverage : ℚ) :
    ∀ (opts : List (List Char)), KnownOpts opts →
      renderAll fmt (optionalColumnsFree a readlen strand coverage opts) =
        (opts.map fun o => '\t' :: optFieldFree fmt a readlen strand coverage o).flatten := by
  intro opts
  induction opts with
  | nil => intro _; rfl
  | cons o os ih =>
    intro hk
    have hos : KnownOpts os := fun x hx => hk x (List.mem_cons_of_mem _ hx)
    have hq1 : "qcov".toList ≠ "cigar".toList := by decide
    have hq2 : "qstrand".toList ≠ "cigar".toList := by decide
    have hq3 : "qstrand".toList ≠ "qcov".toList := by decide
    have ih1 := ih hos
    rcases hk o (List.mem_cons_self _ _) with rfl | rfl | rfl
    · simp only [optionalColumnsFree, optFieldFree, if_true, renderAll_cons, renderAll_append,
        render_text_zero, ih1, List.map_cons, List.flatten_cons, List.singleton_append,
        List.cons_append, List.append_assoc, List.nil_append, padLeft_zero]
    · simp only [optionalColumnsFree, optFieldFree, if_neg hq1, if_true, renderAll_cons,
        render_text_zero, Tok.render, ih1, List.map_cons, List.flatten_cons, List.singleton_append,
        List.cons_append, List.nil_append, padLeft_zero]
    · simp only [optionalColumnsFree, optFieldFree, if_neg hq2, if_neg hq3, if_true, renderAll_cons,
        render_text_zero, ih1, List.map_cons, List.flatten_cons, List.singleton_append,
        List.cons_append, List.nil_append, padLeft_zero]

/-- The tokens of an aligned record of the free function `report_blast` render as the line
of its fields. -/
theorem report_blast_render (fmt : ℚ → List Char) (g : Globals) (a : Alignment)
    (read_name ref_name : List Char) (evalue : ℚ) (readlen bitscore : Nat) (strand : Bool)
    (id coverage : ℚ) (mismatches gaps : Nat) (out : List Tok) (hk : KnownOpts g.user_opts)
    (h : report_blast g (some a) read_name ref_name evalue readlen bitscore strand id coverage
      mismatches gaps = some out) :
    ∃ query subject, scanName read_name = some query ∧ scanName ref_name = some subject ∧
      renderAll fmt out = tabLine (recordFieldsFree fmt g query subject a evalue readlen bitscore
        strand id coverage mismatches gaps) := by
  unfold report_blast at h
  cases hq : scanName read_name with
  | none => rw [hq] at h; simp at h
  | some query =>
    cases hs : scanName ref_name with
    | none => rw [hq, hs] at h; simp at h
    | some subject =>
      rw [hq, hs] at h
      simp only [Option.some.injEq] at h
      subst h
      refine ⟨query, subject, rfl, rfl, ?_⟩
      unfold recordFieldsFree
      simp only [List.cons_append, List.nil_append, tabLine_cons, renderAll_cons, renderAll_append,
        render_text_zero, render_int_zero, Tok.render, padLeft_zero, renderAll_nil,
        optionalColumnsFree_render fmt a readlen strand coverage g.user_opts hk, List.map_cons,
        List.flatten_cons, List.map_map, List.append_assoc, List.singleton_append, List.append_nil]
      simp [Function.comp_def]
theorem optFieldFree_noSep {fmt : ℚ → List Char} (hfmt : ∀ v, NoSep (fmt v)) (a : Alignment)
    (readlen : Nat) (strand : Bool) (coverage : ℚ) (o : List Char) :
    NoSep (optFieldFree fmt a readlen strand coverage o) := by
  unfold optFieldFree
  split
  · exact cigarTokens_noSep fmt a readlen
  · split
    · exact hfmt _
    · cases strand <;> decide

theorem recordFieldsFree_noSep {fmt : ℚ → List Char} (hfmt : ∀ v, NoSep (fmt v)) (g : Globals)
    (query subject : List Char) (a : Alignment) (evalue : ℚ) (readlen bitscore : Nat)
    (strand : Bool) (id coverage : ℚ) (mismatches gaps : Nat) (hq : NoSep query)
    (hs : NoSep subject) :
    ∀ f ∈ recordFieldsFree fmt g query subject a evalue readlen bitscore strand id coverage
      mismatches gaps, NoSep f := by
  intro f hf
  unfold recordFieldsFree at hf
  simp only [List.mem_append, List.mem_cons, List.mem_map, List.mem_singleton, List.not_mem_nil,
    or_false] at hf
  rcases hf with (h | h | h | h | h | h | h | h | h | h | h | h) | ⟨o, -, h⟩
  · rw [h]; exact hq
  · rw [h]; exact hs
  · rw [h]; exact hfmt _
  · rw [h]; exact showInt_noSep _
  · rw [h]; exact showInt_noSep _
  · rw [h]; exact showInt_noSep _
  · rw [h]; exact showInt_noSep _
  · rw [h]; exact showInt_noSep _
  · rw [h]; exact showInt_noSep _
  · rw [h]; exact showInt_noSep _
  · rw [h]; exact hfmt _
  · rw [h]; exact showInt_noSep _
  · rw [← h]; exact optFieldFree_noSep hfmt a readlen strand coverage o

theorem recordFieldsFree_opt (fmt : ℚ → List Char) (g : Globals) (query subject : List Char)
    (a : Alignment) (evalue : ℚ) (readlen bitscore : Nat) (strand : Bool) (id coverage : ℚ)
    (mismatches gaps : Nat) (k : Nat) :
    (recordFieldsFree fmt g query subject a evalue readlen bitscore strand id coverage
      mismatches gaps)[12 + k]? =
      (g.user_opts[k]?).map (optFieldFree fmt a readlen strand coverage) := by
  unfold recordFieldsFree
  rw [List.getElem?_append_right (by simp)]
  simp

/-- C14. For every alignment and read length, with the option `cigar` at place `k` of the
option list: whenever the free functions `report_sam` and `report_blast` (tabular mode) both
return for the alignment, the text of each is one line of tab-separated fields (13 for SAM,
`12 + |user_opts|` for the tabular record; no field in front of the SAM field 7 and no
tabular field holds a tab or newline), and field 6 of the SAM line is the same string as
field `13 + k` of the tabular line.  And both functions return when the two names hold a
space, newline or tab, the read sequence is a newline-terminated run of codes 0..4 and the
quality scan ends. -/
theorem report_sam_cigar_field (fmt : ℚ → List Char) (g : Globals) (a : Alignment)
    (read_name ref_name : List Char) (read_seq : List Nat) (read_qual : Option (List Char × Nat))
    (readlen : Nat) (strand : Bool) (diff : Nat) (evalue : ℚ) (bitscore : Nat) (id coverage : ℚ)
    (mismatches gaps : Nat) (hfmt : ∀ v, NoSep (fmt v)) (hk : KnownOpts g.user_opts) (k : Nat)
    (hcig : g.user_opts[k]? = some "cigar".toList) :
    (∀ sam blast,
      report_sam g (some a) read_name read_seq read_qual ref_name readlen strand diff = some sam →
      report_blast g (some a) read_name ref_name evalue readlen bitscore strand id coverage
        mismatches gaps = some blast →
      ∃ fsam fblast, renderAll fmt sam = tabLine fsam ∧ renderAll fmt blast = tabLine fblast ∧
        fsam.length = 13 ∧ fblast.length = 12 + g.user_opts.length ∧
        (∀ f ∈ fsam.take 6, NoSep f) ∧ (∀ f ∈ fblast, NoSep f) ∧
        ∃ c, fsam[5]? = some c ∧ fblast[12 + k]? = some c) ∧
    ((scanName read_name).isSome → (scanName ref_name).isSome → (scanSeq read_seq).isSome →
      (qualText read_qual strand).isSome →
      (∃ sam, report_sam g (some a) read_name read_seq read_qual ref_name readlen strand diff =
        some sam) ∧
      ∃ blast, report_blast g (some a) read_name ref_name evalue readlen bitscore strand id coverage
        mismatches gaps = some blast) := by
  constructor
  · intro sam blast hsam hblast
    obtain ⟨query, subject, seq, qual, hq, hs, -, -, rsam⟩ :=
      report_sam_render fmt g a read_name read_seq read_qual ref_name readlen strand diff sam hsam
    obtain ⟨query2, subject2, hq2, hs2, rblast⟩ :=
      report_blast_render fmt g a read_name ref_name evalue readlen bitscore strand id coverage
        mismatches gaps blast hk hblast
    have nq := scanName_noSep _ _ hq
    have ns := scanName_noSep _ _ hs
    have nq2 := scanName_noSep _ _ hq2
    have ns2 := scanName_noSep _ _ hs2
    refine ⟨_, _, rsam, rblast, rfl, by simp [recordFieldsFree]; omega, ?_,
      recordFieldsFree_noSep hfmt g query2 subject2 a evalue readlen bitscore strand id coverage
        mismatches gaps nq2 ns2,
      renderAll fmt (samCigarTokens a readlen), rfl, ?_⟩
    · intro f hf
      simp only [samFields, List.take_succ_cons, List.take_zero, List.mem_cons, List.not_mem_nil,
        or_false] at hf
      rcases hf with h | h | h | h | h | h
      · rw [h]; exact nq
      · rw [h]; cases strand <;> decide
      · rw [h]; exact ns
      · rw [h]; exact showInt_noSep _
      · rw [h]; decide
      · rw [h]; exact cigarTokens_noSep fmt a readlen
    · rw [recordFieldsFree_opt, hcig, Option.map_some', optFieldFree, if_pos rfl]
      rfl
  · intro h1 h2 h3 h4
    obtain ⟨query, hq⟩ := Option.isSome_iff_exists.mp h1
    obtain ⟨subject, hs⟩ := Option.isSome_iff_exists.mp h2
    obtain ⟨seq, hseq⟩ := Option.isSome_iff_exists.mp h3
    obtain ⟨qual, hqual⟩ := Option.isSome_iff_exists.mp h4
    exact ⟨⟨_, by simp only [report_sam, hq, hs, hseq, hqual]; rfl⟩,
      ⟨_, by simp only [report_blast, hq, hs]; rfl⟩⟩

set_option maxRecDepth 8000 in
/-- Witness of C14: for the alignment of bases 1..3 of the read of length 5 both functions
write the CIGAR `1S3M1S`. -/
theorem report_sam_cigar_field_witness :
    (report_sam (sampleGlobals ["cigar".toList]) (some clippedAlignment) "read1 len=5\n".toList
        [0, 1, 2, 0, 0, 10] none "ref1 16S\n".toList 5 true 1).map (renderAll sampleFmt) =
      some "read1\t0\tref1\t2\t255\t1S3M1S\t*\t0\t0\tACGAA\t*\tAS:i:6\tNM:i:1\n".toList ∧
    (report_blast (sampleGlobals ["cigar".toList]) (some clippedAlignment) "read1 len=5\n".toList
        "ref1 16S\n".toList 0 5 12 true 1 1 0 0).map (renderAll sampleFmt) =
      some "read1\tref1\t#\t3\t0\t0\t2\t4\t2\t4\t#\t12\t1S3M1S\n".toList ∧
    (∃ sam, report_sam (sampleGlobals ["cigar".toList]) (some clippedAlignment)
      "read1 len=5\n".toList [0, 1, 2, 0, 0, 10] none "ref1 16S\n".toList 5 true 1 = some sam) ∧
    ∃ blast, report_blast (sampleGlobals ["cigar".toList]) (some clippedAlignment)
      "read1 len=5\n".toList "ref1 16S\n".toList 0 5 12 true 1 1 0 0 = some blast :=
  ⟨by rfl, by rfl,
   (report_sam_cigar_field sampleFmt (sampleGlobals ["cigar".toList]) clippedAlignment
    "read1 len=5\n".toList "ref1 16S\n".toList [0, 1, 2, 0, 0, 10] none 5 true 1 0 12 1 1 0 0
    (fun _ => (by decide : NoSep ['#'])) (by decide) 0 rfl).2 (by decide) (by decide) (by decide)
    (by decide)⟩

/-! ## Theorems: the number of blocks -/

theorem pending_pos {cigar : List Nat} {e left : Nat} (hpos : PositiveRuns cigar)
    (hcond : e < cigar.length ∨ left > 0) (hinv : 0 < left → e < cigar.length) :
    0 < (pending left (cigar.drop e)).length := by
  have he : e < cigar.length := by
    rcases hcond with h | h
    · exact h
    · exact hinv h
  have hw := hpos cigar[e] (List.getElem_mem he)
  rw [List.drop_eq_getElem_cons he]
  simp only [pending, List.length_append, List.length_replicate]
  split <;> omega

/-- The state that one pass of the block loop leaves has fewer columns left, and keeps the
invariant `left > 0 → e < cigarLen`. -/
theorem resume_advances {cigar : List Nat} {e left : Nat} (hpos : PositiveRuns cigar)
    (hcond : e < cigar.length ∨ left > 0) (hinv : 0 < left → e < cigar.length) :
    (pending (resume left (cigar.drop e) e 0).2.1 (cigar.drop (resume left (cigar.drop e) e 0).1)).length =
      (pending left (cigar.drop e)).length - 60 ∧
    (0 < (resume left (cigar.drop e) e 0).2.1 → (resume left (cigar.drop e) e 0).1 < cigar.length) ∧
    ((resume left (cigar.drop e) e 0).2.2 = true → 60 ≤ (pending left (cigar.drop e)).length) ∧
    ((resume left (cigar.drop e) e 0).2.2 = false → (pending left (cigar.drop e)).length < 60) := by
  have hp := pending_pos hpos hcond hinv
  cases hstop : (resume left (cigar.drop e) e 0).2.2 with
  | true =>
    obtain ⟨h60, k, hk1, hk2, hk3, hk4⟩ := resume_stop left (cigar.drop e) e 0 _ _ (by norm_num)
      (show resume left (cigar.drop e) e 0 = (_, _, true) by rw [← hstop])
    simp only [if_true, Nat.sub_zero] at h60 hk4
    rw [List.length_drop] at hk2 hk3
    rw [List.drop_drop] at hk4
    refine ⟨?_, fun hl => ?_, fun _ => h60, fun h => by simp at h⟩
    · rw [hk1, hk4, List.length_drop]
    · have := hk3 hl
      omega
  | false =>
    obtain ⟨hlt, h1, h2⟩ := resume_done left (cigar.drop e) e 0 _ _ (by norm_num)
      (show resume left (cigar.drop e) e 0 = (_, _, false) by rw [← hstop])
    simp only [if_true, Nat.sub_zero] at hlt
    rw [List.length_drop] at h1
    refine ⟨?_, fun hl => by rw [h2] at hl; omega, fun h => by simp at h, fun _ => hlt⟩
    have hnil : pending 0 ([] : List Nat) = [] := rfl
    rw [h1, h2, List.drop_of_length_le (by omega), hnil, List.length_nil]
    omega

theorem blockLoop_count (refseq readseq cigar : List Nat) (hpos : PositiveRuns cigar) :
    ∀ (fuel e left qb pb : Nat) (blocks : List Block), (0 < left → e < cigar.length) →
      blockLoop refseq readseq cigar fuel e left qb pb = some blocks →
      blocks.length = ((pending left (cigar.drop e)).length + 59) / 60 ∧
      (∀ b ∈ blocks, 0 < b.queryCols.length) ∧
      (blocks.map fun b => b.queryCols.length).sum = (pending left (cigar.drop e)).length := by
  intro fuel
  induction fuel with
  | zero =>
    intro e left qb pb blocks hinv h
    simp only [blockLoop] at h
    split at h
    · simp at h
    next hc =>
      simp only [Option.some.injEq] at h; subst h
      have he : cigar.length ≤ e := by omega
      rw [List.drop_of_length_le he]
      simp [pending]
  | succ fuel ih =>
    intro e left qb pb blocks hinv h
    by_cases hcond : e < cigar.length ∨ left > 0
    · obtain ⟨rt, rm, rq, rest, -, -, hq, hrest, rfl⟩ := blockLoop_succ_some hcond h
      obtain ⟨hlen, hinv1, hs1, hs2⟩ := resume_advances hpos hcond hinv
      have hp := pending_pos hpos hcond hinv
      have hql := queryLine_length _ _ _ _ hq
      rw [List.length_take] at hql
      obtain ⟨c1, c2, c3⟩ := ih _ _ _ _ rest hinv1 hrest
      rw [hlen] at c1 c3
      refine ⟨?_, ?_, ?_⟩
      · rw [List.length_cons, c1]
        cases hstop : (resume left (cigar.drop e) e 0).2.2 with
        | true => have := hs1 hstop; omega
        | false => have := hs2 hstop; omega
      · intro b hb
        rcases List.mem_cons.mp hb with rfl | hb
        · show 0 < rq.1.length
          omega
        · exact c2 b hb
      · rw [List.map_cons, List.sum_cons, c3]
        show rq.1.length + _ = _
        omega
    · rw [blockLoop_stop _ _ _ _ _ _ _ _ hcond] at h
      simp only [Option.some.injEq] at h; subst h
      have he : cigar.length ≤ e := by omega
      rw [List.drop_of_length_le he]
      simp [pending]

/-- C19. For every non-empty CIGAR with positive run lengths and total run length `N`:
whenever the block loop of the pairwise renderer returns, it has written exactly
`ceil(N / 60)` blocks, every block carries at least one column (there is no empty trailing
block, in particular when `N` is a multiple of 60) and the blocks carry `N` columns in
all; every pass of the loop from a state `(e, left)` with columns left leaves a state with
strictly fewer columns left; for an alignment whose cursor positions are all in range the
loop does return; and the result of the loop is the same for every bound on the number of
passes above `N`, so the loop never stops for want of passes. -/
theorem pairwiseBlocks_block_count (refseq readseq cigar : List Nat) (ref_begin1 read_begin1 : Int)
    (hne : cigar ≠ []) (hpos : PositiveRuns cigar) :
    (∀ blocks, pairwiseBlocks refseq readseq cigar ref_begin1 read_begin1 = some blocks →
      blocks.length = (totalCols cigar + 59) / 60 ∧
      (∀ b ∈ blocks, 0 < b.queryCols.length) ∧
      (blocks.map fun b => b.queryCols.length).sum = totalCols cigar) ∧
    (∀ e left, (0 < left → e < cigar.length) → (e < cigar.length ∨ left > 0) →
      (pending (resume left (cigar.drop e) e 0).2.1
          (cigar.drop (resume left (cigar.drop e) e 0).1)).length <
        (pending left (cigar.drop e)).length) ∧
    (InRange refseq readseq cigar ref_begin1 read_begin1 →
      ∃ blocks, pairwiseBlocks refseq readseq cigar ref_begin1 read_begin1 = some blocks) ∧
    (∀ fuel, totalCols cigar < fuel →
      blockLoop refseq readseq cigar fuel 0 0 (ofSigned ref_begin1) (ofSigned read_begin1) =
        pairwiseBlocks refseq readseq cigar ref_begin1 read_begin1) := by
  have hc : cigar.length > 0 := List.length_pos.mpr hne
  have hR : pending 0 (cigar.drop 0) = expand cigar := by rw [List.drop_zero, pending_zero]
  refine ⟨?_, ?_, ?_, ?_⟩
  · intro blocks h
    unfold pairwiseBlocks at h
    rw [if_pos hc] at h
    have := blockLoop_count refseq readseq cigar hpos _ 0 0 _ _ blocks (by omega) h
    rw [hR, length_expand] at this
    exact this
  · intro e left hinv hcond
    obtain ⟨hlen, -, -, -⟩ := resume_advances hpos hcond hinv
    have hp := pending_pos hpos hcond hinv
    omega
  · intro h
    obtain ⟨hq0, hp0, hq1, hq2, hp1, hp2, hr, hs⟩ := h
    have eq := ofSigned_of_nonneg hq0 (by omega)
    have ep := ofSigned_of_nonneg hp0 (by omega)
    obtain ⟨hs1, hs2⟩ : refCount (expand cigar) = refSpan cigar ∧
        readCount (expand cigar) = readSpan cigar := ⟨refCount_expand cigar, readCount_expand cigar⟩
    unfold pairwiseBlocks
    rw [if_pos hc]
    obtain ⟨blocks, hb, -, -⟩ := blockLoop_total hr hs cigar (totalCols cigar + 1) 0 0
      (ofSigned ref_begin1) (ofSigned read_begin1)
      (by rw [hR, length_expand]; omega) (by rw [hR, refCount_expand]; omega)
      (by rw [hR, refCount_expand]; omega) (by rw [hR, readCount_expand]; omega)
      (by rw [hR, readCount_expand]; omega)
    exact ⟨blocks, hb⟩
  · intro fuel hfuel
    unfold pairwiseBlocks
    rw [if_pos hc]
    exact blockLoop_fuel refseq readseq cigar fuel (totalCols cigar + 1) 0 0 _ _
      (by rw [hR, length_expand]; exact hfuel) (by rw [hR, length_expand]; omega)

set_option maxRecDepth 8000 in
/-- Witness of C19: a CIGAR of 60 Match, 30 Insertion and 30 Match columns (`N = 120`) gives
exactly two blocks of 60 columns and no empty third block. -/
theorem pairwiseBlocks_block_count_witness :
    ([960, 481, 480] : List Nat) ≠ [] ∧ PositiveRuns [960, 481, 480] ∧
    InRange (List.replicate 90 2) (List.replicate 120 2) [960, 481, 480] 0 0 ∧
    totalCols [960, 481, 480] = 120 ∧
    (pairwiseBlocks (List.replicate 90 2) (List.replicate 120 2) [960, 481, 480] 0 0).map
      (fun bs => bs.map fun b => b.queryCols.length) = some [60, 60] ∧
    ∃ blocks, pairwiseBlocks (List.replicate 90 2) (List.replicate 120 2) [960, 481, 480] 0 0 =
      some blocks :=
  ⟨by decide, by decide, by decide, by decide, by decide,
    (pairwiseBlocks_block_count (List.replicate 90 2) (List.replicate 120 2) [960, 481, 480] 0 0
      (by decide) (by decide)).2.2.1 (by decide)⟩

/-! ## Theorems: the layout of a block -/

theorem toDigitsCore_length_le : ∀ (fuel n k : Nat) (ds : List Char), n < 10 ^ (k + 1) →
    (Nat.toDigitsCore 10 fuel n ds).length ≤ ds.length + (k + 1) := by
  intro fuel
  induction fuel with
  | zero => intro n k ds _; simp [Nat.toDigitsCore]
  | succ fuel ih =>
    intro n k ds hn
    simp only [Nat.toDigitsCore]
    split
    · simp only [List.length_cons]; omega
    next hne =>
      cases k with
      | zero =>
        exfalso
        apply hne
        simp only [Nat.zero_add, Nat.pow_one] at hn
        omega
      | succ k =>
        have hdiv : n / 10 < 10 ^ (k + 1) := by
          rw [Nat.div_lt_iff_lt_mul (by norm_num)]
          rw [Nat.pow_succ] at hn
          exact hn
        have := ih (n / 10) k (Nat.digitChar (n % 10) :: ds) hdiv
        simp only [List.length_cons] at this
        omega

theorem showInt_length_le (v : Int) (k : Nat) (h0 : 0 ≤ v) (h1 : v < 10 ^ (k + 1)) :
    (showInt v).length ≤ k + 1 := by
  unfold showInt
  rw [if_neg (by omega)]
  have hn : v.natAbs < 10 ^ (k + 1) := by
    have : ((v.natAbs : Nat) : Int) < ((10 ^ (k + 1) : Nat) : Int) := by
      rw [Int.natAbs_of_nonneg h0]; push_cast; exact h1
    exact Int.ofNat_lt.mp this
  have := toDigitsCore_length_le (v.natAbs + 1) v.natAbs k [] hn
  simpa [Nat.toDigits] using this

theorem padLeft_length (w : Nat) (s : List Char) (h : s.length ≤ w) : (padLeft w s).length = w := by
  simp only [padLeft, List.length_append, List.length_replicate]
  omega

theorem renderAll_chars (fmt : ℚ → List Char) : ∀ cs : List Char,
    renderAll fmt (cs.map fun c => Tok.text 0 [c]) = cs
  | [] => rfl
  | c :: cs => by
    rw [List.map_cons, renderAll_cons, render_text_zero, renderAll_chars fmt cs]
    rfl

/-- The text of one block: three lines and an empty line. -/
theorem blockTokens_render (fmt : ℚ → List Char) (b : Block) :
    renderAll fmt (blockTokens b) =
      ("Target: ".toList ++ padLeft 8 (showInt b.targetStart) ++ "    ".toList ++ b.targetCols ++
        "    ".toList ++ showInt b.targetEnd) ++ ['\n'] ++
      (List.replicate 20 ' ' ++ b.matchCols) ++ ['\n'] ++
      ("Query: ".toList ++ padLeft 9 (showInt b.queryStart) ++ "    ".toList ++ b.queryCols ++
        "    ".toList ++ showInt b.queryEnd) ++ "\n\n".toList := by
  have h20 : (Tok.text 20 [' ']).render fmt = List.replicate 20 ' ' := by
    simp only [Tok.render, padLeft]; decide
  unfold blockTokens
  simp only [renderAll_append, renderAll_cons, renderAll_nil, render_text_zero, render_int_zero,
    renderAll_chars, h20, List.append_nil]
  simp only [Tok.render, List.append_assoc]
  rfl

/-- C18. The text of every block of the pairwise rendering is: the Target line, made of
`Target: `, the coordinate `refCursor + 1` right-justified in 8 characters, 4 spaces, the
Target columns, 4 spaces and the end coordinate; the match line, made of 20 spaces and the
match columns; the Query line, made of `Query: `, the coordinate `readCursor + 1`
right-justified in 9 characters, 4 spaces, the Query columns, 4 spaces and the end
coordinate; and an empty line.  The 20 spaces of the match line have length 20, and for
coordinates `0 ≤ refCursor + 1 < 10^8` and `0 ≤ readCursor + 1 < 10^9` the texts in front of
the Target columns and in front of the Query columns have length 20 too, so the columns of
the three lines start at offset 20 of their line. -/
theorem blockTokens_layout (fmt : ℚ → List Char) (b : Block) :
    renderAll fmt (blockTokens b) =
      ("Target: ".toList ++ padLeft 8 (showInt b.targetStart) ++ "    ".toList ++ b.targetCols ++
        "    ".toList ++ showInt b.targetEnd) ++ ['\n'] ++
      (List.replicate 20 ' ' ++ b.matchCols) ++ ['\n'] ++
      ("Query: ".toList ++ padLeft 9 (showInt b.queryStart) ++ "    ".toList ++ b.queryCols ++
        "    ".toList ++ showInt b.queryEnd) ++ "\n\n".toList ∧
    (List.replicate 20 ' ').length = 20 ∧
    (0 ≤ b.targetStart → b.targetStart < 10 ^ 8 →
      (padLeft 8 (showInt b.targetStart)).length = 8 ∧
      ("Target: ".toList ++ padLeft 8 (showInt b.targetStart) ++ "    ".toList).length = 20) ∧
    (0 ≤ b.queryStart → b.queryStart < 10 ^ 9 →
      (padLeft 9 (showInt b.queryStart)).length = 9 ∧
      ("Query: ".toList ++ padLeft 9 (showInt b.queryStart) ++ "    ".toList).length = 20) := by
  refine ⟨blockTokens_render fmt b, List.length_replicate _ _, fun h0 h1 => ?_, fun h0 h1 => ?_⟩
  · have := padLeft_length 8 _ (showInt_length_le b.targetStart 7 h0 h1)
    refine ⟨this, ?_⟩
    rw [List.length_append, List.length_append, this]
    rfl
  · have := padLeft_length 9 _ (showInt_length_le b.queryStart 8 h0 h1)
    refine ⟨this, ?_⟩
    rw [List.length_append, List.length_append, this]
    rfl

/-- Witness of C18: the block of the first scenario of the specification (CIGAR
`[(Match,5)]`, reference `ACGTA`, read `ACGAA`), with both start coordinates 1. -/
theorem blockTokens_layout_witness :
    pairwiseBlocks sampleReference.sequence (sampleRead []).sequence sampleAlignment.cigar 0 0 =
      some [⟨1, "ACGTA".toList, 5, "|||*|".toList, 1, "ACGAA".toList, 5⟩] ∧
    renderAll sampleFmt (blockTokens ⟨1, "ACGTA".toList, 5, "|||*|".toList, 1, "ACGAA".toList, 5⟩) =
      ("Target:        1    ACGTA    5\n" ++ "                    |||*|\n" ++
        "Query:         1    ACGAA    5\n\n").toList ∧
    ((padLeft 8 (showInt 1)).length = 8 ∧
      ("Target: ".toList ++ padLeft 8 (showInt 1) ++ "    ".toList).length = 20) ∧
    ((padLeft 9 (showInt 1)).length = 9 ∧
      ("Query: ".toList ++ padLeft 9 (showInt 1) ++ "    ".toList).length = 20) :=
  ⟨by decide, by decide,
   (blockTokens_layout sampleFmt ⟨1, "ACGTA".toList, 5, "|||*|".toList, 1, "ACGAA".toList, 5⟩).2.2.1
     (by decide) (by decide),
   (blockTokens_layout sampleFmt ⟨1, "ACGTA".toList, 5, "|||*|".toList, 1, "ACGAA".toList, 5⟩).2.2.2
     (by decide) (by decide)⟩

/-! ## Theorems: words with a tag outside Match, Insertion, Deletion -/

theorem retag_eq_zero {t x : Nat} (ht : 3 ≤ t) : retag t x = 0 ↔ x = 0 := by
  unfold retag; split <;> omega

theorem retag_eq_one {t x : Nat} (ht : 3 ≤ t) : retag t x = 1 ↔ x = 1 := by
  unfold retag; split <;> omega

theorem calcLoop_retagged {refseq readseq : List Nat} {t : Nat} (ht : 3 ≤ t) {cigar cigar2 : List Nat}
    (h : Retagged t cigar cigar2) :
    ∀ (qb pb : Nat) (m : Metrics),
      calcLoop refseq readseq cigar2 qb pb m = calcLoop refseq readseq cigar qb pb m := by
  unfold Retagged at h
  induction h with
  | nil => intro qb pb m; rfl
  | @cons w w2 ws ws2 hw _ ih =>
    intro qb pb m
    obtain ⟨hl, htag⟩ := hw
    have h0 : letter w2 = 0 ↔ letter w = 0 := by rw [htag]; exact retag_eq_zero ht
    have h1 : letter w2 = 1 ↔ letter w = 1 := by rw [htag]; exact retag_eq_one ht
    simp only [calcLoop, hl, h0, h1, ih]

theorem cigarWords_retagged {t : Nat} (ht : 3 ≤ t) {cigar cigar2 : List Nat}
    (h : Retagged t cigar cigar2) :
    cigar2.flatMap (fun w =>
      [Tok.int 0 (length w),
       Tok.text 0 [if letter w = 0 then 'M' else if letter w = 1 then 'I' else 'D']]) =
    cigar.flatMap (fun w =>
      [Tok.int 0 (length w),
       Tok.text 0 [if letter w = 0 then 'M' else if letter w = 1 then 'I' else 'D']]) := by
  unfold Retagged at h
  induction h with
  | nil => rfl
  | @cons w w2 ws ws2 hw _ ih =>
    obtain ⟨hl, htag⟩ := hw
    have h0 : letter w2 = 0 ↔ letter w = 0 := by rw [htag]; exact retag_eq_zero ht
    have h1 : letter w2 = 1 ↔ letter w = 1 := by rw [htag]; exact retag_eq_one ht
    simp only [List.flatMap_cons, hl, h0, h1, ih]

theorem expand_retagged {t : Nat} {cigar cigar2 : List Nat} (h : Retagged t cigar cigar2) :
    expand cigar2 = (expand cigar).map (retag t) := by
  unfold Retagged at h
  induction h with
  | nil => rfl
  | cons hw _ ih =>
    obtain ⟨hl, htag⟩ := hw
    simp only [expand, hl, htag, ih, List.map_append, List.map_replicate]

theorem pending_retagged {t : Nat} {cigar cigar2 : List Nat} (h : Retagged t cigar cigar2)
    (left : Nat) : pending left cigar2 = (pending left cigar).map (retag t) := by
  unfold Retagged at h
  cases h with
  | nil => rfl
  | cons hw hrest =>
    obtain ⟨hl, htag⟩ := hw
    simp only [pending, hl, htag, expand_retagged hrest, List.map_append, List.map_replicate]

theorem resume_retagged {t : Nat} {cigar cigar2 : List Nat} (h : Retagged t cigar cigar2)
    (left : Nat) : ∀ (c count : Nat), resume left cigar2 c count = resume left cigar c count := by
  unfold Retagged at h
  induction h with
  | nil => intro c count; rfl
  | cons hw _ ih =>
    intro c count
    obtain ⟨hl, -⟩ := hw
    simp only [resume, hl, ih]

theorem retagged_length {t : Nat} {cigar cigar2 : List Nat} (h : Retagged t cigar cigar2) :
    cigar2.length = cigar.length := (List.Forall₂.length_eq h).symm

theorem retagged_drop {t : Nat} {cigar cigar2 : List Nat} (h : Retagged t cigar cigar2) (e : Nat) :
    Retagged t (cigar.drop e) (cigar2.drop e) := by
  unfold Retagged at h ⊢
  exact List.forall₂_drop e h

theorem targetLine_retag (refseq : List Nat) {t : Nat} (ht : 3 ≤ t) :
    ∀ (cols : List Nat) (q : Nat),
      targetLine refseq (cols.map (retag t)) q = targetLine refseq cols q := by
  intro cols
  induction cols with
  | nil => intro q; rfl
  | cons x xs ih =>
    intro q
    simp only [List.map_cons, targetLine, retag_eq_one ht, ih]

theorem matchLine_retag (refseq readseq : List Nat) {t : Nat} (ht : 3 ≤ t) :
    ∀ (cols : List Nat) (q p p2 : Nat) (r r2 : List Char × Nat × Nat),
      matchLine refseq readseq cols q p = some r →
      matchLine refseq readseq (cols.map (retag t)) q p2 = some r2 → r2.2.1 = r.2.1 := by
  intro cols
  induction cols with
  | nil =>
    intro q p p2 r r2 h h2
    simp only [List.map_nil, matchLine, Option.some.injEq] at h h2
    subst h; subst h2; rfl
  | cons x xs ih =>
    intro q p p2 r r2 h h2
    simp only [List.map_cons, matchLine, retag_eq_zero ht, retag_eq_one ht] at h h2
    by_cases h0 : x = 0
    · rw [if_pos h0] at h h2
      cases hb : baseChar refseq q with
      | none => rw [hb] at h; simp at h
      | some a =>
        rw [hb] at h h2
        cases hp : baseChar readseq p with
        | none => rw [hp] at h; simp at h
        | some b =>
          cases hp2 : baseChar readseq p2 with
          | none => rw [hp2] at h2; simp at h2
          | some b2 =>
            rw [hp] at h
            rw [hp2] at h2
            simp only [Option.map_eq_some'] at h h2
            obtain ⟨y, hy, rfl⟩ := h
            obtain ⟨y2, hy2, rfl⟩ := h2
            exact ih _ _ _ y y2 hy hy2
    · rw [if_neg h0] at h h2
      simp only [Option.map_eq_some'] at h h2
      obtain ⟨y, hy, rfl⟩ := h
      obtain ⟨y2, hy2, rfl⟩ := h2
      exact ih _ _ _ y y2 hy hy2
/-- The block loop on a CIGAR and on the CIGAR with the words tagged `t ≥ 3` replaced by
Deletion words writes, whenever both return, the same Target lines with the same
coordinates and blocks of the same width (whatever the two read cursors are). -/
theorem blockLoop_retagged (refseq readseq : List Nat) {t : Nat} (ht : 3 ≤ t)
    {cigar cigar2 : List Nat} (h : Retagged t cigar cigar2) :
    ∀ (fuel e left qb pb pb2 : Nat) (blocks blocks2 : List Block),
      blockLoop refseq readseq cigar fuel e left qb pb = some blocks →
      blockLoop refseq readseq cigar2 fuel e left qb pb2 = some blocks2 →
      blocks2.map Block.target = blocks.map Block.target ∧
      (blocks2.map fun b => b.queryCols.length) = blocks.map fun b => b.queryCols.length := by
  have hlen := retagged_length h
  intro fuel
  induction fuel with
  | zero =>
    intro e left qb pb pb2 blocks blocks2 h1 h2
    simp only [blockLoop, hlen] at h1 h2
    split at h1
    · simp at h1
    next hc =>
      rw [if_neg hc] at h2
      simp only [Option.some.injEq] at h1 h2
      subst h1; subst h2; exact ⟨rfl, rfl⟩
  | succ fuel ih =>
    intro e left qb pb pb2 blocks blocks2 h1 h2
    by_cases hcond : e < cigar.length ∨ left > 0
    · have hcond2 : e < cigar2.length ∨ left > 0 := by rw [hlen]; exact hcond
      obtain ⟨rt, rm, rq, rest, ht1, hm1, hq1, hrest, rfl⟩ := blockLoop_succ_some hcond h1
      obtain ⟨rt2, rm2, rq2, rest2, ht2, hm2, hq2, hrest2, rfl⟩ := blockLoop_succ_some hcond2 h2
      have hd := retagged_drop h e
      rw [pending_retagged hd, ← List.map_take] at ht2 hm2 hq2
      rw [resume_retagged hd] at hrest2
      rw [targetLine_retag refseq ht, ht1, Option.some.injEq] at ht2
      have hq := matchLine_retag refseq readseq ht _ _ _ _ _ _ hm1 hm2
      have hl1 := queryLine_length _ _ _ _ hq1
      have hl2 := queryLine_length _ _ _ _ hq2
      rw [List.length_map] at hl2
      rw [hq] at hrest2
      obtain ⟨i1, i2⟩ := ih _ _ _ _ _ rest rest2 hrest hrest2
      refine ⟨?_, ?_⟩
      · simp only [List.map_cons, Block.target, ← ht2]
        rw [show rest2.map Block.target = rest.map Block.target from i1]
      · simp only [List.map_cons, i2, hl1, hl2]
    · have hcond2 : ¬ (e < cigar2.length ∨ left > 0) := by rw [hlen]; exact hcond
      rw [blockLoop_stop _ _ _ _ _ _ _ _ hcond] at h1
      rw [blockLoop_stop _ _ _ _ _ _ _ _ hcond2] at h2
      simp only [Option.some.injEq] at h1 h2
      subst h1; subst h2; exact ⟨rfl, rfl⟩

theorem totalCols_retagged {t : Nat} {cigar cigar2 : List Nat} (h : Retagged t cigar cigar2) :
    totalCols cigar2 = totalCols cigar := by
  rw [← length_expand, ← length_expand, expand_retagged h, List.length_map]

/-- The pairwise renderer returns for every CIGAR, whatever its tags, when all cursor
positions are in range. -/
theorem pairwiseBlocks_isSome {refseq readseq cigar : List Nat} {ref_begin1 read_begin1 : Int}
    (h : InRange refseq readseq cigar ref_begin1 read_begin1) :
    ∃ blocks, pairwiseBlocks refseq readseq cigar ref_begin1 read_begin1 = some blocks := by
  obtain ⟨hq0, hp0, hq1, hq2, hp1, hp2, hr, hs⟩ := h
  have eq := ofSigned_of_nonneg hq0 (by omega)
  have ep := ofSigned_of_nonneg hp0 (by omega)
  have hR : pending 0 (cigar.drop 0) = expand cigar := by rw [List.drop_zero, pending_zero]
  unfold pairwiseBlocks
  by_cases hc : cigar.length > 0
  · rw [if_pos hc]
    obtain ⟨blocks, hb, -, -⟩ := blockLoop_total hr hs cigar (totalCols cigar + 1) 0 0
      (ofSigned ref_begin1) (ofSigned read_begin1)
      (by rw [hR, length_expand]; omega) (by rw [hR, refCount_expand]; omega)
      (by rw [hR, refCount_expand]; omega) (by rw [hR, readCount_expand]; omega)
      (by rw [hR, readCount_expand]; omega)
    exact ⟨blocks, hb⟩
  · rw [if_neg hc]
    exact ⟨[], rfl⟩

theorem spans_retagged {t : Nat} (ht : 3 ≤ t) {cigar cigar2 : List Nat}
    (h : Retagged t cigar cigar2) :
    refSpan cigar2 = refSpan cigar ∧ readSpan cigar2 ≤ readSpan cigar := by
  unfold Retagged at h
  induction h with
  | nil => exact ⟨rfl, Nat.le_refl _⟩
  | @cons w w2 ws ws2 hw _ ih =>
    obtain ⟨hl, htag⟩ := hw
    obtain ⟨i1, i2⟩ := ih
    simp only [refSpan, readSpan] at i1 i2 ⊢
    simp only [runTotal, htag, hl, i1]
    by_cases hwt : letter w = t
    · have hr : retag t (letter w) = 2 := by unfold retag; rw [if_pos hwt]
      have h1 : (letter w != 1) = true := by simp only [bne_iff_ne, ne_eq]; omega
      have h2 : (letter w != 2) = true := by simp only [bne_iff_ne, ne_eq]; omega
      have h3 : ((2 : Nat) != 1) = true := by decide
      have h4 : ((2 : Nat) != 2) = false := by decide
      simp only [hr, h1, h2, h3, h4, if_true, Bool.false_eq_true, if_false, true_and]
      omega
    · simp only [retag, if_neg hwt]
      exact ⟨trivial, by omega⟩

/-- C16, counterexample.  The word 35 has tag 3 and run length 2.  For the CIGAR `[35]` on
the reference `ACGTA` and the read `ACGAA` no consumer fails: `calcMismatchGapId` returns
with `gaps = 2`, the cigar-string builder writes `2D`, and the pairwise renderer writes one
block with the reference bases `AC` on the Target line, two spaces on the match line and the
read bases `AC` on the Query line. -/
theorem unknown_tag_no_decode_error :
    letter 35 = 3 ∧ length 35 = 2 ∧
    calcMismatchGapId sampleReference.sequence (sampleRead []).sequence [35] 0 0 ⟨0, 0, 0⟩ =
      some ⟨0, 2, 0⟩ ∧
    renderAll sampleFmt (cigarTokens { sampleAlignment with cigar := [35] } 5) = "2D".toList ∧
    pairwiseBlocks sampleReference.sequence (sampleRead []).sequence [35] 0 0 =
      some [⟨1, "AC".toList, 2, "  ".toList, 1, "AC".toList, 2⟩] := by
  decide

/-- C16 (amended).  No consumer has a decode error.  For every CIGAR, whatever the tags of
its words, with all cursor positions in range `calcMismatchGapId` and the pairwise renderer
return a result (the cigar-string builder always does).  `calcMismatchGapId` processes a
word whose tag is neither 0 nor 1 as a Deletion: the reference cursor and `gaps` advance by
the run length; and the cigar-string builder writes the run length of such a word followed
by `D`. -/
theorem unknown_tag_processed (refseq readseq cigar : List Nat) (ref_begin1 read_begin1 : Int) :
    (InRange refseq readseq cigar ref_begin1 read_begin1 →
      (∀ m, ∃ m1, calcMismatchGapId refseq readseq cigar ref_begin1 read_begin1 m = some m1) ∧
      ∃ blocks, pairwiseBlocks refseq readseq cigar ref_begin1 read_begin1 = some blocks) ∧
    (∀ (w : Nat) (ws : List Nat) (qb pb : Nat) (m : Metrics), letter w ≠ 0 → letter w ≠ 1 →
      calcLoop refseq readseq (w :: ws) qb pb m =
        calcLoop refseq readseq ws (u32 (qb + length w)) pb
          { m with gaps := u32 (m.gaps + length w) }) ∧
    (∀ (a : Alignment) (seqlen w : Nat), w ∈ a.cigar → letter w ≠ 0 → letter w ≠ 1 →
      [Tok.int 0 (length w), Tok.text 0 ['D']] <:+: cigarTokens a seqlen) := by
  refine ⟨fun h => ⟨fun m => calcMismatchGapId_isSome h m, pairwiseBlocks_isSome h⟩, ?_, ?_⟩
  · intro w ws qb pb m h0 h1
    simp only [calcLoop, if_neg h0, if_neg h1]
  · intro a seqlen w hw h0 h1
    obtain ⟨l1, l2, hsplit⟩ := List.append_of_mem hw
    unfold cigarTokens
    rw [hsplit, List.flatMap_append, List.flatMap_cons, if_neg h0, if_neg h1]
    exact ⟨(if a.read_begin1 ≠ 0 then [Tok.int 0 a.read_begin1, Tok.text 0 ['S']] else []) ++
        l1.flatMap (fun w => [Tok.int 0 (length w),
          Tok.text 0 [if letter w = 0 then 'M' else if letter w = 1 then 'I' else 'D']]),
      l2.flatMap (fun w => [Tok.int 0 (length w),
          Tok.text 0 [if letter w = 0 then 'M' else if letter w = 1 then 'I' else 'D']]) ++
        (if ofSigned ((seqlen : Int) - a.read_end1 - 1) > 0
          then [Tok.int 0 (ofSigned ((seqlen : Int) - a.read_end1 - 1)), Tok.text 0 ['S']] else []),
      by simp only [List.append_assoc]⟩

/-- Witness of C16: the CIGAR `[35]` (tag 3, run length 2) on the reference `ACGTA` and the
read `ACGAA` is in range, and both consumers return. -/
theorem unknown_tag_processed_witness :
    InRange sampleReference.sequence (sampleRead []).sequence [35] 0 0 ∧
    ((∀ m, ∃ m1, calcMismatchGapId sampleReference.sequence (sampleRead []).sequence [35] 0 0 m =
      some m1) ∧
    ∃ blocks, pairwiseBlocks sampleReference.sequence (sampleRead []).sequence [35] 0 0 =
      some blocks) :=
  ⟨by decide,
    (unknown_tag_processed sampleReference.sequence (sampleRead []).sequence [35] 0 0).1 (by decide)⟩

set_option maxRecDepth 8000 in
/-- C17, counterexample.  The CIGAR `[(tag 3, 60), (Match, 5)]` and the CIGAR
`[(Deletion, 60), (Match, 5)]` that replaces its word tagged 3, on a reference of 65 bases
`A` and a read of 60 bases `C` and 5 bases `A`: with the tag 3 the Query line of the first
block carries 60 read bases and ends at coordinate 60, and the second block compares the
reference with the read from position 60 (`|||||`); with the Deletion the Query line of the
first block carries 60 dashes and ends at coordinate 0, and the second block compares the
reference with the read from position 0 (`*****`). -/
theorem retag_changes_query_and_match_lines :
    Retagged 3 [963, 80] [962, 80] ∧
    (pairwiseBlocks (List.replicate 65 0) longRead [963, 80] 0 0).map
        (fun bs => bs.map fun b => (b.matchCols, b.query)) =
      some [(List.replicate 60 ' ', 1, List.replicate 60 'C', 60),
            ("|||||".toList, 61, "AAAAA".toList, 65)] ∧
    (pairwiseBlocks (List.replicate 65 0) longRead [962, 80] 0 0).map
        (fun bs => bs.map fun b => (b.matchCols, b.query)) =
      some [(List.replicate 60 ' ', 1, List.replicate 60 '-', 0),
            ("*****".toList, 1, "CCCCC".toList, 5)] :=
  ⟨List.Forall₂.cons ⟨by decide, by decide⟩ (List.Forall₂.cons ⟨by decide, by decide⟩ List.Forall₂.nil),
    by decide, by decide⟩

/-- C17 (amended).  For every CIGAR and every tag `t ≥ 3`, replacing each word tagged `t` by a
Deletion word of the same run length changes nothing in the result of `calcMismatchGapId`
(same metrics, or undefined in both cases) and nothing in the tokens of the cigar string;
and whenever the pairwise renderer returns for both CIGARs, it writes the same number of
blocks with the same Target lines, the same Target coordinates and the same number of
columns.  When all cursor positions of the original CIGAR are in range, the renderer does
return for both. -/
theorem retag_deletion_same (refseq readseq cigar cigar2 : List Nat) (t : Nat) (ht : 3 ≤ t)
    (h : Retagged t cigar cigar2) (ref_begin1 read_begin1 : Int) :
    (∀ m, calcMismatchGapId refseq readseq cigar2 ref_begin1 read_begin1 m =
      calcMismatchGapId refseq readseq cigar ref_begin1 read_begin1 m) ∧
    (∀ (a : Alignment) (seqlen : Nat), a.cigar = cigar →
      cigarTokens { a with cigar := cigar2 } seqlen = cigarTokens a seqlen) ∧
    (∀ blocks blocks2, pairwiseBlocks refseq readseq cigar ref_begin1 read_begin1 = some blocks →
      pairwiseBlocks refseq readseq cigar2 ref_begin1 read_begin1 = some blocks2 →
      blocks2.map Block.target = blocks.map Block.target ∧
      (blocks2.map fun b => b.queryCols.length) = blocks.map fun b => b.queryCols.length) ∧
    (InRange refseq readseq cigar ref_begin1 read_begin1 →
      (∃ blocks, pairwiseBlocks refseq readseq cigar ref_begin1 read_begin1 = some blocks) ∧
      ∃ blocks2, pairwiseBlocks refseq readseq cigar2 ref_begin1 read_begin1 = some blocks2) := by
  refine ⟨fun m => calcLoop_retagged ht h _ _ m, ?_, ?_, ?_⟩
  · intro a seqlen ha
    subst ha
    simp only [cigarTokens, cigarWords_retagged ht h]
  · intro blocks blocks2 h1 h2
    have hlen := retagged_length h
    unfold pairwiseBlocks at h1 h2
    rw [hlen, totalCols_retagged h] at h2
    by_cases hc : cigar.length > 0
    · rw [if_pos hc] at h1 h2
      exact blockLoop_retagged refseq readseq ht h _ _ _ _ _ _ blocks blocks2 h1 h2
    · rw [if_neg hc] at h1 h2
      simp only [Option.some.injEq] at h1 h2
      subst h1; subst h2; exact ⟨rfl, rfl⟩
  · intro hin
    refine ⟨pairwiseBlocks_isSome hin, pairwiseBlocks_isSome ?_⟩
    obtain ⟨hq0, hp0, hq1, hq2, hp1, hp2, hr, hs⟩ := hin
    obtain ⟨s1, s2⟩ := spans_retagged ht h
    exact ⟨hq0, hp0, by rw [s1]; exact hq1, by rw [s1]; exact hq2, by omega, by omega, hr, hs⟩

set_option maxRecDepth 8000 in
/-- Witness of C17: the CIGAR `[(tag 3, 60), (Match, 5)]` and its replacement
`[(Deletion, 60), (Match, 5)]` give the same two Target lines. -/
theorem retag_deletion_same_witness :
    (3 : Nat) ≤ 3 ∧ Retagged 3 [963, 80] [962, 80] ∧
    InRange (List.replicate 65 0) longRead [963, 80] 0 0 ∧
    (pairwiseBlocks (List.replicate 65 0) longRead [963, 80] 0 0).map (fun bs => bs.map Block.target) =
      some [(1, List.replicate 60 'A', 60), (61, "AAAAA".toList, 65)] ∧
    (pairwiseBlocks (List.replicate 65 0) longRead [962, 80] 0 0).map (fun bs => bs.map Block.target) =
      some [(1, List.replicate 60 'A', 60), (61, "AAAAA".toList, 65)] ∧
    ((∃ blocks, pairwiseBlocks (List.replicate 65 0) longRead [963, 80] 0 0 = some blocks) ∧
      ∃ blocks2, pairwiseBlocks (List.replicate 65 0) longRead [962, 80] 0 0 = some blocks2) :=
  ⟨by decide,
   List.Forall₂.cons ⟨by decide, by decide⟩ (List.Forall₂.cons ⟨by decide, by decide⟩ List.Forall₂.nil),
   by decide, by decide, by decide,
   (retag_deletion_same (List.replicate 65 0) longRead [963, 80] [962, 80] 3 (by decide)
    (List.Forall₂.cons ⟨by decide, by decide⟩ (List.Forall₂.cons ⟨by decide, by decide⟩ List.Forall₂.nil))
    0 0).2.2.2 (by decide)⟩

/-! ## Theorems: the decoder of packed words -/

theorem letter_eq_mod (w : Nat) : letter w = w % 16 := by
  unfold letter
  rw [Nat.and_comm]
  exact Nat.and_pow_two_sub_one_eq_mod w 4

theorem length_eq_div_mod (w : Nat) : length w = (w / 16) % 2 ^ 28 := by
  unfold length
  have h0 : (0xfffffff0 : Nat) = (2 ^ 28 - 1) <<< 4 := by decide
  have h1 : (w / 16) % 2 ^ 28 = (w >>> 4) &&& (2 ^ 28 - 1) := by
    rw [Nat.and_pow_two_sub_one_eq_mod, Nat.shiftRight_eq_div_pow]
  rw [h1, h0]
  apply Nat.eq_of_testBit_eq
  intro i
  simp only [Nat.testBit_shiftRight, Nat.testBit_and, Nat.testBit_shiftLeft,
    Nat.testBit_two_pow_sub_one]
  have : 4 + i - 4 = i := by omega
  rw [this]
  cases Nat.testBit w (4 + i) <;> simp

/-- C21. For every 32-bit word `w` the decoder `0xf & w`, `(0xfffffff0 & w) >> 4` (the same
expressions in every consumer) yields the tag `w mod 16` and the run length `w div 16`, which
is below `2^28`; and for every tag `t < 16` and every run length `n < 2^28` the word
`n * 16 + t` is a 32-bit word that decodes to exactly `(t, n)`. -/
theorem decoder_mod_div :
    (∀ w : Nat, w < 2 ^ 32 → letter w = w % 16 ∧ length w = w / 16 ∧ length w < 2 ^ 28) ∧
    (∀ t n : Nat, t < 16 → n < 2 ^ 28 →
      n * 16 + t < 2 ^ 32 ∧ letter (n * 16 + t) = t ∧ length (n * 16 + t) = n) := by
  constructor
  · intro w hw
    have hd : w / 16 < 2 ^ 28 := by omega
    refine ⟨letter_eq_mod w, ?_, ?_⟩
    · rw [length_eq_div_mod, Nat.mod_eq_of_lt hd]
    · rw [length_eq_div_mod, Nat.mod_eq_of_lt hd]; exact hd
  · intro t n ht hn
    refine ⟨by omega, ?_, ?_⟩
    · rw [letter_eq_mod]; omega
    · rw [length_eq_div_mod]
      have : (n * 16 + t) / 16 = n := by omega
      rw [this, Nat.mod_eq_of_lt hn]

/-- Witness of C21: the word `35 = 2 * 16 + 3` decodes to tag 3 and run length 2. -/
theorem decoder_mod_div_witness :
    (35 : Nat) < 2 ^ 32 ∧ (3 : Nat) < 16 ∧ (2 : Nat) < 2 ^ 28 ∧
    (letter 35 = 35 % 16 ∧ length 35 = 35 / 16 ∧ length 35 < 2 ^ 28) ∧
    (2 * 16 + 3 < 2 ^ 32 ∧ letter (2 * 16 + 3) = 3 ∧ length (2 * 16 + 3) = 2) :=
  ⟨by decide, by decide, by decide, decoder_mod_div.1 35 (by decide),
    decoder_mod_div.2 3 2 (by decide) (by decide)⟩

/-! ## Theorems: both pairing flags -/

/-- C27. With both pairing flags `pairedin_gv` and `pairedout_gv` set, whenever `report_fasta`
returns: every pair (loop index `i`, hit flags at `i` and `i + 2`) with exactly one aligned
mate is written once to the aligned stream and once to the other stream, a pair with both
mates aligned is written once to the aligned stream and not to the other stream, and a pair
with neither mate aligned is written once to the other stream and not to the aligned
stream.  And `report_fasta` does return on a walkable unsplit buffer whose number of
pointers is a multiple of 4. -/
theorem report_fasta_both_flags (x : ReadsBuffer) (read_hits : List Bool) :
    (∀ aligned other, report_fasta true true true true true x read_hits = some (aligned, other) →
      ∀ i ∈ forLoop 4 x.strs x.strs 1, ∃ h1 h2, read_hits[i]? = some h1 ∧ read_hits[i + 2]? = some h2 ∧
        (xor h1 h2 = true → timesWritten aligned i = 1 ∧ timesWritten other i = 1) ∧
        (h1 = true → h2 = true → timesWritten aligned i = 1 ∧ timesWritten other i = 0) ∧
        (h1 = false → h2 = false → timesWritten aligned i = 0 ∧ timesWritten other i = 1)) ∧
    (Walkable x read_hits → x.strs % 4 = 0 →
      ∃ r, report_fasta true true true true true x read_hits = some r) := by
  constructor
  · intro aligned other h i hi
    obtain ⟨h1, h2, e1, e2, ca, co⟩ := paired_counts (Or.inl rfl) h i hi
    refine ⟨h1, h2, e1, e2, ?_, ?_, ?_⟩
    · intro hx
      rw [ca, co]
      cases h1 <;> cases h2 <;> simp at hx ⊢
    · intro a b
      subst a; subst b
      rw [ca, co]
      simp
    · intro a b
      subst a; subst b
      rw [ca, co]
      simp
  · intro hw h4
    have hhit : ∀ i, i < x.strs → ∃ v, read_hits[i]? = some v := fun i hi =>
      ⟨_, List.getElem?_eq_getElem (Nat.lt_of_lt_of_le hi hw.2.2.1)⟩
    obtain ⟨al, hal⟩ := walk_paired hw h4 (pairAccepted true read_hits) (fun i hi => by
      obtain ⟨v1, hv1⟩ := hhit i (by omega)
      obtain ⟨v2, hv2⟩ := hhit (i + 2) hi
      exact ⟨(v1 && v2) || ((v1 || v2) && true), by simp only [pairAccepted, hv1, hv2]⟩)
    obtain ⟨ot, hot⟩ := walk_paired hw h4 (pairRejected true read_hits) (fun i hi => by
      obtain ⟨v1, hv1⟩ := hhit i (by omega)
      obtain ⟨v2, hv2⟩ := hhit (i + 2) hi
      exact ⟨(!v1 && !v2) || ((xor v1 v2) && true), by simp only [pairRejected, hv1, hv2]⟩)
    exact ⟨(al, ot), by simp [report_fasta, fastaAligned, fastaOther, hal, hot]⟩

/-- Witness of C27: the buffer of one pair whose first mate only is aligned; with both flags
set the pair is written to both streams. -/
theorem report_fasta_both_flags_witness :
    Walkable sampleBuffer [false, true, false, false] ∧ sampleBuffer.strs % 4 = 0 ∧
    report_fasta true true true true true sampleBuffer [false, true, false, false] =
      some ([(1, ">a\nAC\n>b\nGT\n".toList)], [(1, ">a\nAC\n>b\nGT\n".toList)]) ∧
    ∃ r, report_fasta true true true true true sampleBuffer [false, true, false, false] = some r :=
  ⟨by decide, by decide, by decide,
    (report_fasta_both_flags sampleBuffer [false, true, false, false]).2 (by decide) (by decide)⟩

/-! ## Theorems: the query id of the free and of the member function -/

theorem scanName_headId : ∀ (h : List Char) (c : Char) (rest : List Char),
    NoSep (headId h) → (c = ' ' ∨ c = '\n' ∨ c = '\t') →
    scanName (h ++ c :: rest) = some (headId h)
  | [], c, rest, _, hc => by
    simp only [List.nil_append, scanName, if_pos hc]
    rfl
  | x :: xs, c, rest, hn, hc => by
    by_cases hx : x = ' '
    · subst hx
      simp only [List.cons_append, scanName, true_or, if_true]
      rfl
    · have hb : (x != ' ') = true := by simp [hx]
      have hhead : headId (x :: xs) = x :: headId xs := by
        simp only [headId, List.takeWhile, hb]
      rw [hhead] at hn ⊢
      have hx1 : x ≠ '\t' := fun e => hn.1 (by rw [e]; exact List.mem_cons_self _ _)
      have hx2 : x ≠ '\n' := fun e => hn.2 (by rw [e]; exact List.mem_cons_self _ _)
      have hn' : NoSep (headId xs) :=
        ⟨fun hm => hn.1 (List.mem_cons_of_mem _ hm), fun hm => hn.2 (List.mem_cons_of_mem _ hm)⟩
      have hcond : ¬ (x = ' ' ∨ x = '\n' ∨ x = '\t') := by
        rintro (e | e | e)
        · exact hx e
        · exact hx2 e
        · exact hx1 e
      show scanName (x :: (xs ++ c :: rest)) = _
      simp only [scanName, if_neg hcond, scanName_headId xs c rest hn' hc, Option.map_some']

/-- C26, counterexample.  For the header `read1<TAB>len=5` (no space), terminated by a newline
for the free function, the tabular branch of the free function `report_blast` writes the
query id `read1`, and `Output::report_blast` writes the whole header `read1<TAB>len=5`. -/
theorem query_id_differs_on_tab :
    (report_blast (sampleGlobals []) (some sampleAlignment) ("read1\tlen=5".toList ++ ['\n'])
        "ref1 16S\n".toList 0 5 20 true 4 1 1 0).map List.head? =
      some (some (Tok.text 0 "read1".toList)) ∧
    (Output.report_blast (sampleGlobals []) sampleIndex [sampleReference]
        (tabRead [sampleAlignment])).map List.head? =
      some (some (Tok.text 0 "read1\tlen=5".toList)) ∧
    (tabRead [sampleAlignment]).header = "read1\tlen=5".toList ∧
    headId "read1\tlen=5".toList = "read1\tlen=5".toList := by
  refine ⟨by rfl, by rfl, rfl, by decide⟩

/-- C26 (amended).  For every read header with no tab and no newline in front of its first
space (in the whole header when it has no space), followed for the free function by a
space, newline or tab: whenever the tabular branch of the free function `report_blast` and
`Output::report_blast` (tabular format, a read with at least one alignment) return, the text
of the free function is one line of fields, the text of the member function is one line of
fields per alignment, and the first field of every one of these lines is the header
truncated at its first space (the whole header when it has no space).  The free function
returns when the reference name is terminated too, the member function when every
alignment can be encoded without undefined behaviour. -/
theorem query_id_free_eq_member (fmt : ℚ → List Char) (g : Globals) (idx : Index)
    (refs : List Reference) (read : Read) (a : Alignment) (c : Char) (rest ref_name : List Char)
    (evalue : ℚ) (readlen bitscore : Nat) (strand : Bool) (id coverage : ℚ)
    (mismatches gaps : Nat) (hf : idx.blastFormat = BlastFormat.TABULAR)
    (hk : KnownOpts g.user_opts) (hne : read.alignv ≠ [])
    (hh : NoSep (headId read.header)) (hc : c = ' ' ∨ c = '\n' ∨ c = '\t') :
    (∀ outFree outMember,
      report_blast g (some a) (read.header ++ c :: rest) ref_name evalue readlen bitscore strand
        id coverage mismatches gaps = some outFree →
      Output.report_blast g idx refs read = some outMember →
      ∃ (fs : List (List Char)) (lines : List (List (List Char))),
        renderAll fmt outFree = tabLine fs ∧
        renderAll fmt outMember = (lines.map tabLine).flatten ∧
        lines.length = read.alignv.length ∧
        fs[0]? = some (headId read.header) ∧ ∀ l ∈ lines, l[0]? = some (headId read.header)) ∧
    ((scanName ref_name).isSome →
      ∃ outFree, report_blast g (some a) (read.header ++ c :: rest) ref_name evalue readlen bitscore
        strand id coverage mismatches gaps = some outFree) ∧
    (Encodable refs read → ∃ outMember, Output.report_blast g idx refs read = some outMember) := by
  have hscan := scanName_headId read.header c rest hh hc
  refine ⟨?_, ?_, ?_⟩
  · intro outFree outMember h1 h2
    obtain ⟨query, subject, hq, -, rfree⟩ :=
      report_blast_render fmt g a _ ref_name evalue readlen bitscore strand id coverage
        mismatches gaps outFree hk h1
    rw [hscan, Option.some.injEq] at hq
    subst hq
    obtain ⟨lines, hl, hr⟩ := reportBlastLoop_tabular_fields fmt g idx refs read hf hk hne
      (fun _ => True) _ _ outMember (fun _ _ => trivial) h2
    refine ⟨_, lines, rfree, hr, hl.length_eq, by simp [recordFieldsFree], ?_⟩
    intro l hlm
    have hall : ∀ (ls : List (List (List Char))) (as : List Alignment),
        List.Forall₂ (fun fs a => True ∧ ∃ ref m1, refs[a.ref_seq]? = some ref ∧
          fs = recordFields fmt g idx read.header ref.header a m1 read.sequence.length) ls as →
        ∀ l ∈ ls, l[0]? = some (headId read.header) := by
      intro ls as hfa
      induction hfa with
      | nil => intro l hl; simp at hl
      | @cons f b fs bs hfb _ ih =>
        intro l hl
        rcases List.mem_cons.mp hl with rfl | hl
        · obtain ⟨-, ref, m1, -, rfl⟩ := hfb
          simp [recordFields]
        · exact ih l hl
    exact hall lines _ hl l hlm
  · intro hs
    obtain ⟨subject, hsub⟩ := Option.isSome_iff_exists.mp hs
    exact ⟨_, by simp only [report_blast, hscan, hsub]; rfl⟩
  · exact fun h => reportBlastLoop_tabular_isSome g idx refs read hf hne _ _ h

set_option maxRecDepth 8000 in
/-- Witness of C26: the header `read1 len=5` of the first scenario gives the query id `read1`
in both functions. -/
theorem query_id_free_eq_member_witness :
    sampleIndex.blastFormat = BlastFormat.TABULAR ∧ NoSep (headId (sampleRead [sampleAlignment]).header) ∧
    (report_blast (sampleGlobals []) (some sampleAlignment)
        ((sampleRead [sampleAlignment]).header ++ '\n' :: []) "ref1 16S\n".toList 0 5 20 true 4 1 1 0).map
      (renderAll sampleFmt) = some "read1\tref1\t#\t5\t1\t0\t1\t5\t1\t5\t#\t20\n".toList ∧
    (Output.report_blast (sampleGlobals []) sampleIndex [sampleReference]
        (sampleRead [sampleAlignment])).map (renderAll sampleFmt) =
      some "read1\tref1\t#\t5\t1\t0\t1\t5\t1\t5\t#\t20\n".toList ∧
    ∃ outFree, report_blast (sampleGlobals []) (some sampleAlignment)
      ((sampleRead [sampleAlignment]).header ++ '\n' :: []) "ref1 16S\n".toList 0 5 20 true 4 1 1 0 =
        some outFree :=
  ⟨rfl, by decide, by rfl, by rfl,
   (query_id_free_eq_member sampleFmt (sampleGlobals []) sampleIndex [sampleReference]
    (sampleRead [sampleAlignment]) sampleAlignment '\n' [] "ref1 16S\n".toList 0 5 20 true 4 1 1 0
    rfl (by decide) (by decide) (by decide) (Or.inr (Or.inl rfl))).2.1 (by decide)⟩

/-! ## Theorems: the numbers of the CIGAR string -/

theorem readBases_pair (w1 w2 : Nat) (n : Int) (s : List Char) (rest : List Tok) :
    readBases (Tok.int w1 n :: Tok.text w2 s :: rest) =
      (if s = ['S'] ∨ s = ['M'] ∨ s = ['I'] then n else 0) + readBases rest := by
  simp only [readBases]

theorem readBases_words (tail : List Tok) : ∀ cigar : List Nat,
    readBases (cigar.flatMap (fun w =>
      [Tok.int 0 (length w),
       Tok.text 0 [if letter w = 0 then 'M' else if letter w = 1 then 'I' else 'D']]) ++ tail) =
    ((matchTotal cigar + insTotal cigar : Nat) : Int) + readBases tail
  | [] => by simp [matchTotal, insTotal, runTotal]
  | w :: ws => by
    have ih := readBases_words tail ws
    simp only [List.flatMap_cons, List.cons_append, List.nil_append, readBases_pair, ih]
    unfold matchTotal insTotal
    simp only [runTotal]
    by_cases h0 : letter w = 0
    · simp [h0]; omega
    · by_cases h1 : letter w = 1
      · simp [h1]; omega
      · simp [h0, h1]

/-- C25. For every alignment whose Match and Insertion run lengths sum to
`readEnd - readBegin + 1`, with `readEnd < readLength` and a trailing clip
`readLength - readEnd - 1` that fits the 32-bit variable that holds it: the cigar column that
`Output::report_blast` writes is a tab followed by the tokens of the CIGAR string, and the
numbers in front of the letters `S`, `M` and `I` of these tokens sum to `readLength`.  The
bound `0 ≤ readBegin` is not needed. -/
theorem cigar_numbers_sum (a : Alignment) (seqlen : Nat)
    (hinv : ((matchTotal a.cigar + insTotal a.cigar : Nat) : Int) = a.read_end1 - a.read_begin1 + 1)
    (hend : a.read_end1 < seqlen) (hfit : (seqlen : Int) - a.read_end1 - 1 < 2 ^ 32) :
    optionalColumns a seqlen ["cigar".toList] = some (Tok.text 0 ['\t'] :: cigarTokens a seqlen) ∧
    readBases (cigarTokens a seqlen) = seqlen := by
  constructor
  · simp [optionalColumns]
  · have e := @ofSigned_of_nonneg ((seqlen : Int) - a.read_end1 - 1) (by omega) hfit
    unfold cigarTokens
    rw [List.append_assoc]
    have hwords := readBases_words
      (if ofSigned ((seqlen : Int) - a.read_end1 - 1) > 0
        then [Tok.int 0 (ofSigned ((seqlen : Int) - a.read_end1 - 1)), Tok.text 0 ['S']] else [])
      a.cigar
    have htail : readBases
        (if ofSigned ((seqlen : Int) - a.read_end1 - 1) > 0
          then [Tok.int 0 (ofSigned ((seqlen : Int) - a.read_end1 - 1)), Tok.text 0 ['S']] else []) =
        (seqlen : Int) - a.read_end1 - 1 := by
      by_cases hpos : ofSigned ((seqlen : Int) - a.read_end1 - 1) > 0
      · rw [if_pos hpos, readBases_pair, e]
        simp [readBases]
      · rw [if_neg hpos]
        have : ofSigned ((seqlen : Int) - a.read_end1 - 1) = 0 := by omega
        rw [this] at e
        simp only [readBases]
        omega
    by_cases hb : a.read_begin1 ≠ 0
    · rw [if_pos hb, List.cons_append, List.cons_append, List.nil_append, readBases_pair, hwords, htail]
      simp only [true_or, if_true]
      omega
    · rw [if_neg hb, List.nil_append, hwords, htail]
      have : a.read_begin1 = 0 := by
        by_contra h; exact hb h
      omega

/-- Witness of C25: the alignment of bases 1..3 of the read of length 5 (CIGAR string
`1S3M1S`): 1 + 3 + 1 = 5. -/
theorem cigar_numbers_sum_witness :
    ((matchTotal clippedAlignment.cigar + insTotal clippedAlignment.cigar : Nat) : Int) =
      clippedAlignment.read_end1 - clippedAlignment.read_begin1 + 1 ∧
    renderAll sampleFmt (cigarTokens clippedAlignment 5) = "1S3M1S".toList ∧
    optionalColumns clippedAlignment 5 ["cigar".toList] =
      some (Tok.text 0 ['\t'] :: cigarTokens clippedAlignment 5) ∧
    readBases (cigarTokens clippedAlignment 5) = (5 : Nat) :=
  ⟨by decide, by decide, cigar_numbers_sum clippedAlignment 5 (by decide) (by decide) (by decide)⟩

/-! ## Theorems: the wrapped renderer and the single walk -/

/-- The match pass leaves the reference cursor where the Target pass leaves it. -/
theorem matchLine_ref_cursor (refseq readseq : List Nat) :
    ∀ (cols : List Nat) (q p : Nat) (rt : List Char × Nat) (rm : List Char × Nat × Nat),
      targetLine refseq cols q = some rt → matchLine refseq readseq cols q p = some rm →
      rm.2.1 = rt.2 := by
  intro cols
  induction cols with
  | nil =>
    intro q p rt rm ht hm
    simp only [targetLine, matchLine, Option.some.injEq] at ht hm
    subst ht; subst hm; rfl
  | cons t ts ih =>
    intro q p rt rm ht hm
    simp only [targetLine, matchLine] at ht hm
    by_cases h1 : t = 1
    · have h0 : t ≠ 0 := by omega
      rw [if_pos h1] at ht
      rw [if_neg h0, if_pos h1, if_pos h1] at hm
      simp only [Option.map_eq_some'] at ht hm
      obtain ⟨y, hy, rfl⟩ := ht
      obtain ⟨z, hz, rfl⟩ := hm
      exact ih _ _ y z hy hz
    · rw [if_neg h1] at ht
      cases hb : baseChar refseq q with
      | none => rw [hb] at ht; simp at ht
      | some ch =>
        rw [hb] at ht
        simp only [Option.map_eq_some'] at ht
        obtain ⟨y, hy, rfl⟩ := ht
        by_cases h0 : t = 0
        · rw [if_pos h0, hb] at hm
          cases hp : baseChar readseq p with
          | none => rw [hp] at hm; simp at hm
          | some s =>
            rw [hp] at hm
            simp only [Option.map_eq_some'] at hm
            obtain ⟨z, hz, rfl⟩ := hm
            exact ih _ _ y z hy hz
        · rw [if_neg h0, if_neg h1, if_neg h1] at hm
          simp only [Option.map_eq_some'] at hm
          obtain ⟨z, hz, rfl⟩ := hm
          exact ih _ _ y z hy hz

/-- On columns tagged Match, Insertion or Deletion the match pass leaves the read cursor
where the Query pass leaves it. -/
theorem matchLine_read_cursor (refseq readseq : List Nat) :
    ∀ (cols : List Nat) (q p : Nat) (rm : List Char × Nat × Nat) (rq : List Char × Nat),
      (∀ t ∈ cols, t ≤ 2) →
      matchLine refseq readseq cols q p = some rm → queryLine readseq cols p = some rq →
      rm.2.2 = rq.2 := by
  intro cols
  induction cols with
  | nil =>
    intro q p rm rq _ hm hq
    simp only [queryLine, matchLine, Option.some.injEq] at hq hm
    subst hq; subst hm; rfl
  | cons t ts ih =>
    intro q p rm rq htags hm hq
    have ht2 : t ≤ 2 := htags t (List.mem_cons_self _ _)
    have hts : ∀ x ∈ ts, x ≤ 2 := fun x hx => htags x (List.mem_cons_of_mem _ hx)
    simp only [queryLine, matchLine] at hq hm
    by_cases h2 : t = 2
    · have h0 : t ≠ 0 := by omega
      have h1 : t ≠ 1 := by omega
      rw [if_pos h2] at hq
      rw [if_neg h0, if_neg h1, if_neg h1] at hm
      simp only [Option.map_eq_some'] at hq hm
      obtain ⟨y, hy, rfl⟩ := hq
      obtain ⟨z, hz, rfl⟩ := hm
      exact ih _ _ z y hts hz hy
    · rw [if_neg h2] at hq
      cases hp : baseChar readseq p with
      | none => rw [hp] at hq; simp at hq
      | some s =>
        rw [hp] at hq
        simp only [Option.map_eq_some'] at hq
        obtain ⟨y, hy, rfl⟩ := hq
        by_cases h0 : t = 0
        · rw [if_pos h0, hp] at hm
          cases hb : baseChar refseq q with
          | none => rw [hb] at hm; simp at hm
          | some ch =>
            rw [hb] at hm
            simp only [Option.map_eq_some'] at hm
            obtain ⟨z, hz, rfl⟩ := hm
            exact ih _ _ z y hts hz hy
        · have h1 : t = 1 := by omega
          rw [if_neg h0, if_pos h1, if_pos h1] at hm
          simp only [Option.map_eq_some'] at hm
          obtain ⟨z, hz, rfl⟩ := hm
          exact ih _ _ z y hts hz hy

theorem mem_expand {t : Nat} : ∀ {ws : List Nat}, t ∈ expand ws → ∃ w ∈ ws, t = letter w
  | [], h => by simp [expand] at h
  | w :: ws, h => by
    simp only [expand, List.mem_append] at h
    rcases h with h | h
    · exact ⟨w, List.mem_cons_self _ _, (List.mem_replicate.mp h).2⟩
    · obtain ⟨v, hv, e⟩ := mem_expand h
      exact ⟨v, List.mem_cons_of_mem _ hv, e⟩

theorem mem_pending {t left : Nat} {ws : List Nat} (h : t ∈ pending left ws) :
    ∃ w ∈ ws, t = letter w := by
  cases ws with
  | nil => simp [pending] at h
  | cons w ws =>
    simp only [pending, List.mem_append] at h
    rcases h with h | h
    · exact ⟨w, List.mem_cons_self _ _, (List.mem_replicate.mp h).2⟩
    · obtain ⟨v, hv, e⟩ := mem_expand h
      exact ⟨v, List.mem_cons_of_mem _ hv, e⟩

theorem pending_tags {cigar : List Nat} (htags : TagsMID cigar) (left e : Nat) :
    ∀ t ∈ pending left (cigar.drop e), t ≤ 2 := by
  intro t ht
  obtain ⟨w, hw, rfl⟩ := mem_pending ht
  exact htags w (List.mem_of_mem_drop hw)
/-- Whenever the block loop returns for a CIGAR with tags Match, Insertion, Deletion, the
columns of its blocks, one block after the other, are the columns that one walk over all
pending columns writes, on each of the three lines. -/
theorem blockLoop_unwrapped (refseq readseq cigar : List Nat) (htags : TagsMID cigar) :
    ∀ (fuel e left qb pb : Nat) (blocks : List Block),
      blockLoop refseq readseq cigar fuel e left qb pb = some blocks →
      ∃ q p p2,
        targetLine refseq (pending left (cigar.drop e)) qb =
          some ((blocks.map fun b => b.targetCols).flatten, q) ∧
        matchLine refseq readseq (pending left (cigar.drop e)) qb pb =
          some ((blocks.map fun b => b.matchCols).flatten, q, p) ∧
        queryLine readseq (pending left (cigar.drop e)) pb =
          some ((blocks.map fun b => b.queryCols).flatten, p2) := by
  have hdone : ∀ (e left qb pb : Nat), ¬ (e < cigar.length ∨ left > 0) →
      ∃ q p p2,
        targetLine refseq (pending left (cigar.drop e)) qb = some (([] : List Char), q) ∧
        matchLine refseq readseq (pending left (cigar.drop e)) qb pb = some ([], q, p) ∧
        queryLine readseq (pending left (cigar.drop e)) pb = some ([], p2) := by
    intro e left qb pb hc
    have he : cigar.length ≤ e := by omega
    rw [List.drop_of_length_le he]
    exact ⟨qb, pb, pb, rfl, rfl, rfl⟩
  intro fuel
  induction fuel with
  | zero =>
    intro e left qb pb blocks h
    simp only [blockLoop] at h
    split at h
    · simp at h
    next hc =>
      simp only [Option.some.injEq] at h
      subst h
      exact hdone e left qb pb hc
  | succ fuel ih =>
    intro e left qb pb blocks h
    by_cases hcond : e < cigar.length ∨ left > 0
    · obtain ⟨rt, rm, rq, rest, ht, hm, hq, hrest, rfl⟩ := blockLoop_succ_some hcond h
      have hRtags := pending_tags htags left e
      generalize hR : pending left (cigar.drop e) = R at ht hm hq hRtags ⊢
      have hq1 := matchLine_ref_cursor refseq readseq _ _ _ rt rm ht hm
      have hp1 := matchLine_read_cursor refseq readseq _ _ _ rm rq
        (fun t htm => hRtags t (List.mem_of_mem_take htm)) hm hq
      cases hstop : (resume left (cigar.drop e) e 0).2.2 with
      | false =>
        rw [hstop] at hrest
        rw [blockLoop_stop _ _ _ _ _ _ _ _ (resume_done_cond hstop)] at hrest
        simp only [Option.some.injEq] at hrest
        subst hrest
        obtain ⟨hlen, -, -⟩ := resume_done left (cigar.drop e) e 0 _ _ (by norm_num)
          (show resume left (cigar.drop e) e 0 = (_, _, false) by rw [← hstop])
        simp only [if_true, hR] at hlen
        have htake : R.take 60 = R := List.take_of_length_le (by omega)
        rw [htake] at ht hm hq
        refine ⟨rt.2, rm.2.2, rq.2, ?_, ?_, ?_⟩
        · simp only [List.map_cons, List.map_nil, List.flatten_cons, List.flatten_nil,
            List.append_nil, ht]
        · simp only [List.map_cons, List.map_nil, List.flatten_cons, List.flatten_nil,
            List.append_nil, hm, ← hq1]
        · simp only [List.map_cons, List.map_nil, List.flatten_cons, List.flatten_nil,
            List.append_nil, hq]
      | true =>
        rw [hstop] at hrest
        simp only [if_true] at hrest
        obtain ⟨-, k, hk1, -, -, hk4⟩ := resume_stop left (cigar.drop e) e 0 _ _ (by norm_num)
          (show resume left (cigar.drop e) e 0 = (_, _, true) by rw [← hstop])
        simp only [if_true, hR, List.drop_drop, Nat.sub_zero] at hk4
        rw [← hk1] at hk4
        obtain ⟨q, p, p2, it, im, iq⟩ := ih _ _ _ _ rest hrest
        rw [hk4] at it im iq
        rw [hq1] at it
        rw [hq1, ← hp1] at im
        refine ⟨q, p, p2, ?_, ?_, ?_⟩
        · rw [← List.take_append_drop 60 R, targetLine_append, ht, Option.some_bind, it]
          simp only [Option.map_some', List.map_cons, List.flatten_cons]
        · rw [← List.take_append_drop 60 R, matchLine_append, hm, Option.some_bind]
          rw [hq1, im]
          simp only [Option.map_some', List.map_cons, List.flatten_cons]
        · rw [← List.take_append_drop 60 R, queryLine_append, hq, Option.some_bind, iq]
          simp only [Option.map_some', List.map_cons, List.flatten_cons]
    · rw [blockLoop_stop _ _ _ _ _ _ _ _ hcond] at h
      simp only [Option.some.injEq] at h
      subst h
      exact hdone e left qb pb hcond
theorem blockLoop_le60 (refseq readseq cigar : List Nat) :
    ∀ (fuel e left qb pb : Nat) (blocks : List Block),
      blockLoop refseq readseq cigar fuel e left qb pb = some blocks →
      ∀ b ∈ blocks, b.queryCols.length ≤ 60 := by
  intro fuel
  induction fuel with
  | zero =>
    intro e left qb pb blocks h
    simp only [blockLoop] at h
    split at h
    · simp at h
    · simp only [Option.some.injEq] at h; subst h; simp
  | succ fuel ih =>
    intro e left qb pb blocks h
    by_cases hcond : e < cigar.length ∨ left > 0
    · obtain ⟨rt, rm, rq, rest, -, -, hq, hrest, rfl⟩ := blockLoop_succ_some hcond h
      have hl := queryLine_length _ _ _ _ hq
      rw [List.length_take] at hl
      intro b hb
      rcases List.mem_cons.mp hb with rfl | hb
      · show rq.1.length ≤ 60
        omega
      · exact ih _ _ _ _ rest hrest b hb
    · rw [blockLoop_stop _ _ _ _ _ _ _ _ hcond] at h
      simp only [Option.some.injEq] at h; subst h; simp

/-- Whenever the pairwise renderer returns for a CIGAR with tags Match, Insertion, Deletion,
the columns of its blocks, one block after the other, are the columns of one walk over the
columns of the whole CIGAR, on each of the three lines. -/
theorem pairwiseBlocks_walk (refseq readseq cigar : List Nat) (ref_begin1 read_begin1 : Int)
    (htags : TagsMID cigar) (blocks : List Block)
    (h : pairwiseBlocks refseq readseq cigar ref_begin1 read_begin1 = some blocks) :
    ∃ q p p2,
      targetLine refseq (expand cigar) (ofSigned ref_begin1) =
        some ((blocks.map fun b => b.targetCols).flatten, q) ∧
      matchLine refseq readseq (expand cigar) (ofSigned ref_begin1) (ofSigned read_begin1) =
        some ((blocks.map fun b => b.matchCols).flatten, q, p) ∧
      queryLine readseq (expand cigar) (ofSigned read_begin1) =
        some ((blocks.map fun b => b.queryCols).flatten, p2) := by
  unfold pairwiseBlocks at h
  by_cases hc : cigar.length > 0
  · rw [if_pos hc] at h
    have hR : pending 0 (cigar.drop 0) = expand cigar := by rw [List.drop_zero, pending_zero]
    have hu := blockLoop_unwrapped refseq readseq cigar htags _ _ _ _ _ blocks h
    rw [hR] at hu
    exact hu
  · rw [if_neg hc] at h
    simp only [Option.some.injEq] at h
    subst h
    have hnil : cigar = [] := List.length_eq_zero.mp (by omega)
    subst hnil
    exact ⟨_, _, _, rfl, rfl, rfl⟩

/-- C22. For every alignment with tags in {Match, Insertion, Deletion} and positive run
lengths: whenever the pairwise renderer returns, the Target columns of its blocks, one block
after the other, are exactly the columns that one walk of the whole CIGAR from `ref_begin1`
writes, the match columns those that one walk from `(ref_begin1, read_begin1)` writes, and
the Query columns those that one walk from `read_begin1` writes; every block except the last
carries 60 columns on each line, and every block carries between 1 and 60 columns, the same
number on each line: the blocks are the consecutive chunks of 60 columns of the unwrapped
lines.  And the renderer does return when all cursor positions are in range. -/
theorem pairwiseBlocks_unwrapped (refseq readseq cigar : List Nat) (ref_begin1 read_begin1 : Int)
    (htags : TagsMID cigar) (hpos : PositiveRuns cigar) :
    (∀ blocks, pairwiseBlocks refseq readseq cigar ref_begin1 read_begin1 = some blocks →
      (∃ q p p2,
        unwrappedTarget refseq cigar ref_begin1 =
          some ((blocks.map fun b => b.targetCols).flatten, q) ∧
        unwrappedMatch refseq readseq cigar ref_begin1 read_begin1 =
          some ((blocks.map fun b => b.matchCols).flatten, q, p) ∧
        unwrappedQuery readseq cigar read_begin1 =
          some ((blocks.map fun b => b.queryCols).flatten, p2)) ∧
      (∀ b ∈ blocks.dropLast, b.targetCols.length = 60 ∧ b.matchCols.length = 60 ∧
        b.queryCols.length = 60) ∧
      (∀ b ∈ blocks, 0 < b.queryCols.length ∧ b.queryCols.length ≤ 60 ∧
        b.targetCols.length = b.queryCols.length ∧ b.matchCols.length = b.queryCols.length)) ∧
    (InRange refseq readseq cigar ref_begin1 read_begin1 →
      ∃ blocks, pairwiseBlocks refseq readseq cigar ref_begin1 read_begin1 = some blocks) := by
  refine ⟨?_, pairwiseBlocks_isSome⟩
  intro blocks h
  have hu := pairwiseBlocks_walk refseq readseq cigar ref_begin1 read_begin1 htags blocks h
  unfold pairwiseBlocks at h
  unfold unwrappedTarget unwrappedMatch unwrappedQuery
  by_cases hc : cigar.length > 0
  · rw [if_pos hc] at h
    obtain ⟨c1, c2⟩ := blockLoop_columns _ _ _ _ _ _ _ _ _ h
    obtain ⟨-, n1, -⟩ := blockLoop_count refseq readseq cigar hpos _ 0 0 _ _ blocks (by omega) h
    have l60 := blockLoop_le60 _ _ _ _ _ _ _ _ _ h
    refine ⟨hu, fun b hb => ?_, fun b hb => ?_⟩
    · have e60 := c2 b hb
      obtain ⟨e1, e2⟩ := c1 b (List.mem_of_mem_dropLast hb)
      omega
    · obtain ⟨e1, e2⟩ := c1 b hb
      exact ⟨n1 b hb, l60 b hb, by omega, by omega⟩
  · rw [if_neg hc] at h
    simp only [Option.some.injEq] at h
    subst h
    exact ⟨hu, by simp, by simp⟩

set_option maxRecDepth 8000 in
/-- Witness of C22: a CIGAR of 60 Match, 30 Insertion and 40 Match columns on a reference of
100 bases `G` and a read of 130 bases `G`: three blocks of 60, 60 and 10 columns whose match
lines, one after the other, are the 130 match columns of the single walk. -/
theorem pairwiseBlocks_unwrapped_witness :
    TagsMID [960, 481, 640] ∧ PositiveRuns [960, 481, 640] ∧
    InRange (List.replicate 100 2) (List.replicate 130 2) [960, 481, 640] 0 0 ∧
    (pairwiseBlocks (List.replicate 100 2) (List.replicate 130 2) [960, 481, 640] 0 0).map
      (fun bs => bs.map fun b => b.matchCols) =
      some [List.replicate 60 '|', List.replicate 30 ' ' ++ List.replicate 30 '|',
        List.replicate 10 '|'] ∧
    (unwrappedMatch (List.replicate 100 2) (List.replicate 130 2) [960, 481, 640] 0 0).map
      (fun r => r.1) =
      some (List.replicate 60 '|' ++ List.replicate 30 ' ' ++ List.replicate 40 '|') ∧
    ∃ blocks, pairwiseBlocks (List.replicate 100 2) (List.replicate 130 2) [960, 481, 640] 0 0 =
      some blocks :=
  ⟨by decide, by decide, by decide, by decide, by decide,
    (pairwiseBlocks_unwrapped (List.replicate 100 2) (List.replicate 130 2) [960, 481, 640] 0 0
      (by decide) (by decide)).2 (by decide)⟩

/-! ## Theorems: the coordinates of the blocks -/

theorem baseChar_ne_dash {s : List Nat} {i : Nat} {ch : Char} (h : baseChar s i = some ch) :
    (ch != '-') = true := by
  unfold baseChar at h
  cases hc : seqAt s i with
  | none => rw [hc] at h; simp at h
  | some code =>
    rw [hc, Option.some_bind] at h
    have hmem : ch ∈ to_char := List.getElem?_mem h
    simp only [to_char, List.mem_cons, List.mem_singleton, List.not_mem_nil, or_false] at hmem
    rcases hmem with rfl | rfl | rfl | rfl | rfl <;> decide

/-- The characters of a Target line that are not `-` are as many as its columns that move the
reference cursor. -/
theorem targetLine_nondash (refseq : List Nat) :
    ∀ (cols : List Nat) (q : Nat) (r : List Char × Nat),
      targetLine refseq cols q = some r → r.1.countP (fun c => c != '-') = refCount cols := by
  intro cols
  induction cols with
  | nil => intro q r h; simp only [targetLine, Option.some.injEq] at h; subst h; rfl
  | cons t ts ih =>
    intro q r h
    rw [refCount_cons]
    simp only [targetLine] at h
    by_cases h1 : t = 1
    · rw [if_pos h1] at h
      simp only [Option.map_eq_some'] at h
      obtain ⟨y, hy, rfl⟩ := h
      have := ih _ y hy
      rw [if_pos h1]
      have hd : (('-' : Char) != '-') = false := by decide
      simp only [List.countP_cons, this, hd, Bool.false_eq_true, if_false]
      omega
    · rw [if_neg h1] at h
      cases hb : baseChar refseq q with
      | none => rw [hb] at h; simp at h
      | some ch =>
        rw [hb] at h
        simp only [Option.map_eq_some'] at h
        obtain ⟨y, hy, rfl⟩ := h
        have := ih _ y hy
        rw [if_neg h1]
        simp only [List.countP_cons, this, baseChar_ne_dash hb, if_true]
        omega

/-- The characters of a Query line that are not `-` are as many as its columns that move the
read cursor. -/
theorem queryLine_nondash (readseq : List Nat) :
    ∀ (cols : List Nat) (p : Nat) (r : List Char × Nat),
      queryLine readseq cols p = some r → r.1.countP (fun c => c != '-') = readCount cols := by
  intro cols
  induction cols with
  | nil => intro p r h; simp only [queryLine, Option.some.injEq] at h; subst h; rfl
  | cons t ts ih =>
    intro p r h
    rw [readCount_cons]
    simp only [queryLine] at h
    by_cases h2 : t = 2
    · rw [if_pos h2] at h
      simp only [Option.map_eq_some'] at h
      obtain ⟨y, hy, rfl⟩ := h
      have := ih _ y hy
      rw [if_pos h2]
      have hd : (('-' : Char) != '-') = false := by decide
      simp only [List.countP_cons, this, hd, Bool.false_eq_true, if_false]
      omega
    · rw [if_neg h2] at h
      cases hb : baseChar readseq p with
      | none => rw [hb] at h; simp at h
      | some ch =>
        rw [hb] at h
        simp only [Option.map_eq_some'] at h
        obtain ⟨y, hy, rfl⟩ := h
        have := ih _ y hy
        rw [if_neg h2]
        simp only [List.countP_cons, this, baseChar_ne_dash hb, if_true]
        omega
/-- With all coordinates in range and below `2^31 - 1`, the block loop returns, every block
spans as many coordinates as its line has characters other than `-`, the first block
starts behind the two cursors, and every later block starts behind the end of the block in
front of it. -/
theorem blockLoop_coords {refseq readseq : List Nat} (hr : Coded refseq) (hs : Coded readseq)
    (cigar : List Nat) :
    ∀ (fuel e left qb pb : Nat),
      (pending left (cigar.drop e)).length < fuel →
      qb + refCount (pending left (cigar.drop e)) ≤ refseq.length →
      qb + refCount (pending left (cigar.drop e)) + 1 < 2 ^ 31 →
      pb + readCount (pending left (cigar.drop e)) ≤ readseq.length →
      pb + readCount (pending left (cigar.drop e)) + 1 < 2 ^ 31 →
      ∃ blocks, blockLoop refseq readseq cigar fuel e left qb pb = some blocks ∧
        (∀ b ∈ blocks,
          b.targetEnd - b.targetStart + 1 = ((b.targetCols.countP fun c => c != '-' : Nat) : Int) ∧
          b.queryEnd - b.queryStart + 1 = ((b.queryCols.countP fun c => c != '-' : Nat) : Int)) ∧
        (∀ b, blocks[0]? = some b → b.targetStart = (qb : Int) + 1 ∧ b.queryStart = (pb : Int) + 1) ∧
        (∀ i b b2, blocks[i]? = some b → blocks[i + 1]? = some b2 →
          b2.targetStart = b.targetEnd + 1 ∧ b2.queryStart = b.queryEnd + 1) := by
  intro fuel
  induction fuel with
  | zero => intro e left qb pb h; omega
  | succ fuel ih =>
    intro e left qb pb hfuel hq1 hq2 hp1 hp2
    by_cases hcond : e < cigar.length ∨ left > 0
    · generalize hR : pending left (cigar.drop e) = R at hfuel hq1 hq2 hp1 hp2 ⊢
      have hrt := refCount_take_add_drop 60 R
      have hpt := readCount_take_add_drop 60 R
      obtain ⟨tcs, ht⟩ := targetLine_some hr (R.take 60) qb (by omega) (by omega)
      obtain ⟨mcs, p1, hm⟩ := matchLine_some hr hs (R.take 60) qb pb (by omega) (by omega)
        (by omega) (by omega)
      obtain ⟨qcs, hq⟩ := queryLine_some hs (R.take 60) pb (by omega) (by omega)
      have ntd := targetLine_nondash _ _ _ _ ht
      have nqd := queryLine_nondash _ _ _ _ hq
      simp only at ntd nqd
      have s1 : toSigned (qb + 1) = ((qb : Nat) : Int) + 1 := by
        rw [toSigned_of_lt (by omega)]; push_cast; rfl
      have s2 : toSigned (pb + 1) = ((pb : Nat) : Int) + 1 := by
        rw [toSigned_of_lt (by omega)]; push_cast; rfl
      have s3 : toSigned (qb + refCount (R.take 60)) = ((qb : Nat) : Int) + refCount (R.take 60) := by
        rw [toSigned_of_lt (by omega)]; push_cast; rfl
      have s4 : toSigned (pb + readCount (R.take 60)) = ((pb : Nat) : Int) + readCount (R.take 60) := by
        rw [toSigned_of_lt (by omega)]; push_cast; rfl
      rw [blockLoop_succ _ _ _ _ _ _ _ _ hcond, hR, ht, hm, hq]
      simp only
      cases hstop : (resume left (cigar.drop e) e 0).2.2 with
      | false =>
        rw [blockLoop_stop _ _ _ _ _ _ _ _ (resume_done_cond hstop)]
        refine ⟨_, rfl, ?_, ?_, ?_⟩
        · intro b hb
          simp only [List.mem_singleton] at hb
          subst hb
          simp only [s1, s2, s3, s4, ntd, nqd]
          constructor <;> omega
        · intro b hb
          simp only [List.getElem?_cons_zero, Option.some.injEq] at hb
          subst hb
          exact ⟨s1, s2⟩
        · intro i b b2 _ hb2
          simp at hb2
      | true =>
        obtain ⟨h60, k, hk1, hk2, hk3, hk4⟩ := resume_stop left (cigar.drop e) e 0 _ _ (by norm_num)
          (show resume left (cigar.drop e) e 0 = (_, _, true) by rw [← hstop])
        simp only [if_true, hR, List.drop_drop] at h60 hk4
        rw [← hk1] at hk4
        simp only [Nat.sub_zero] at h60 hk4
        have hlen' : (R.drop 60).length + 60 = R.length := by rw [List.length_drop]; omega
        obtain ⟨rest, hrest, hall, hhead, hnext⟩ := ih (resume left (cigar.drop e) e 0).1
          (resume left (cigar.drop e) e 0).2.1 (qb + refCount (R.take 60)) (pb + readCount (R.take 60))
          (by rw [hk4]; omega) (by rw [hk4]; omega) (by rw [hk4]; omega) (by rw [hk4]; omega)
          (by rw [hk4]; omega)
        simp only [if_true]
        rw [hrest]
        refine ⟨_, rfl, ?_, ?_, ?_⟩
        · intro b hb
          rcases List.mem_cons.mp hb with rfl | hb
          · simp only [s1, s2, s3, s4, ntd, nqd]
            constructor <;> omega
          · exact hall b hb
        · intro b hb
          simp only [List.getElem?_cons_zero, Option.some.injEq] at hb
          subst hb
          exact ⟨s1, s2⟩
        · intro i b b2 hb hb2
          cases i with
          | zero =>
            simp only [List.getElem?_cons_zero, Option.some.injEq] at hb
            simp only [Nat.zero_add, List.getElem?_cons_succ] at hb2
            subst hb
            obtain ⟨e1, e2⟩ := hhead b2 hb2
            simp only [s3, s4]
            rw [e1, e2]
            push_cast
            exact ⟨rfl, rfl⟩
          | succ i =>
            simp only [List.getElem?_cons_succ] at hb hb2
            exact hnext i b b2 hb hb2
    · rw [blockLoop_stop _ _ _ _ _ _ _ _ hcond]
      exact ⟨[], rfl, by simp, by simp, by simp⟩

/-- C24. For every alignment whose cursor positions are all in range and whose last
coordinates stay below `2^31 - 1` (so that `q + 1` and `p + 1` do not overflow): the
pairwise renderer returns; in every block the Target end coordinate minus the Target start
coordinate plus one is the number of characters other than `-` on the Target line, and
likewise on the Query line; the first block starts at `ref_begin1 + 1` and
`read_begin1 + 1`; and of every two consecutive blocks the later one starts, on the Target
and on the Query line, at the end coordinate of the earlier one plus one.  The statement
holds for every CIGAR, in particular for those with positive run lengths and tags in
{Match, Insertion, Deletion}. -/
theorem pairwiseBlocks_coordinates (refseq readseq cigar : List Nat) (ref_begin1 read_begin1 : Int)
    (h : InRange refseq readseq cigar ref_begin1 read_begin1)
    (hqmax : ref_begin1 + refSpan cigar < 2 ^ 31 - 1)
    (hpmax : read_begin1 + readSpan cigar < 2 ^ 31 - 1) :
    ∃ blocks, pairwiseBlocks refseq readseq cigar ref_begin1 read_begin1 = some blocks ∧
      (∀ b ∈ blocks,
        b.targetEnd - b.targetStart + 1 = ((b.targetCols.countP fun c => c != '-' : Nat) : Int) ∧
        b.queryEnd - b.queryStart + 1 = ((b.queryCols.countP fun c => c != '-' : Nat) : Int)) ∧
      (∀ b, blocks[0]? = some b → b.targetStart = ref_begin1 + 1 ∧ b.queryStart = read_begin1 + 1) ∧
      (∀ i b b2, blocks[i]? = some b → blocks[i + 1]? = some b2 →
        b2.targetStart = b.targetEnd + 1 ∧ b2.queryStart = b.queryEnd + 1) := by
  obtain ⟨hq0, hp0, hq1, hq2, hp1, hp2, hr, hs⟩ := h
  have eq := ofSigned_of_nonneg hq0 (by omega)
  have ep := ofSigned_of_nonneg hp0 (by omega)
  unfold pairwiseBlocks
  by_cases hc : cigar.length > 0
  · rw [if_pos hc]
    have hR : pending 0 (cigar.drop 0) = expand cigar := by rw [List.drop_zero, pending_zero]
    obtain ⟨blocks, hb, hall, hhead, hnext⟩ := blockLoop_coords hr hs cigar (totalCols cigar + 1) 0 0
      (ofSigned ref_begin1) (ofSigned read_begin1)
      (by rw [hR, length_expand]; omega) (by rw [hR, refCount_expand]; omega)
      (by rw [hR, refCount_expand]; omega) (by rw [hR, readCount_expand]; omega)
      (by rw [hR, readCount_expand]; omega)
    refine ⟨blocks, hb, hall, ?_, hnext⟩
    intro b hb0
    obtain ⟨e1, e2⟩ := hhead b hb0
    rw [eq] at e1
    rw [ep] at e2
    exact ⟨e1, e2⟩
  · rw [if_neg hc]
    exact ⟨[], rfl, by simp, by simp, by simp⟩

set_option maxRecDepth 8000 in
/-- Witness of C24: a CIGAR of 60 Match, 30 Insertion and 40 Match columns gives three blocks
with the Target coordinates 1..60, 61..90, 91..100 and the Query coordinates 1..60, 61..120,
121..130. -/
theorem pairwiseBlocks_coordinates_witness :
    InRange (List.replicate 100 2) (List.replicate 130 2) [960, 481, 640] 0 0 ∧
    (pairwiseBlocks (List.replicate 100 2) (List.replicate 130 2) [960, 481, 640] 0 0).map
      (fun bs => bs.map fun b => (b.targetStart, b.targetEnd, b.queryStart, b.queryEnd)) =
      some [(1, 60, 1, 60), (61, 90, 61, 120), (91, 100, 121, 130)] ∧
    ∃ blocks, pairwiseBlocks (List.replicate 100 2) (List.replicate 130 2) [960, 481, 640] 0 0 =
        some blocks ∧
      (∀ b ∈ blocks,
        b.targetEnd - b.targetStart + 1 = ((b.targetCols.countP fun c => c != '-' : Nat) : Int) ∧
        b.queryEnd - b.queryStart + 1 = ((b.queryCols.countP fun c => c != '-' : Nat) : Int)) ∧
      (∀ b, blocks[0]? = some b → b.targetStart = (0 : Int) + 1 ∧ b.queryStart = (0 : Int) + 1) ∧
      (∀ i b b2, blocks[i]? = some b → blocks[i + 1]? = some b2 →
        b2.targetStart = b.targetEnd + 1 ∧ b2.queryStart = b.queryEnd + 1) :=
  ⟨by decide, by decide,
    pairwiseBlocks_coordinates (List.replicate 100 2) (List.replicate 130 2) [960, 481, 640] 0 0
      (by decide) (by decide) (by decide)⟩

/-! ## Theorems: the match line and the counters of calcMismatchGapId -/

/-- A Match word: the loop of `calcMismatchGapId` counts a mismatch where the match pass
writes `*` and an identity where it writes `|`. -/
theorem matchRun_matchLine {refseq readseq : List Nat} (hr : Coded refseq) (hs : Coded readseq) :
    ∀ (n qb pb m id : Nat), qb + n ≤ refseq.length → qb + n < 2 ^ 31 →
      pb + n ≤ readseq.length → pb + n < 2 ^ 31 → m + n < 2 ^ 32 → id + n ≤ 2 ^ 53 →
      ∃ cs, matchLine refseq readseq (List.replicate n 0) qb pb = some (cs, qb + n, pb + n) ∧
        matchRun refseq readseq n qb pb m id =
          some (qb + n, pb + n, m + cs.count '*', id + cs.count '|') ∧
        cs.count ' ' = 0 := by
  intro n
  induction n with
  | zero =>
    intro qb pb m id _ _ _ _ _ _
    exact ⟨[], by simp [matchLine], by simp [matchRun], by simp⟩
  | succ n ih =>
    intro qb pb m id h1 h2 h3 h4 h5 h6
    obtain ⟨r, hr1⟩ := baseChar_isSome hr (i := qb) (by omega) (by omega)
    obtain ⟨s, hs1⟩ := baseChar_isSome hs (i := pb) (by omega) (by omega)
    have hq : u32 (qb + 1) = qb + 1 := u32_of_lt (by omega)
    have hp : u32 (pb + 1) = pb + 1 := u32_of_lt (by omega)
    have e1 : qb + 1 + n = qb + (n + 1) := by omega
    have e2 : pb + 1 + n = pb + (n + 1) := by omega
    have c1 : (('*' : Char) == '*') = true := by decide
    have c2 : (('*' : Char) == '|') = false := by decide
    have c3 : (('*' : Char) == ' ') = false := by decide
    have c4 : (('|' : Char) == '*') = false := by decide
    have c5 : (('|' : Char) == '|') = true := by decide
    have c6 : (('|' : Char) == ' ') = false := by decide
    by_cases hne : r ≠ s
    · obtain ⟨cs, hl, hrun, hsp⟩ := ih (qb + 1) (pb + 1) (u32 (m + 1)) id (by omega) (by omega)
        (by omega) (by omega) (by rw [u32_of_lt (by omega)]; omega) (by omega)
      have hm1 : u32 (m + 1) = m + 1 := u32_of_lt (by omega)
      rw [hm1] at hrun
      refine ⟨'*' :: cs, ?_, ?_, ?_⟩
      · simp only [List.replicate_succ, matchLine, if_true, hr1, hs1, hq, hp, hl, Option.map_some',
          if_neg hne, e1, e2]
      · simp only [matchRun, hr1, hs1, hq, hp, if_pos hne, hm1, hrun, List.count_cons, c1, c2, if_true,
          Bool.false_eq_true, if_false, e1, e2, Nat.add_zero]
        rw [show m + 1 + List.count '*' cs = m + (List.count '*' cs + 1) by omega]
      · simp only [List.count_cons, c3, Bool.false_eq_true, if_false, hsp]
    · have hrs : r = s := by
        by_contra hc; exact hne hc
      have hinc : incrDouble id = id + 1 := by unfold incrDouble; rw [if_pos (by omega)]
      obtain ⟨cs, hl, hrun, hsp⟩ := ih (qb + 1) (pb + 1) m (incrDouble id) (by omega) (by omega)
        (by omega) (by omega) (by omega) (by rw [hinc]; omega)
      rw [hinc] at hrun
      refine ⟨'|' :: cs, ?_, ?_, ?_⟩
      · simp only [List.replicate_succ, matchLine, if_true, hr1, hs1, hq, hp, hl, Option.map_some',
          if_pos hrs, e1, e2]
      · simp only [matchRun, hr1, hs1, hq, hp, if_neg hne, hinc, hrun, List.count_cons, c4, c5, if_true,
          Bool.false_eq_true, if_false, e1, e2, Nat.add_zero]
        rw [show id + 1 + List.count '|' cs = id + (List.count '|' cs + 1) by omega]
      · simp only [List.count_cons, c6, Bool.false_eq_true, if_false, hsp]

/-- A word that is not a Match word: the match pass writes one space per column and moves
the read cursor (Insertion) or the reference cursor (any other tag). -/
theorem matchLine_gapRun (refseq readseq : List Nat) (t : Nat) (ht : t ≠ 0) :
    ∀ (n q p : Nat), (t = 1 → p + n < 2 ^ 32) → (t ≠ 1 → q + n < 2 ^ 32) →
      matchLine refseq readseq (List.replicate n t) q p =
        some (List.replicate n ' ', if t = 1 then q else q + n, if t = 1 then p + n else p) := by
  intro n
  induction n with
  | zero => intro q p _ _; simp [matchLine]
  | succ n ih =>
    intro q p h1 h2
    by_cases hI : t = 1
    · have hp : u32 (p + 1) = p + 1 := u32_of_lt (by have := h1 hI; omega)
      have := ih q (p + 1) (fun _ => by have := h1 hI; omega) (fun h => absurd hI h)
      simp only [List.replicate_succ, matchLine, if_neg ht, if_pos hI, hp, this, Option.map_some']
      rw [show p + 1 + n = p + (n + 1) by omega]
    · have hq : u32 (q + 1) = q + 1 := u32_of_lt (by have := h2 hI; omega)
      have := ih (q + 1) p (fun h => absurd h hI) (fun _ => by have := h2 hI; omega)
      simp only [List.replicate_succ, matchLine, if_neg ht, if_neg hI, hq, this, Option.map_some']
      rw [show q + 1 + n = q + (n + 1) by omega]
/-- With all cursors in range, the match pass over all columns of a CIGAR and the walk of
`calcMismatchGapId` both return, and the counters grow by the numbers of `*`, `|` and
spaces that the match pass writes. -/
theorem calcLoop_matchLine {refseq readseq : List Nat} (hr : Coded refseq) (hs : Coded readseq) :
    ∀ (ws : List Nat) (qb pb : Nat) (m : Metrics),
      qb + refSpan ws ≤ refseq.length → qb + refSpan ws < 2 ^ 31 →
      pb + readSpan ws ≤ readseq.length → pb + readSpan ws < 2 ^ 31 →
      m.mismatches + refSpan ws < 2 ^ 32 → m.id + refSpan ws ≤ 2 ^ 53 →
      m.gaps + refSpan ws + readSpan ws < 2 ^ 32 →
      ∃ cs q1 p1 m1, matchLine refseq readseq (expand ws) qb pb = some (cs, q1, p1) ∧
        calcLoop refseq readseq ws qb pb m = some m1 ∧
        m1.mismatches = m.mismatches + cs.count '*' ∧ m1.id = m.id + cs.count '|' ∧
        m1.gaps = m.gaps + cs.count ' ' := by
  intro ws
  induction ws with
  | nil =>
    intro qb pb m _ _ _ _ _ _ _
    exact ⟨[], qb, pb, m, rfl, rfl, by simp, by simp, by simp⟩
  | cons w ws ih =>
    intro qb pb m h1 h2 h3 h4 h5 h6 h7
    have s1 : ((' ' : Char) == '*') = false := by decide
    have s2 : ((' ' : Char) == '|') = false := by decide
    by_cases h0 : letter w = 0
    · have e1 : refSpan (w :: ws) = length w + refSpan ws := by simp [refSpan, runTotal, h0]
      have e2 : readSpan (w :: ws) = length w + readSpan ws := by simp [readSpan, runTotal, h0]
      rw [e1] at h1 h2 h5 h6 h7; rw [e2] at h3 h4 h7
      obtain ⟨cs0, hl0, hrun0, hsp0⟩ := matchRun_matchLine hr hs (length w) qb pb m.mismatches m.id
        (by omega) (by omega) (by omega) (by omega) (by omega) (by omega)
      have hlen0 := matchLine_length _ _ _ _ _ _ hl0
      simp only [List.length_replicate] at hlen0
      have hc1 : cs0.count '*' ≤ length w := by rw [← hlen0]; exact List.count_le_length _ _
      have hc2 : cs0.count '|' ≤ length w := by rw [← hlen0]; exact List.count_le_length _ _
      obtain ⟨cs, q1, p1, m1, hl, hcalc, a1, a2, a3⟩ := ih (qb + length w) (pb + length w)
        { m with mismatches := m.mismatches + cs0.count '*', id := m.id + cs0.count '|' }
        (by omega) (by omega) (by omega) (by omega) (by dsimp only; omega) (by dsimp only; omega)
        (by dsimp only; omega)
      dsimp only at a1 a2 a3
      refine ⟨cs0 ++ cs, q1, p1, m1, ?_, ?_, ?_, ?_, ?_⟩
      · rw [expand, h0, matchLine_append, hl0, Option.some_bind, hl]
        rfl
      · simp only [calcLoop, if_pos h0, hrun0, hcalc]
      · rw [a1, List.count_append]; omega
      · rw [a2, List.count_append]; omega
      · rw [a3, List.count_append, hsp0]; omega
    · by_cases hI : letter w = 1
      · have e1 : refSpan (w :: ws) = refSpan ws := by simp [refSpan, runTotal, hI]
        have e2 : readSpan (w :: ws) = length w + readSpan ws := by simp [readSpan, runTotal, hI]
        rw [e1] at h1 h2 h5 h6 h7; rw [e2] at h3 h4 h7
        have hl0 := matchLine_gapRun refseq readseq (letter w) h0 (length w) qb pb
          (fun _ => by omega) (fun h => absurd hI h)
        rw [if_pos hI, if_pos hI] at hl0
        obtain ⟨cs, q1, p1, m1, hl, hcalc, a1, a2, a3⟩ := ih qb (pb + length w)
          { m with gaps := m.gaps + length w }
          (by omega) (by omega) (by omega) (by omega) (by dsimp only; omega) (by dsimp only; omega)
          (by dsimp only; omega)
        dsimp only at a1 a2 a3
        refine ⟨List.replicate (length w) ' ' ++ cs, q1, p1, m1, ?_, ?_, ?_, ?_, ?_⟩
        · rw [expand, matchLine_append, hl0, Option.some_bind, hl]
          rfl
        · simp only [calcLoop, if_neg h0, if_pos hI, u32_of_lt (show pb + length w < 2 ^ 32 by omega),
            u32_of_lt (show m.gaps + length w < 2 ^ 32 by omega), hcalc]
        · rw [a1, List.count_append, List.count_replicate, s1]; simp
        · rw [a2, List.count_append, List.count_replicate, s2]; simp
        · rw [a3, List.count_append, List.count_replicate_self]; omega
      · have e1 : refSpan (w :: ws) = length w + refSpan ws := by simp [refSpan, runTotal, hI]
        have e2 : readSpan ws ≤ readSpan (w :: ws) := by simp [readSpan, runTotal]
        rw [e1] at h1 h2 h5 h6 h7
        have hl0 := matchLine_gapRun refseq readseq (letter w) h0 (length w) qb pb
          (fun h => absurd h hI) (fun _ => by omega)
        rw [if_neg hI, if_neg hI] at hl0
        obtain ⟨cs, q1, p1, m1, hl, hcalc, a1, a2, a3⟩ := ih (qb + length w) pb
          { m with gaps := m.gaps + length w }
          (by omega) (by omega) (by omega) (by omega) (by dsimp only; omega) (by dsimp only; omega)
          (by dsimp only; omega)
        dsimp only at a1 a2 a3
        refine ⟨List.replicate (length w) ' ' ++ cs, q1, p1, m1, ?_, ?_, ?_, ?_, ?_⟩
        · rw [expand, matchLine_append, hl0, Option.some_bind, hl]
          rfl
        · simp only [calcLoop, if_neg h0, if_neg hI, u32_of_lt (show qb + length w < 2 ^ 32 by omega),
            u32_of_lt (show m.gaps + length w < 2 ^ 32 by omega), hcalc]
        · rw [a1, List.count_append, List.count_replicate, s1]; simp
        · rw [a2, List.count_append, List.count_replicate, s2]; simp
        · rw [a3, List.count_append, List.count_replicate_self]; omega

/-- C23. For every alignment with tags in {Match, Insertion, Deletion} whose cursor positions
are all in range: `calcMismatchGapId` called with `mismatches = 0`, `gaps = 0`, `id = 0` and
the pairwise renderer both return, and over all blocks of the rendering the number of `|`
among the match columns is the identity count `id`, the number of `*` is `mismatches`, and
the number of spaces among the match columns is `gaps`.  Positive run lengths are not
needed. -/
theorem match_line_counts (refseq readseq cigar : List Nat) (ref_begin1 read_begin1 : Int)
    (htags : TagsMID cigar) (h : InRange refseq readseq cigar ref_begin1 read_begin1) :
    ∃ m blocks,
      calcMismatchGapId refseq readseq cigar ref_begin1 read_begin1 ⟨0, 0, 0⟩ = some m ∧
      pairwiseBlocks refseq readseq cigar ref_begin1 read_begin1 = some blocks ∧
      (blocks.map fun b => b.matchCols).flatten.count '|' = m.id ∧
      (blocks.map fun b => b.matchCols).flatten.count '*' = m.mismatches ∧
      (blocks.map fun b => b.matchCols).flatten.count ' ' = m.gaps := by
  obtain ⟨blocks, hb⟩ := pairwiseBlocks_isSome h
  obtain ⟨q, p, p2, -, hwalk, -⟩ :=
    pairwiseBlocks_walk refseq readseq cigar ref_begin1 read_begin1 htags blocks hb
  obtain ⟨hq0, hp0, hq1, hq2, hp1, hp2, hr, hs⟩ := h
  have eq := ofSigned_of_nonneg hq0 (by omega)
  have ep := ofSigned_of_nonneg hp0 (by omega)
  obtain ⟨cs, q1, p1, m1, hl, hcalc, a1, a2, a3⟩ := calcLoop_matchLine hr hs cigar
    (ofSigned ref_begin1) (ofSigned read_begin1) ⟨0, 0, 0⟩
    (by omega) (by omega) (by omega) (by omega) (by dsimp only; omega) (by dsimp only; omega)
    (by dsimp only; omega)
  rw [hwalk, Option.some.injEq, Prod.mk.injEq] at hl
  obtain ⟨hcs, -⟩ := hl
  dsimp only at a1 a2 a3
  refine ⟨m1, blocks, hcalc, hb, ?_, ?_, ?_⟩
  · rw [hcs, a2]; omega
  · rw [hcs, a1]; omega
  · rw [hcs, a3]; omega

/-- Witness of C23: the alignment with a gap of the read `ACGGAA` on the reference `ACGTA`
(CIGAR 3 Match, 1 Insertion, 2 Match): the match line `||| *|` has 4 identities, 1 mismatch
and 1 gap column, as `calcMismatchGapId` counts. -/
theorem match_line_counts_witness :
    TagsMID gapAlignment.cigar ∧
    InRange sampleReference.sequence (gapRead []).sequence gapAlignment.cigar 0 0 ∧
    calcMismatchGapId sampleReference.sequence (gapRead []).sequence gapAlignment.cigar 0 0 ⟨0, 0, 0⟩ =
      some ⟨1, 1, 4⟩ ∧
    (pairwiseBlocks sampleReference.sequence (gapRead []).sequence gapAlignment.cigar 0 0).map
      (fun bs => bs.map fun b => b.matchCols) = some ["||| *|".toList] ∧
    ∃ m blocks,
      calcMismatchGapId sampleReference.sequence (gapRead []).sequence gapAlignment.cigar 0 0
        ⟨0, 0, 0⟩ = some m ∧
      pairwiseBlocks sampleReference.sequence (gapRead []).sequence gapAlignment.cigar 0 0 =
        some blocks ∧
      (blocks.map fun b => b.matchCols).flatten.count '|' = m.id ∧
      (blocks.map fun b => b.matchCols).flatten.count '*' = m.mismatches ∧
      (blocks.map fun b => b.matchCols).flatten.count ' ' = m.gaps :=
  ⟨by decide, by decide, by decide, by decide,
    match_line_counts sampleReference.sequence (gapRead []).sequence gapAlignment.cigar 0 0
      (by decide) (by decide)⟩

end Sortmerna
